import Mathlib

/-!
Verification of the DNS wire codec (msg.go of the dns package).

The Go source is shallowly embedded: byte buffers are `List Nat` (each entry a
byte value), Go strings are `List Nat` of their bytes, the compression map is an
association list, and every Go function returning `(value..., err)` is modelled
as a Lean function returning `GoR α`, which also records two abnormal outcomes:
a Go runtime panic from an out-of-range index (`panik`) and exhaustion of the
structural-recursion fuel (`nofuel`; the fuel handed out by the wrappers is
proved or checked sufficient wherever a theorem asserts a `ret` outcome).
-/

set_option maxRecDepth 100000

namespace DnsCodec

/-- The error values of msg.go that the codec paths can return
(`ErrFqdn`, `ErrShortBuf`, `ErrLoop`, `ErrBit`, `ErrFmt`, `ErrTag`). -/
inductive DnsErr where
  | fqdn
  | shortBuf
  | loop
  | bit
  | fmtRR
  | tag
  deriving DecidableEq, Repr

/-- Outcome of a Go call: a normal return `ret a e` where `e` is the returned
error value (`none` = nil), a runtime panic, or fuel exhaustion of the model. -/
inductive GoR (α : Type) where
  | ret (a : α) (e : Option DnsErr)
  | panik
  | nofuel
  deriving DecidableEq, Repr

/-- `maxCompressionOffset = 2 << 13`: 14 bits for the compression pointer. -/
def maxCompressionOffset : Nat := 16384

/-- The compression map `map[string]int`: dotted name suffix to byte offset.
Lookups take the first matching entry; the source only ever inserts a key that
is absent, so association-list cons faithfully models Go map assignment. -/
abbrev CTable := List (List Nat × Nat)

/-- Go map lookup `compression[s]`. -/
def ctFind (t : CTable) (k : List Nat) : Option Nat :=
  match t with
  | [] => none
  | (k', v) :: rest => if k' = k then some v else ctFind rest k

/-- Go map assignment `compression[s] = off` (source only assigns absent keys). -/
def ctInsert (t : CTable) (k : List Nat) (v : Nat) : CTable :=
  (k, v) :: t

/-- The byte-removal step of PackDomainName's escape handling: for a backslash
found at index `i`, the source shifts `bs[j] = bs[j+1]` for `j` from `i` to
`lens-2` where `lens` is the (never-changing) allocated length of `bs`; the
last byte is left in place. -/
def shiftDel (bs : List Nat) (i : Nat) : List Nat :=
  bs.take i ++ bs.drop (i + 1) ++ bs.drop (bs.length - 1)

/-- The label-copy loop of PackDomainName: writes the given bytes at `off`,
checking `off+1 > lenmsg` before each write; on overflow returns the buffer
mutated so far on the left. -/
def writeBytesChecked (msg : List Nat) (off : Nat) (bytes : List Nat) :
    Except (List Nat) (List Nat × Nat) :=
  match bytes with
  | [] => .ok (msg, off)
  | b :: rest =>
    if off + 1 > msg.length then .error msg
    else writeBytesChecked (msg.set off b) (off + 1) rest

/-- Outcome of the label loop of PackDomainName: an error return, a `break`
after a compression hit (carrying the pointer target and the offset the
pointer is patched at), or normal loop exit. `bs` is carried out because the
source still inspects `string(bs)` after the loop. -/
inductive PDNLoop where
  | errOut (msg : List Nat) (tbl : Option CTable) (e : DnsErr)
  | brk (msg : List Nat) (tbl : Option CTable) (off ptr noff : Nat) (bs : List Nat)
  | done (msg : List Nat) (tbl : Option CTable) (off : Nat) (bs : List Nat)
  | nofuel
  deriving DecidableEq, Repr

/-- The main loop of `PackDomainName` (`for i := 0; i < ls; i++`).  `lens` is
the allocated length of `bs` (never changes), `ls` the live length (drops by
one per consumed backslash), `begin` the start of the current label.  One
fuel unit is one loop iteration; `i` increases every iteration, so
`ls - i + 1` units always suffice. -/
def packDNAux (fuel : Nat) (bs : List Nat) (ls i begin_ off : Nat)
    (msg : List Nat) (tbl : Option CTable) (compress : Bool) : PDNLoop :=
  match fuel with
  | 0 => .nofuel
  | fuel + 1 =>
    if i < ls then
      let c := bs.getD i 0
      if c = 92 then
        packDNAux fuel (shiftDel bs i) (ls - 1) (i + 1) begin_ off msg tbl compress
      else if c = 46 then
        if i - begin_ ≥ 64 then .errOut msg tbl .shortBuf
        else if off + 1 > msg.length then .errOut msg tbl .shortBuf
        else
          let msg1 := msg.set off (i - begin_)
          let offset := off
          match writeBytesChecked msg1 (off + 1) ((bs.drop begin_).take (i - begin_)) with
          | .error m => .errOut m tbl .shortBuf
          | .ok (msg2, off2) =>
            let sfx := bs.drop begin_
            match tbl with
            | none => packDNAux fuel bs ls (i + 1) (i + 1) off2 msg2 none compress
            | some t =>
              if sfx = [46, 39] then
                packDNAux fuel bs ls (i + 1) (i + 1) off2 msg2 (some t) compress
              else
                match ctFind t sfx with
                | none =>
                  let t' := if offset < maxCompressionOffset then ctInsert t sfx offset else t
                  packDNAux fuel bs ls (i + 1) (i + 1) off2 msg2 (some t') compress
                | some p =>
                  if compress then .brk msg2 (some t) off2 p offset bs
                  else packDNAux fuel bs ls (i + 1) (i + 1) off2 msg2 (some t) compress
      else
        packDNAux fuel bs ls (i + 1) begin_ off msg tbl compress
    else .done msg tbl off bs

/-- `PackDomainName(s, msg, off, compression, compress)`.  Returns the mutated
buffer, the mutated compression table and `off1`; the error (if any) sits in
the `GoR` wrapper.  Unchecked writes of the source (the pointer patch and the
trailing zero) panic when out of range, as the Go originals would. -/
def PackDomainName (s msg : List Nat) (off : Nat) (tbl : Option CTable) (compress : Bool) :
    GoR (List Nat × Option CTable × Nat) :=
  let lenmsg := msg.length
  let ls := s.length
  if ls = 0 ∨ s.getD (ls - 1) 0 ≠ 46 then .ret (msg, tbl, lenmsg) (some .fqdn)
  else
    match packDNAux (ls + 1) s ls 0 0 off msg tbl compress with
    | .nofuel => .nofuel
    | .errOut m t e => .ret (m, t, lenmsg) (some e)
    | .brk m t off' p noff bs' =>
      if bs' = [46] then
        -- the source tests `string(bs) == "."` (returning off, nil) before
        -- the pointer patch
        .ret (m, t, off') none
      else
        let v := Nat.xor p 49152
        if noff < m.length then
          let m1 := m.set noff (v / 256 % 256)
          if noff + 1 < m1.length then
            .ret (m1.set (noff + 1) (v % 256), t, noff + 2) none
          else .panik
        else .panik
    | .done m t off' bs' =>
      if bs' = [46] then .ret (m, t, off') none
      else if off' < m.length then .ret (m.set off' 0, t, off' + 1) none
      else .panik

/-- Go's `s += string(b)` for a byte `b`: the byte is converted as a code
point, so values ≥ 0x80 append the two-byte UTF-8 encoding. -/
def goAppendByte (b : Nat) : List Nat :=
  if b < 128 then [b] else [192 + b / 64, 128 + b % 64]

/-- The label-read loop of UnpackDomainName: each byte is appended, with a
literal dot re-escaped as `\.`. -/
def readLabelBytes (bytes : List Nat) : List Nat :=
  match bytes with
  | [] => []
  | b :: rest =>
    (if b = 46 then [92, 46] else goAppendByte b) ++ readLabelBytes rest

/-- The `Loop:` loop of `UnpackDomainName`.  State: current `off`, the name
built so far `s`, the pointers followed `ptr`, and the saved caller resume
offset `off1` (Go zero value 0 until the first pointer is followed).  The
returned triple is `(s, off1, ptr)`; the hop count `ptr` is exposed so that
the pointer ceiling can be stated. -/
def unpackDNAux (fuel : Nat) (msg : List Nat) (off : Nat) (s : List Nat)
    (ptr off1 : Nat) : GoR (List Nat × Nat × Nat) :=
  match fuel with
  | 0 => .nofuel
  | fuel + 1 =>
    if off ≥ msg.length then .ret ([], msg.length, ptr) (some .shortBuf)
    else
      let c := msg.getD off 0
      let off' := off + 1
      if c &&& 192 = 0 then
        if c = 0 then
          if s = [] then .ret ([46], off', ptr) none
          else if ptr = 0 then .ret (s, off', ptr) none
          else .ret (s, off1, ptr) none
        else if off' + c > msg.length then .ret ([], msg.length, ptr) (some .shortBuf)
        else
          unpackDNAux fuel msg (off' + c)
            (s ++ readLabelBytes ((msg.drop off').take c) ++ [46]) ptr off1
      else if c &&& 192 = 192 then
        if off' ≥ msg.length then .ret ([], msg.length, ptr) (some .shortBuf)
        else
          let c1 := msg.getD off' 0
          let off'' := off' + 1
          let off1' := if ptr = 0 then off'' else off1
          if ptr + 1 > 10 then .ret ([], msg.length, ptr + 1) (some .loop)
          else unpackDNAux fuel msg (Nat.xor c 192 * 256 + c1) s (ptr + 1) off1'
      else .ret ([], msg.length, ptr) (some .bit)

/-- Fuel that provably always suffices for the name-decoding loop. -/
def unpackDNFuel (msg : List Nat) : Nat :=
  12 * (msg.length + 2) + 2

/-- `UnpackDomainName(msg, off)`: returns `(s, off1, hops)` plus the error. -/
def UnpackDomainName (msg : List Nat) (off : Nat) : GoR (List Nat × Nat × Nat) :=
  unpackDNAux (unpackDNFuel msg) msg off [] 0 0

/-- Did the call return normally (as opposed to panicking or running out of
model fuel)? -/
def GoR.isRet {α : Type} : GoR α → Bool
  | .ret _ _ => true
  | _ => false

/-- The returned tuple of a normal return. -/
def GoR.val {α : Type} : GoR α → Option α
  | .ret a _ => some a
  | _ => none

/-- The returned Go error value of a normal return. -/
def GoR.errOf {α : Type} : GoR α → Option DnsErr
  | .ret _ e => e
  | _ => none

/-- Did the call return normally with a nil error? -/
def GoR.okRet {α : Type} : GoR α → Bool
  | .ret _ none => true
  | _ => false

/-- Bytes of the name `"a.example.com."`. -/
def nameAEx : List Nat := [97, 46, 101, 120, 97, 109, 112, 108, 101, 46, 99, 111, 109, 46]

/-- Bytes of the name `"b.example.com."`. -/
def nameBEx : List Nat := [98, 46, 101, 120, 97, 109, 112, 108, 101, 46, 99, 111, 109, 46]

/-- Bytes of the suffix `"example.com."`. -/
def sfxExampleCom : List Nat := [101, 120, 97, 109, 112, 108, 101, 46, 99, 111, 109, 46]

/-- The buffer contents after packing `"a.example.com."` at offset 12 of a
40-byte zero buffer. -/
def c4wire1 : List Nat :=
  List.replicate 12 0 ++ [1, 97, 7, 101, 120, 97, 109, 112, 108, 101, 3, 99, 111, 109, 0]
    ++ List.replicate 13 0

/-- The compression table after packing `"a.example.com."` at offset 12. -/
def c4table1 : CTable :=
  [([99, 111, 109, 46], 22),
   ([101, 120, 97, 109, 112, 108, 101, 46, 99, 111, 109, 46], 14),
   ([97, 46, 101, 120, 97, 109, 112, 108, 101, 46, 99, 111, 109, 46], 12)]

/-- The buffer contents after additionally packing `"b.example.com."` at
offset 27: the label `b`, then a two-byte pointer `C0 0E`; the bytes after
`off1 = 31` are leftovers of the label write the pointer patch replaced. -/
def c4wire2 : List Nat :=
  List.replicate 12 0 ++ [1, 97, 7, 101, 120, 97, 109, 112, 108, 101, 3, 99, 111, 109, 0]
    ++ [1, 98, 192, 14] ++ [120, 97, 109, 112, 108, 101] ++ List.replicate 3 0

/-- The compression table after packing both names. -/
def c4table2 : CTable :=
  ([98, 46, 101, 120, 97, 109, 112, 108, 101, 46, 99, 111, 109, 46], 27) :: c4table1

/-- `tl` extends `t` by compression-table recording: every binding of `tl`
was either already in `t`, or was added for a key absent from `t` with an
offset below the 14-bit pointer ceiling. -/
def tblExtends (t tl : CTable) : Prop :=
  ∀ k v, ctFind tl k = some v →
    ctFind t k = some v ∨ (ctFind t k = none ∧ v < maxCompressionOffset)

/-- The table carried by a loop outcome (`none` for fuel exhaustion). -/
def plTbl : PDNLoop → Option (Option CTable)
  | .errOut _ t _ => some t
  | .brk _ t _ _ _ _ => some t
  | .done _ t _ _ => some t
  | .nofuel => none

/-! ## Structs, field codec, resource-record codec, message codec

The per-tag field handling below is transcribed from `PackStruct` and
`UnpackStruct`.  The struct declarations themselves (types.go) are not in the
inspected sources, so the field lists and tags are modelled from the spec:
the wire header is six 16-bit words (§6); a Question is a compressible
domain name plus two 16-bit codes (§3); the fixed resource-record part is
owner name (compressible), type, class, 32-bit TTL and RDLENGTH (§6); the
registry maps type codes to constructors with a generic opaque fallback
(§4.3).  The modelled registry holds A (1), CNAME (5), TXT (16) and
NSEC (47). -/

/-- The wire-format header: `Id` and the packed `Bits`, then the four
section counts.  Modelled from the spec: six 16-bit fields (§6). -/
structure Header where
  id : Nat
  bits : Nat
  qdcount : Nat
  ancount : Nat
  nscount : Nat
  arcount : Nat
  deriving DecidableEq, Repr

/-- A question entry: name (compressible domain), type code, class code.
Modelled from the spec (§3). -/
structure Question where
  name : List Nat
  qtype : Nat
  qclass : Nat
  deriving DecidableEq, Repr

/-- The fixed part of a resource record.  Modelled from the spec (§6). -/
structure RRHeader where
  name : List Nat
  rrtype : Nat
  rclass : Nat
  ttl : Nat
  rdlength : Nat
  deriving DecidableEq, Repr

/-- A resource record of the modelled registry: A, CNAME, TXT, NSEC, the
generic opaque fallback for unknown type codes, and the bare header that
`UnpackRR` substitutes when the payload parse does not land on
`header offset + RDLENGTH`. -/
inductive RR where
  | a (hdr : RRHeader) (ip : List Nat)
  | cname (hdr : RRHeader) (target : List Nat)
  | txt (hdr : RRHeader) (txts : List (List Nat))
  | nsec (hdr : RRHeader) (nextDomain : List Nat) (bitmap : List Nat)
  | unknown (hdr : RRHeader) (rdata : List Nat)
  | hdrOnly (hdr : RRHeader)
  deriving DecidableEq, Repr

/-- `rr.Header()`. -/
def RR.header : RR → RRHeader
  | .a h _ => h
  | .cname h _ => h
  | .txt h _ => h
  | .nsec h _ _ => h
  | .unknown h _ => h
  | .hdrOnly h => h

/-- The message structure (`Msg`): unpacked header plus the four sections. -/
structure Msg where
  id : Nat
  response : Bool
  opcode : Nat
  authoritative : Bool
  truncated : Bool
  recursionDesired : Bool
  recursionAvailable : Bool
  zero : Bool
  authenticatedData : Bool
  checkingDisabled : Bool
  rcode : Nat
  compress : Bool
  question : List Question
  answer : List (Option RR)
  ns : List (Option RR)
  extra : List (Option RR)
  deriving DecidableEq, Repr

/-- The `*uint16` arm of PackStruct, iterated over a list of values: bounds
check `off+2 > lenmsg`, then `byte(v >> 8), byte(v)`.  On failure the walk
returns `len(msg)` as the offset. -/
def packU16List (msg : List Nat) (off : Nat) (vs : List Nat) : GoR (List Nat × Nat) :=
  match vs with
  | [] => .ret (msg, off) none
  | v :: rest =>
    if off + 2 > msg.length then .ret (msg, msg.length) (some .shortBuf)
    else packU16List ((msg.set off (v / 256 % 256)).set (off + 1) (v % 256)) (off + 2) rest

/-- The `*uint32` arm of PackStruct: bounds check `off+4 > lenmsg`, then the
four bytes most significant first. -/
def packU32 (msg : List Nat) (off v : Nat) : GoR (List Nat × Nat) :=
  if off + 4 > msg.length then .ret (msg, msg.length) (some .shortBuf)
  else .ret ((((msg.set off (v / 16777216 % 256)).set (off + 1) (v / 65536 % 256)).set
      (off + 2) (v / 256 % 256)).set (off + 3) (v % 256), off + 4) none

/-- One counted string of the `txt` arm of PackStruct: fails when the string
exceeds 255 octets or `off+1+len` crosses the buffer; otherwise a length
byte followed by the octets. -/
def packCountedString (msg : List Nat) (off : Nat) (s : List Nat) : GoR (List Nat × Nat) :=
  if s.length > 255 ∨ off + 1 + s.length > msg.length then .ret (msg, msg.length) (some .shortBuf)
  else
    match writeBytesChecked (msg.set off s.length) (off + 1) s with
    | .error m => .ret (m, m.length) (some .shortBuf)
    | .ok (m, o) => .ret (m, o) none

/-- The `txt` arm of PackStruct over the whole `[]string`. -/
def packTxts (msg : List Nat) (off : Nat) (ss : List (List Nat)) : GoR (List Nat × Nat) :=
  match ss with
  | [] => .ret (msg, off) none
  | s :: rest =>
    match packCountedString msg off s with
    | .ret (m, o) none => packTxts m o rest
    | r => r

/-- The `*net.IP` arm of PackStruct with tag `a`: a 16-byte value encodes
its last four bytes, a 4-byte value encodes as is, an empty value encodes
nothing, and any other length fails. -/
def packIPv4 (msg : List Nat) (off : Nat) (ip : List Nat) : GoR (List Nat × Nat) :=
  if ip.length = 16 then
    if off + 4 > msg.length then .ret (msg, msg.length) (some .shortBuf)
    else .ret ((((msg.set off (ip.getD 12 0)).set (off + 1) (ip.getD 13 0)).set
        (off + 2) (ip.getD 14 0)).set (off + 3) (ip.getD 15 0), off + 4) none
  else if ip.length = 4 then
    if off + 4 > msg.length then .ret (msg, msg.length) (some .shortBuf)
    else .ret ((((msg.set off (ip.getD 0 0)).set (off + 1) (ip.getD 1 0)).set
        (off + 2) (ip.getD 2 0)).set (off + 3) (ip.getD 3 0), off + 4) none
  else if ip.length = 0 then .ret (msg, off) none
  else .ret (msg, msg.length) (some .shortBuf)

/-- The inner loop of the `nsec` arm of PackStruct (the windowed type
bitmap), one iteration per type code; carries `lastwindow`, the current
window `length` and the offset. -/
def packNsecLoop (fv : List Nat) (lastwindow len_ off : Nat) (msg : List Nat) :
    GoR (List Nat × Nat × Nat) :=
  match fv with
  | [] => .ret (msg, off, len_) none
  | t :: rest =>
    let window := t / 256
    let off1 := if lastwindow ≠ window then off + len_ + 3 else off
    if lastwindow ≠ window ∧ off1 > msg.length then .ret (msg, msg.length, len_) (some .shortBuf)
    else
      let len' := (t - window * 256) / 8
      let bit := t - window * 256 - len' * 8
      if off1 + 2 + len' > msg.length then .ret (msg, msg.length, len') (some .shortBuf)
      else
        let m1 := (msg.set off1 (window % 256)).set (off1 + 1) ((len' + 1) % 256)
        let m2 := m1.set (off1 + 2 + len') ((m1.getD (off1 + 2 + len') 0 ||| 2 ^ (7 - bit)) % 256)
        packNsecLoop rest window len' off1 m2

/-- The `nsec` arm of PackStruct: an empty set packs nothing; otherwise the
windowed bitmap with the final `off += 2 + length; off++` and its trailing
bounds check. -/
def packNsecBitmap (fv : List Nat) (msg : List Nat) (off : Nat) : GoR (List Nat × Nat) :=
  if fv = [] then .ret (msg, off) none
  else if off + 2 > msg.length then .ret (msg, msg.length) (some .shortBuf)
  else
    match packNsecLoop fv 0 0 off msg with
    | .ret (m, o, len_) none =>
      if o + 2 + len_ + 1 > m.length then .ret (m, m.length) (some .shortBuf)
      else .ret (m, o + 2 + len_ + 1) none
    | .ret (m, o, _) (some e) => .ret (m, o) (some e)
    | .panik => .panik
    | .nofuel => .nofuel

/-- The modelled encode of the opaque unknown-type payload.  Modelled from
the spec: the fallback representation "preserves raw RDATA bytes losslessly"
(§4.3), written verbatim with the usual fail-fast bounds check (§4.2). -/
def packBlob (msg : List Nat) (off : Nat) (bytes : List Nat) : GoR (List Nat × Nat) :=
  if off + bytes.length > msg.length then .ret (msg, msg.length) (some .shortBuf)
  else
    match writeBytesChecked msg off bytes with
    | .error m => .ret (m, m.length) (some .shortBuf)
    | .ok (m, o) => .ret (m, o) none

/-- `PackStruct` on the wire header: six 16-bit fields in order. -/
def packStructHeader (dh : Header) (msg : List Nat) (off : Nat) : GoR (List Nat × Nat) :=
  packU16List msg off [dh.id, dh.bits, dh.qdcount, dh.ancount, dh.nscount, dh.arcount]

/-- `PackStruct` on a Question: compressible name, then two 16-bit codes. -/
def packStructQuestion (q : Question) (msg : List Nat) (off : Nat) (tbl : Option CTable)
    (compress : Bool) : GoR (List Nat × Option CTable × Nat) :=
  match PackDomainName q.name msg off tbl (true && compress) with
  | .ret (m, t, o) none =>
    match packU16List m o [q.qtype, q.qclass] with
    | .ret (m2, o2) e => .ret (m2, t, o2) e
    | .panik => .panik
    | .nofuel => .nofuel
  | .ret (m, t, _) (some e) => .ret (m, t, m.length) (some e)
  | .panik => .panik
  | .nofuel => .nofuel

/-- The fixed resource-record part as packed by `PackStruct`: compressible
owner name, type, class, 32-bit TTL, RDLENGTH. -/
def packRRHeaderPart (h : RRHeader) (msg : List Nat) (off : Nat) (tbl : Option CTable)
    (compress : Bool) : GoR (List Nat × Option CTable × Nat) :=
  match PackDomainName h.name msg off tbl (true && compress) with
  | .ret (m, t, o) none =>
    match packU16List m o [h.rrtype, h.rclass] with
    | .ret (m2, o2) none =>
      match packU32 m2 o2 h.ttl with
      | .ret (m3, o3) none =>
        match packU16List m3 o3 [h.rdlength] with
        | .ret (m4, o4) e => .ret (m4, t, o4) e
        | .panik => .panik
        | .nofuel => .nofuel
      | .ret (m3, o3) (some e) => .ret (m3, t, o3) (some e)
      | .panik => .panik
      | .nofuel => .nofuel
    | .ret (m2, o2) (some e) => .ret (m2, t, o2) (some e)
    | .panik => .panik
    | .nofuel => .nofuel
  | .ret (m, t, _) (some e) => .ret (m, t, m.length) (some e)
  | .panik => .panik
  | .nofuel => .nofuel

/-- `PackStruct` on a whole resource record: the fixed part, then the
payload fields of the record's type (the `NextDomain` of NSEC carries the
non-compressible `domain` tag). -/
def packStructRR (rr : RR) (msg : List Nat) (off : Nat) (tbl : Option CTable)
    (compress : Bool) : GoR (List Nat × Option CTable × Nat) :=
  match packRRHeaderPart rr.header msg off tbl compress with
  | .ret (m, t, o) none =>
    (match rr with
     | .a _ ip =>
       match packIPv4 m o ip with
       | .ret (m2, o2) e => .ret (m2, t, o2) e
       | .panik => .panik
       | .nofuel => .nofuel
     | .cname _ target =>
       match PackDomainName target m o t (true && compress) with
       | .ret (m2, t2, o2) none => .ret (m2, t2, o2) none
       | .ret (m2, t2, _) (some e) => .ret (m2, t2, m2.length) (some e)
       | .panik => .panik
       | .nofuel => .nofuel
     | .txt _ ss =>
       match packTxts m o ss with
       | .ret (m2, o2) e => .ret (m2, t, o2) e
       | .panik => .panik
       | .nofuel => .nofuel
     | .nsec _ nd bm =>
       match PackDomainName nd m o t (false && compress) with
       | .ret (m2, t2, o2) none =>
         match packNsecBitmap bm m2 o2 with
         | .ret (m3, o3) e => .ret (m3, t2, o3) e
         | .panik => .panik
         | .nofuel => .nofuel
       | .ret (m2, t2, _) (some e) => .ret (m2, t2, m2.length) (some e)
       | .panik => .panik
       | .nofuel => .nofuel
     | .unknown _ rdata =>
       match packBlob m o rdata with
       | .ret (m2, o2) e => .ret (m2, t, o2) e
       | .panik => .panik
       | .nofuel => .nofuel
     | .hdrOnly _ => .ret (m, t, o) none)
  | .ret (m, t, o) (some e) => .ret (m, t, o) (some e)
  | .panik => .panik
  | .nofuel => .nofuel

/-- Skip the owner name already written at `off` (labels, a terminating zero
byte, or a two-byte pointer) to locate the fixed part behind it.  Part of
the RDLENGTH patching modelled from the spec (§4.3). -/
def skipName (msg : List Nat) : Nat → Nat → Option Nat
  | _, 0 => none
  | off, fuel + 1 =>
    if off ≥ msg.length then none
    else
      let c := msg.getD off 0
      if c = 0 then some (off + 1)
      else if c &&& 192 = 192 then some (off + 2)
      else skipName msg (off + 1 + c) fuel

/-- `rawSetRdlength(msg, off, off1)`.  Modelled from the spec: "patches the
placeholder with the actual payload length" (§4.3): the two RDLENGTH bytes
sit eight bytes behind the owner name, and the payload runs from there to
`off1`. -/
def rawSetRdlength (msg : List Nat) (off off1 : Nat) : Option (List Nat) :=
  match skipName msg off (msg.length + 1) with
  | none => none
  | some p =>
    let rdl := off1 - (p + 8 + 2)
    if p + 8 + 2 ≤ msg.length then
      some ((msg.set (p + 8) (rdl / 256 % 256)).set (p + 8 + 1) (rdl % 256))
    else none

/-- `PackRR`: a nil record fails with the format error; otherwise
`PackStruct` then the RDLENGTH patch (whose failure is ErrShortBuf). -/
def PackRR (rr : Option RR) (msg : List Nat) (off : Nat) (tbl : Option CTable)
    (compress : Bool) : GoR (List Nat × Option CTable × Nat) :=
  match rr with
  | none => .ret (msg, tbl, msg.length) (some .fmtRR)
  | some rr =>
    match packStructRR rr msg off tbl compress with
    | .ret (m, t, o1) none =>
      match rawSetRdlength m off o1 with
      | some m2 => .ret (m2, t, o1) none
      | none => .ret (m, t, m.length) (some .shortBuf)
    | .ret (m, t, o1) (some e) => .ret (m, t, m.length) (some e)
    | .panik => .panik
    | .nofuel => .nofuel

/-- The `*uint16` arm of UnpackStruct: bounds check then
`uint16(msg[off])<<8 | uint16(msg[off+1])`. -/
def unpackU16 (msg : List Nat) (off : Nat) : GoR (Nat × Nat) :=
  if off + 2 > msg.length then .ret (0, msg.length) (some .shortBuf)
  else .ret (msg.getD off 0 * 256 + msg.getD (off + 1) 0, off + 2) none

/-- The `*uint32` arm of UnpackStruct. -/
def unpackU32 (msg : List Nat) (off : Nat) : GoR (Nat × Nat) :=
  if off + 4 > msg.length then .ret (0, msg.length) (some .shortBuf)
  else .ret (msg.getD off 0 * 16777216 + msg.getD (off + 1) 0 * 65536
    + msg.getD (off + 2) 0 * 256 + msg.getD (off + 3) 0, off + 4) none

/-- `UnpackStruct` on the wire header: six 16-bit reads. -/
def unpackStructHeader (msg : List Nat) (off : Nat) : GoR (Header × Nat) :=
  match unpackU16 msg off with
  | .ret (id, o1) none =>
    match unpackU16 msg o1 with
    | .ret (bits, o2) none =>
      match unpackU16 msg o2 with
      | .ret (qd, o3) none =>
        match unpackU16 msg o3 with
        | .ret (an, o4) none =>
          match unpackU16 msg o4 with
          | .ret (ns, o5) none =>
            match unpackU16 msg o5 with
            | .ret (ar, o6) e => .ret (⟨id, bits, qd, an, ns, ar⟩, o6) e
            | _ => .ret (⟨0, 0, 0, 0, 0, 0⟩, msg.length) (some .shortBuf)
          | _ => .ret (⟨0, 0, 0, 0, 0, 0⟩, msg.length) (some .shortBuf)
        | _ => .ret (⟨0, 0, 0, 0, 0, 0⟩, msg.length) (some .shortBuf)
      | _ => .ret (⟨0, 0, 0, 0, 0, 0⟩, msg.length) (some .shortBuf)
    | _ => .ret (⟨0, 0, 0, 0, 0, 0⟩, msg.length) (some .shortBuf)
  | _ => .ret (⟨0, 0, 0, 0, 0, 0⟩, msg.length) (some .shortBuf)

/-- `UnpackStruct` on a Question: name, then the two 16-bit codes. -/
def unpackQuestionStruct (msg : List Nat) (off : Nat) : GoR (Question × Nat) :=
  match UnpackDomainName msg off with
  | .ret (s, o, _) none =>
    match unpackU16 msg o with
    | .ret (qt, o2) none =>
      match unpackU16 msg o2 with
      | .ret (qc, o3) e => .ret (⟨s, qt, qc⟩, o3) e
      | .panik => .panik
      | .nofuel => .nofuel
    | .ret (_, o2) (some e) => .ret (⟨[], 0, 0⟩, o2) (some e)
    | .panik => .panik
    | .nofuel => .nofuel
  | .ret (_, o, _) (some e) => .ret (⟨[], 0, 0⟩, o) (some e)
  | .panik => .panik
  | .nofuel => .nofuel

/-- `UnpackStruct` on the fixed resource-record part. -/
def unpackRRHeaderStruct (msg : List Nat) (off : Nat) : GoR (RRHeader × Nat) :=
  match UnpackDomainName msg off with
  | .ret (s, o, _) none =>
    match unpackU16 msg o with
    | .ret (rt, o2) none =>
      match unpackU16 msg o2 with
      | .ret (rc, o3) none =>
        match unpackU32 msg o3 with
        | .ret (ttl, o4) none =>
          match unpackU16 msg o4 with
          | .ret (rdl, o5) e => .ret (⟨s, rt, rc, ttl, rdl⟩, o5) e
          | .panik => .panik
          | .nofuel => .nofuel
        | .ret (_, o4) (some e) => .ret (⟨[], 0, 0, 0, 0⟩, o4) (some e)
        | .panik => .panik
        | .nofuel => .nofuel
      | .ret (_, o3) (some e) => .ret (⟨[], 0, 0, 0, 0⟩, o3) (some e)
      | .panik => .panik
      | .nofuel => .nofuel
    | .ret (_, o2) (some e) => .ret (⟨[], 0, 0, 0, 0⟩, o2) (some e)
    | .panik => .panik
    | .nofuel => .nofuel
  | .ret (_, o, _) (some e) => .ret (⟨[], 0, 0, 0, 0⟩, o) (some e)
  | .panik => .panik
  | .nofuel => .nofuel

/-- The `*net.IP` arm of UnpackStruct with tag `a`: `net.IPv4` builds the
16-byte IPv4-in-IPv6 representation. -/
def unpackIPv4Go (msg : List Nat) (off : Nat) : GoR (List Nat × Nat) :=
  if off + 4 > msg.length then .ret ([], msg.length) (some .shortBuf)
  else .ret ([0, 0, 0, 0, 0, 0, 0, 0, 0, 0, 255, 255,
    msg.getD off 0, msg.getD (off + 1) 0, msg.getD (off + 2) 0, msg.getD (off + 3) 0],
    off + 4) none

/-- The `[]string`/`txt` arm of UnpackStruct: repeated counted strings; the
source keeps looping while the absolute offset is below RDLENGTH (the
`off < rdlength` comparison of the source, absolute against relative).  The
unguarded `msg[off]` read panics when out of range. -/
def unpackTxtLoop (fuel : Nat) (msg : List Nat) (off rdlength : Nat)
    (acc : List (List Nat)) : GoR (List (List Nat) × Nat) :=
  match fuel with
  | 0 => .nofuel
  | fuel + 1 =>
    if off ≥ msg.length then .panik
    else
      let l := msg.getD off 0
      if off + l + 1 > msg.length then .ret ([], msg.length) (some .shortBuf)
      else
        let acc' := acc ++ [(msg.drop (off + 1)).take l]
        let off' := off + l + 1
        if off' < rdlength then unpackTxtLoop fuel msg off' rdlength acc'
        else .ret (acc', off') none

/-- The bit positions (0 = most significant) set in a byte, in the order the
source checks them (`0x80` down to `0x01`). -/
def byteBits (b : Nat) : List Nat :=
  (if b &&& 128 = 128 then [0] else []) ++ (if b &&& 64 = 64 then [1] else [])
    ++ (if b &&& 32 = 32 then [2] else []) ++ (if b &&& 16 = 16 then [3] else [])
    ++ (if b &&& 8 = 8 then [4] else []) ++ (if b &&& 4 = 4 then [5] else [])
    ++ (if b &&& 2 = 2 then [6] else []) ++ (if b &&& 1 = 1 then [7] else [])

/-- Type codes contributed by the bytes of one bitmap window. -/
def windowCodes (window j : Nat) (bytes : List Nat) : List Nat :=
  match bytes with
  | [] => []
  | b :: rest =>
    (byteBits b).map (fun bit => window * 256 + j * 8 + bit) ++ windowCodes window (j + 1) rest

/-- The window loop of the `nsec` arm of UnpackStruct (`for off+2 < endrr`):
window byte, length byte (0 or > 32 is a format error), then the window's
octets.  The reads inside the loop are unguarded in the source and panic
when out of range. -/
def unpackNsecWindows (fuel : Nat) (msg : List Nat) (off endrr : Nat) (acc : List Nat) :
    GoR (List Nat × Nat) :=
  match fuel with
  | 0 => .nofuel
  | fuel + 1 =>
    if off + 2 < endrr then
      if off + 1 ≥ msg.length then .panik
      else
        let window := msg.getD off 0
        let len_ := msg.getD (off + 1) 0
        if len_ = 0 then .ret ([], msg.length) (some .fmtRR)
        else if len_ > 32 then .ret ([], msg.length) (some .fmtRR)
        else if off + 2 + len_ > msg.length then .panik
        else
          unpackNsecWindows fuel msg (off + 2 + len_) endrr
            (acc ++ windowCodes window 0 ((msg.drop (off + 2)).take len_))
    else .ret (acc, off) none

/-- The `nsec` arm of UnpackStruct.  `rdstart` is declared but never
assigned in the source, so `endrr = 0 + rdlength`. -/
def unpackNsecArm (msg : List Nat) (off rdlength : Nat) : GoR (List Nat × Nat) :=
  if rdlength = 0 then .ret ([], msg.length) (some .fmtRR)
  else
    let endrr := 0 + rdlength
    if off + 2 > msg.length then .ret ([], msg.length) (some .shortBuf)
    else unpackNsecWindows (rdlength + 2) msg off endrr []

/-- The modelled decode of the opaque unknown-type payload: exactly the
declared RDLENGTH octets, kept verbatim.  Modelled from the spec (§4.3). -/
def unpackBlob (msg : List Nat) (off rdlength : Nat) : GoR (List Nat × Nat) :=
  if off + rdlength > msg.length then .ret ([], msg.length) (some .shortBuf)
  else .ret ((msg.drop off).take rdlength, off + rdlength) none

/-- The constructors of the modelled registry. -/
inductive RRKind where
  | ka
  | kcname
  | ktxt
  | knsec
  | kunknown
  deriving DecidableEq, Repr

/-- The registry lookup `rr_mk[type]` with the generic fallback.  Modelled
from the spec (§4.3, §6). -/
def rrMk (t : Nat) : RRKind :=
  if t = 1 then .ka
  else if t = 5 then .kcname
  else if t = 16 then .ktxt
  else if t = 47 then .knsec
  else .kunknown

/-- `UnpackStruct` on a whole resource record: the fixed part from `off0`,
then the payload fields of the looked-up kind.  A record aborted by an error
is represented as `none` (its Go counterpart is a partially filled struct
that the caller discards together with the error). -/
def unpackStructRR (k : RRKind) (msg : List Nat) (off : Nat) : GoR (Option RR × Nat) :=
  match unpackRRHeaderStruct msg off with
  | .ret (h, o) none =>
    match k with
    | .ka =>
      match unpackIPv4Go msg o with
      | .ret (ip, o2) none => .ret (some (.a h ip), o2) none
      | .ret (_, o2) (some e) => .ret (none, o2) (some e)
      | .panik => .panik
      | .nofuel => .nofuel
    | .kcname =>
      match UnpackDomainName msg o with
      | .ret (s, o2, _) none => .ret (some (.cname h s), o2) none
      | .ret (_, o2, _) (some e) => .ret (none, o2) (some e)
      | .panik => .panik
      | .nofuel => .nofuel
    | .ktxt =>
      match unpackTxtLoop (h.rdlength + 2) msg o h.rdlength [] with
      | .ret (ss, o2) none => .ret (some (.txt h ss), o2) none
      | .ret (_, o2) (some e) => .ret (none, o2) (some e)
      | .panik => .panik
      | .nofuel => .nofuel
    | .knsec =>
      match UnpackDomainName msg o with
      | .ret (nd, o2, _) none =>
        match unpackNsecArm msg o2 h.rdlength with
        | .ret (codes, o3) none => .ret (some (.nsec h nd codes), o3) none
        | .ret (_, o3) (some e) => .ret (none, o3) (some e)
        | .panik => .panik
        | .nofuel => .nofuel
      | .ret (_, o2, _) (some e) => .ret (none, o2) (some e)
      | .panik => .panik
      | .nofuel => .nofuel
    | .kunknown =>
      match unpackBlob msg o h.rdlength with
      | .ret (rd, o2) none => .ret (some (.unknown h rd), o2) none
      | .ret (_, o2) (some e) => .ret (none, o2) (some e)
      | .panik => .panik
      | .nofuel => .nofuel
  | .ret (_, o) (some e) => .ret (none, o) (some e)
  | .panik => .panik
  | .nofuel => .nofuel

/-- `UnpackRR`: the fixed part is read first (for type code and RDLENGTH),
the payload is parsed from the original offset with the looked-up kind, and
a parse that does not land on `header offset + RDLENGTH` is resolved by
returning the bare header, the declared end offset and a nil error. -/
def UnpackRR (msg : List Nat) (off : Nat) : GoR (Option RR × Nat) :=
  match unpackRRHeaderStruct msg off with
  | .ret (h, offh) none =>
    let end_ := offh + h.rdlength
    match unpackStructRR (rrMk h.rrtype) msg off with
    | .ret (rrv, offp) e =>
      if offp ≠ end_ then .ret (some (.hdrOnly h), end_) none
      else .ret (rrv, offp) e
    | .panik => .panik
    | .nofuel => .nofuel
  | .ret (_, _) (some e) => .ret (none, msg.length) (some e)
  | .panik => .panik
  | .nofuel => .nofuel

/-! ## Length estimation and the message codec -/

/-- `Question.Len()`.  Modelled from the spec (§4.4): the counted-label
encoding of a fully qualified name takes `len(name)+1` octets, plus the two
16-bit codes. -/
def questionLen (q : Question) : Nat :=
  q.name.length + 1 + 4

/-- The per-record length estimate (`rr.Len()`).  Modelled from the spec
(§4.4): owner name ≤ `len+1`, ten fixed octets, then a payload bound: 4 for
an address, `len+1` per domain name or counted string, `34·(n+1)` for a
bitmap of `n` codes (each window contributes at most window byte + length
byte + 32 octets), and the raw length for an opaque payload. -/
def rrLenEst (rr : RR) : Nat :=
  let hl := rr.header.name.length + 1 + 10
  match rr with
  | .a _ _ => hl + 4
  | .cname _ target => hl + target.length + 1
  | .txt _ ss => hl + (ss.map (fun s => s.length + 1)).sum
  | .nsec _ nd bm => hl + nd.length + 1 + 34 * (bm.length + 1)
  | .unknown _ rd => hl + rd.length
  | .hdrOnly _ => hl

/-- `SplitLabels`: the labels of a dotted name, `\.` kept literal.
Modelled from the spec (§4.1). -/
def splitLabelsAux : List Nat → List Nat → List (List Nat)
  | [], cur => if cur = [] then [] else [cur]
  | 92 :: x :: rest, cur => splitLabelsAux rest (cur ++ [92, x])
  | 46 :: rest, cur => cur :: splitLabelsAux rest []
  | b :: rest, cur => splitLabelsAux rest (cur ++ [b])

/-- `SplitLabels(s)`. -/
def SplitLabels (s : List Nat) : List (List Nat) :=
  splitLabelsAux s []

/-- The walk of `compressionHelper` from the last label towards the first,
accumulating the suffix string `pref`. -/
def compressionHelperAux : CTable → List (List Nat) → List Nat → CTable
  | c, [], _ => c
  | c, l :: rest, pref =>
    compressionHelperAux (ctInsert c (l ++ 46 :: pref) (1 + pref.length + l.length))
      rest (l ++ 46 :: pref)

/-- `compressionHelper(c, s)`: records `suffix → len(suffix)` for every
suffix of `s`, last label first. -/
def compressionHelper (c : CTable) (s : List Nat) : CTable :=
  compressionHelperAux c (SplitLabels s).reverse []

/-- The question loop of `Msg.Len`: add `Question.Len()` and, when
compression is accounted for, feed the name to the helper. -/
def lenLoopQ : List Question → Nat → Option CTable → Nat × Option CTable
  | [], l, t => (l, t)
  | q :: rest, l, t =>
    let t' := match t with
      | some c => some (compressionHelper c q.name)
      | none => none
    lenLoopQ rest (l + questionLen q) t'

/-- One record-section loop of `Msg.Len`: a whole owner name already in the
table discounts its recorded value and skips the helper; otherwise the name
is recorded and the full estimate added. -/
def lenLoopRR : List (Option RR) → Nat → Option CTable → Nat × Option CTable
  | [], l, t => (l, t)
  | none :: rest, l, t => lenLoopRR rest l t
  | some rr :: rest, l, t =>
    match t with
    | some c =>
      match ctFind c rr.header.name with
      | some v => lenLoopRR rest (l + (rrLenEst rr - v)) (some c)
      | none => lenLoopRR rest (l + rrLenEst rr) (some (compressionHelper c rr.header.name))
    | none => lenLoopRR rest (l + rrLenEst rr) none

/-- `Msg.Len()`: 12 header octets plus the four sections, with owner-name
compression discounting when `Compress` is set. -/
def MsgLen (m : Msg) : Nat :=
  let t0 : Option CTable := if m.compress then some [] else none
  let r1 := lenLoopQ m.question 12 t0
  let r2 := lenLoopRR m.answer r1.1 r1.2
  let r3 := lenLoopRR m.ns r2.1 r2.2
  (lenLoopRR m.extra r3.1 r3.2).1

/-- Outcome of one packing loop of `Msg.Pack`: the threaded buffer, table,
offset and the error of the *last* call (each `off, err = ...` assignment
overwrites the previous error). -/
inductive PRes where
  | st (msg : List Nat) (tbl : Option CTable) (off : Nat) (err : Option DnsErr)
  | panik
  | nofuel
  deriving DecidableEq, Repr

/-- The question loop of `Msg.Pack`. -/
def packQuestionLoop : List Question → List Nat → Option CTable → Nat → Option DnsErr →
    Bool → PRes
  | [], m, t, o, e, _ => .st m t o e
  | q :: rest, m, t, o, e, cp =>
    match packStructQuestion q m o t cp with
    | .ret (m', t', o') e' => packQuestionLoop rest m' t' o' e' cp
    | .panik => .panik
    | .nofuel => .nofuel

/-- One record-section loop of `Msg.Pack`. -/
def packRRLoop : List (Option RR) → List Nat → Option CTable → Nat → Option DnsErr →
    Bool → PRes
  | [], m, t, o, e, _ => .st m t o e
  | rr :: rest, m, t, o, e, cp =>
    match PackRR rr m o t cp with
    | .ret (m', t', o') e' => packRRLoop rest m' t' o' e' cp
    | .panik => .panik
    | .nofuel => .nofuel

/-- The header-flag masks.  Modelled from the spec (§6): QR, AA, TC, RD,
RA, Z, AD, CD at bits 15 and 10 down to 4. -/
def packBits (m : Msg) : Nat :=
  let b0 := (m.opcode % 65536) * 2048 % 65536 ||| m.rcode % 65536
  let b1 := if m.response then b0 ||| 32768 else b0
  let b2 := if m.authoritative then b1 ||| 1024 else b1
  let b3 := if m.truncated then b2 ||| 512 else b2
  let b4 := if m.recursionDesired then b3 ||| 256 else b3
  let b5 := if m.recursionAvailable then b4 ||| 128 else b4
  let b6 := if m.zero then b5 ||| 64 else b5
  let b7 := if m.authenticatedData then b6 ||| 32 else b6
  if m.checkingDisabled then b7 ||| 16 else b7

/-- `Msg.Pack()`: build the wire header, preallocate `Len()+10` zero bytes,
pack header, questions and the three record sections with one shared
compression table, checking the error variable only after the loops; a nil
error returns `msg[:off]` (which panics if `off` ran past the buffer). -/
def MsgPack (m : Msg) : GoR (Option (List Nat)) :=
  let dh : Header := ⟨m.id, packBits m, m.question.length % 65536,
    m.answer.length % 65536, m.ns.length % 65536, m.extra.length % 65536⟩
  let buf := List.replicate (MsgLen m + 10) 0
  match packStructHeader dh buf 0 with
  | .ret (m1, o1) e1 =>
    match packQuestionLoop m.question m1 (some []) o1 e1 m.compress with
    | .st m2 t2 o2 e2 =>
      match packRRLoop m.answer m2 t2 o2 e2 m.compress with
      | .st m3 t3 o3 e3 =>
        match packRRLoop m.ns m3 t3 o3 e3 m.compress with
        | .st m4 t4 o4 e4 =>
          match packRRLoop m.extra m4 t4 o4 e4 m.compress with
          | .st m5 _ o5 e5 =>
            match e5 with
            | some err => .ret none (some err)
            | none => if o5 > m5.length then .panik else .ret (some (m5.take o5)) none
          | .panik => .panik
          | .nofuel => .nofuel
        | .panik => .panik
        | .nofuel => .nofuel
      | .panik => .panik
      | .nofuel => .nofuel
    | .panik => .panik
    | .nofuel => .nofuel
  | .panik => .panik
  | .nofuel => .nofuel

/-- Outcome of one decoding loop of `Msg.Unpack`: decoded entries, the
offset and the error of the last call. -/
inductive URes (α : Type) where
  | st (a : α) (off : Nat) (err : Option DnsErr)
  | panik
  | nofuel
  deriving DecidableEq, Repr

/-- The question loop of `Msg.Unpack`, one iteration per header-declared
entry; errors do not stop the loop. -/
def unpackQuestionLoop : Nat → List Nat → Nat → Option DnsErr → URes (List Question)
  | 0, _, o, e => .st [] o e
  | n + 1, msg, o, e =>
    match unpackQuestionStruct msg o with
    | .ret (q, o') e' =>
      match unpackQuestionLoop n msg o' e' with
      | .st qs o'' e'' => .st (q :: qs) o'' e''
      | .panik => .panik
      | .nofuel => .nofuel
    | .panik => .panik
    | .nofuel => .nofuel

/-- One record-section loop of `Msg.Unpack`. -/
def unpackRRLoop : Nat → List Nat → Nat → Option DnsErr → URes (List (Option RR))
  | 0, _, o, e => .st [] o e
  | n + 1, msg, o, e =>
    match UnpackRR msg o with
    | .ret (rrv, o') e' =>
      match unpackRRLoop n msg o' e' with
      | .st rs o'' e'' => .st (rrv :: rs) o'' e''
      | .panik => .panik
      | .nofuel => .nofuel
    | .panik => .panik
    | .nofuel => .nofuel

/-- `Msg.Unpack(msg)`: header first, then exactly the declared number of
entries per section; the error variable is checked only after the loops, and
an offset short of `len(msg)` afterwards is the trailing-data ErrShortBuf.
`Compress` and `Size` are not touched by the source, so the result carries
the zero value for them. -/
def MsgUnpack (buf : List Nat) : GoR (Option Msg) :=
  match unpackStructHeader buf 0 with
  | .ret (dh, off) none =>
    match unpackQuestionLoop dh.qdcount buf off none with
    | .st qs o1 e1 =>
      match unpackRRLoop dh.ancount buf o1 e1 with
      | .st ans o2 e2 =>
        match unpackRRLoop dh.nscount buf o2 e2 with
        | .st nss o3 e3 =>
          match unpackRRLoop dh.arcount buf o3 e3 with
          | .st exs o4 e4 =>
            match e4 with
            | some err => .ret none (some err)
            | none =>
              if o4 ≠ buf.length then .ret none (some .shortBuf)
              else .ret (some ⟨dh.id, dh.bits &&& 32768 != 0, dh.bits / 2048 &&& 15,
                dh.bits &&& 1024 != 0, dh.bits &&& 512 != 0, dh.bits &&& 256 != 0,
                dh.bits &&& 128 != 0, dh.bits &&& 64 != 0, dh.bits &&& 32 != 0,
                dh.bits &&& 16 != 0, dh.bits &&& 15, false, qs, ans, nss, exs⟩) none
          | .panik => .panik
          | .nofuel => .nofuel
        | .panik => .panik
        | .nofuel => .nofuel
      | .panik => .panik
      | .nofuel => .nofuel
    | .panik => .panik
    | .nofuel => .nofuel
  | .ret (_, _) (some e) => .ret none (some e)
  | .panik => .panik
  | .nofuel => .nofuel

/-- The buffer carried by a loop outcome of the name-packing loop. -/
def plMsg : PDNLoop → Option (List Nat)
  | .errOut m _ _ => some m
  | .brk m _ _ _ _ _ => some m
  | .done m _ _ _ => some m
  | .nofuel => none

/-- The repeated owner of the C6 scenario: `"a.example.com."  A  IN  300`. -/
def c6hdr : RRHeader := ⟨nameAEx, 1, 1, 300, 0⟩

/-- An IPv4 address in its canonical 16-byte Go representation. -/
def ip16Ex : List Nat := [0, 0, 0, 0, 0, 0, 0, 0, 0, 0, 255, 255, 1, 2, 3, 4]

/-- Two A records with the same owner name, compression on. -/
def c6msg : Msg :=
  ⟨2, false, 0, false, false, false, false, false, false, false, 0, true,
   [], [some (.a c6hdr ip16Ex), some (.a c6hdr ip16Ex)], [], []⟩

/-- The 57 bytes `Msg.Pack` emits for `c6msg` (the second owner name is the
two-byte pointer `C0 0C`). -/
def c6wire : List Nat :=
  [0, 2, 0, 0, 0, 0, 0, 2, 0, 0, 0, 0,
   1, 97, 7, 101, 120, 97, 109, 112, 108, 101, 3, 99, 111, 109, 0,
   0, 1, 0, 1, 0, 0, 1, 44, 0, 4, 1, 2, 3, 4,
   192, 12, 0, 1, 0, 1, 0, 0, 1, 44, 0, 4, 1, 2, 3, 4]

/-- The type-code set of the C7 scenario. -/
def c7set : List Nat := [1, 15, 16, 28, 65535]

/-- The windowed bitmap encoding of `c7set` inside the 60-byte buffer:
window 0 (length byte 4, bits for 1, 15, 16, 28), then window 255 (length
byte 32, last octet holding 65535). -/
def c7wire : List Nat :=
  [0, 4, 64, 1, 128, 8, 255, 32] ++ List.replicate 31 0 ++ [1] ++ List.replicate 20 0

/-- The fixed part of the C2 TXT record as it sits on the wire. -/
def c2hdr : RRHeader := ⟨[120, 46], 16, 1, 60, 4⟩

/-- A packed message whose answer is a TXT record with the two strings
`"a"` and `"b"` (RDLENGTH 4, rdata `01 61 01 62`). -/
def c2wire : List Nat :=
  [0, 5, 0, 0, 0, 0, 0, 1, 0, 0, 0, 0,
   1, 120, 0, 0, 16, 0, 1, 0, 0, 0, 60, 0, 4, 1, 97, 1, 98]

/-- The message that packs to `c2wire`. -/
def c2origMsg : Msg :=
  ⟨5, false, 0, false, false, false, false, false, false, false, 0, false,
   [], [some (.txt ⟨[120, 46], 16, 1, 60, 0⟩ [[97], [98]])], [], []⟩

/-- What `Msg.Unpack` makes of `c2wire`: the TXT record degenerates to its
bare header. -/
def c1resMsg : Msg :=
  ⟨5, false, 0, false, false, false, false, false, false, false, 0, false,
   [], [some (.hdrOnly c2hdr)], [], []⟩

/-- A buffer whose header declares ANCOUNT = 2 over a single packed A
record. -/
def c5buf : List Nat :=
  [0, 7, 0, 0, 0, 0, 0, 2, 0, 0, 0, 0,
   1, 120, 0, 0, 1, 0, 1, 0, 0, 1, 44, 0, 4, 1, 2, 3, 4]

/-- The same buffer with the truthful ANCOUNT = 1. -/
def c5okbuf : List Nat :=
  [0, 7, 0, 0, 0, 0, 0, 1, 0, 0, 0, 0,
   1, 120, 0, 0, 1, 0, 1, 0, 0, 1, 44, 0, 4, 1, 2, 3, 4]

/-- A well-formed empty message (all counts zero). -/
def emptyMsgWire : List Nat := [0, 1] ++ List.replicate 10 0

/-- ANCOUNT = 2: an NSEC record whose bitmap declares a window length of 33
(a format error), followed by a clean A record that parses exactly to the
end of the buffer. -/
def c9buf : List Nat :=
  [0, 9, 0, 0, 0, 0, 0, 2, 0, 0, 0, 0]
    ++ [0, 0, 47, 0, 1, 0, 0, 0, 0, 0, 36] ++ [0] ++ [0, 33] ++ List.replicate 33 0
    ++ [0, 0, 1, 0, 1, 0, 0, 1, 44, 0, 4] ++ [1, 2, 3, 4]

/-- The message `Msg.Unpack` successfully returns for `c9buf`, the failed
NSEC entry replaced by its bare header. -/
def c9msg : Msg :=
  ⟨9, false, 0, false, false, false, false, false, false, false, 0, false,
   [], [some (.hdrOnly ⟨[46], 47, 1, 0, 36⟩), some (.a ⟨[46], 1, 1, 300, 4⟩ ip16Ex)], [], []⟩

/-- Two questions: the first is not fully qualified (so it errors), the
second name has only an escaped dot, which makes the unchecked terminator
write at `off = len(msg)` panic. -/
def c9pmsg : Msg :=
  ⟨3, false, 0, false, false, false, false, false, false, false, 0, false,
   [⟨[98, 97, 100], 1, 1⟩, ⟨[97, 92, 46], 1, 1⟩], [], [], []⟩

/-- A single not-fully-qualified question: packing fails cleanly. -/
def c9emsg : Msg :=
  ⟨3, false, 0, false, false, false, false, false, false, false, 0, false,
   [⟨[98, 97, 100], 1, 1⟩], [], [], []⟩

/-! ## The round-trip class of C1

`encMsg`/`canonMsg` below describe, label by label and byte by byte, what
`Msg.Pack` emits for an uncompressed message of plain names and A/CNAME
records, and what `Msg.Unpack` makes of those bytes.  The validity
predicates are Bool-valued so that a concrete message can be checked by
evaluation. -/

/-- One label of a plainly dotted name: 1 to 63 octets, each an ASCII code
below 128 that is neither a dot nor a backslash. -/
def validLabel (l : List Nat) : Bool :=
  decide (1 ≤ l.length) && decide (l.length ≤ 63)
    && l.all (fun b => decide (b < 128) && decide (b ≠ 46) && decide (b ≠ 92))

/-- Rebuild a dotted fully-qualified name from its labels. -/
def joinName : List (List Nat) → List Nat
  | [] => []
  | l :: rest => l ++ 46 :: joinName rest

/-- A plain fully-qualified name: splitting it at dots yields at least one
valid label, rejoining the labels gives the name back (so there are no
escapes and no empty labels, and the name ends in a dot), and the name is
at most 255 octets. -/
def validName (s : List Nat) : Bool :=
  decide (SplitLabels s ≠ []) && decide (s = joinName (SplitLabels s))
    && decide (s.length ≤ 255) && (SplitLabels s).all validLabel

/-- The counted-label wire encoding of a label list (without the root). -/
def encLabels : List (List Nat) → List Nat
  | [] => []
  | l :: rest => l.length :: (l ++ encLabels rest)

/-- The full wire encoding of a plain name: counted labels plus the root. -/
def encN (s : List Nat) : List Nat :=
  encLabels (SplitLabels s) ++ [0]

/-- The two big-endian bytes of a 16-bit write. -/
def u16b (v : Nat) : List Nat := [v / 256 % 256, v % 256]

/-- The four big-endian bytes of a 32-bit write. -/
def u32b (v : Nat) : List Nat :=
  [v / 16777216 % 256, v / 65536 % 256, v / 256 % 256, v % 256]

/-- The wire bytes of one question. -/
def encQ (q : Question) : List Nat :=
  encN q.name ++ u16b q.qtype ++ u16b q.qclass

/-- The RDATA bytes of an A or CNAME record (the only kinds of the C1
class): the last four address bytes, or the encoded target name. -/
def encPayload : RR → List Nat
  | .a _ ip => ip.drop 12
  | .cname _ target => encN target
  | _ => []

/-- The bytes of the fixed record part as first written (the RDLENGTH field
still holding the value of the struct, before the patch). -/
def encRRHeaderPart (h : RRHeader) : List Nat :=
  encN h.name ++ u16b h.rrtype ++ u16b h.rclass ++ u32b h.ttl ++ u16b h.rdlength

/-- The wire bytes of one record: owner name, type, class, TTL, the patched
RDLENGTH, then the RDATA. -/
def encRR (rr : RR) : List Nat :=
  encN rr.header.name ++ u16b rr.header.rrtype ++ u16b rr.header.rclass
    ++ u32b rr.header.ttl ++ u16b (encPayload rr).length ++ encPayload rr

/-- The wire bytes of one section entry (`none` packs nothing before the
error aborts; unused in the valid class). -/
def encRRopt : Option RR → List Nat
  | none => []
  | some rr => encRR rr

/-- The wire bytes of a question section. -/
def encQs : List Question → List Nat
  | [] => []
  | q :: rest => encQ q ++ encQs rest

/-- The wire bytes of a record section. -/
def encRRs : List (Option RR) → List Nat
  | [] => []
  | rr :: rest => encRRopt rr ++ encRRs rest

/-- The twelve header bytes `Msg.Pack` emits. -/
def encHdr (m : Msg) : List Nat :=
  u16b m.id ++ u16b (packBits m) ++ u16b (m.question.length % 65536)
    ++ u16b (m.answer.length % 65536) ++ u16b (m.ns.length % 65536)
    ++ u16b (m.extra.length % 65536)

/-- The whole wire image of an uncompressed message of the C1 class. -/
def encMsg (m : Msg) : List Nat :=
  encHdr m ++ encQs m.question ++ encRRs m.answer ++ encRRs m.ns ++ encRRs m.extra

/-- The byte image of a list of 16-bit writes. -/
def u16s : List Nat → List Nat
  | [] => []
  | v :: rest => u16b v ++ u16s rest

/-- A valid question: plain name, 16-bit codes. -/
def validQ (q : Question) : Bool :=
  validName q.name && decide (q.qtype < 65536) && decide (q.qclass < 65536)

/-- A valid record of the C1 class: an A record (type code 1) whose address
is in the canonical 16-byte IPv4-in-IPv6 form, or a CNAME record (type
code 5) with a plain target name; 16-bit class, 32-bit TTL. -/
def validRRrec : RR → Bool
  | .a h ip =>
    validName h.name && decide (h.rrtype = 1) && decide (h.rclass < 65536)
      && decide (h.ttl < 4294967296) && decide (ip.length = 16)
      && decide (ip.take 12 = [0, 0, 0, 0, 0, 0, 0, 0, 0, 0, 255, 255])
      && ip.all (fun b => decide (b < 256))
  | .cname h target =>
    validName h.name && decide (h.rrtype = 5) && decide (h.rclass < 65536)
      && decide (h.ttl < 4294967296) && validName target
  | _ => false

/-- A valid section entry is a present valid record. -/
def validRRopt : Option RR → Bool
  | none => false
  | some rr => validRRrec rr

/-- The C1 class: uncompressed, 16-bit id and section counts, 4-bit opcode
and rcode, valid questions and records throughout. -/
def validMsgC1 (m : Msg) : Bool :=
  decide (m.compress = false) && decide (m.id < 65536) && decide (m.opcode < 16)
    && decide (m.rcode < 16)
    && decide (m.question.length < 65536) && decide (m.answer.length < 65536)
    && decide (m.ns.length < 65536) && decide (m.extra.length < 65536)
    && m.question.all validQ && m.answer.all validRRopt
    && m.ns.all validRRopt && m.extra.all validRRopt

/-- A record with its RDLENGTH recomputed to the actual payload length, as
the unpacked side reports it. -/
def canonRR : RR → RR
  | .a h ip => .a ⟨h.name, h.rrtype, h.rclass, h.ttl, (ip.drop 12).length⟩ ip
  | .cname h target => .cname ⟨h.name, h.rrtype, h.rclass, h.ttl, (encN target).length⟩ target
  | rr => rr

/-- `canonRR` lifted to a section entry. -/
def canonRRopt : Option RR → Option RR
  | none => none
  | some rr => some (canonRR rr)

/-- The message `Msg.Unpack` rebuilds from the wire image: every field of
the original, with each RDLENGTH recomputed. -/
def canonMsg (m : Msg) : Msg :=
  ⟨m.id, m.response, m.opcode, m.authoritative, m.truncated, m.recursionDesired,
   m.recursionAvailable, m.zero, m.authenticatedData, m.checkingDisabled, m.rcode,
   false, m.question, m.answer.map canonRRopt, m.ns.map canonRRopt,
   m.extra.map canonRRopt⟩

/-- A concrete member of the C1 class: flags and opcode set, one question,
one A answer with a stale RDLENGTH of 99, one CNAME extra record. -/
def wMsg : Msg :=
  ⟨4660, true, 3, true, false, true, false, false, true, false, 2, false,
   [⟨nameAEx, 1, 1⟩],
   [some (.a ⟨nameAEx, 1, 1, 3600, 99⟩ ip16Ex)],
   [],
   [some (.cname ⟨nameBEx, 5, 1, 600, 0⟩ sfxExampleCom)]⟩

/-- `shiftDel` keeps the allocated length of `bs`, as the in-place Go shift
does. -/
theorem shiftDel_length (bs : List Nat) (i : Nat) (h : i < bs.length) :
    (shiftDel bs i).length = bs.length := by
  simp only [shiftDel, List.length_append, List.length_take, List.length_drop]
  omega

/-- The name-decoding loop always returns within the fuel handed out by
`UnpackDomainName`: the measure `(11 - ptr) * (len + 2) + (len + 1 - off)`
shrinks at every iteration (labels advance `off` by at least two and stay in
bounds; a pointer is only followed while `ptr ≤ 9`). -/
theorem unpackDNAux_isRet (fuel : Nat) : ∀ (msg s : List Nat) (off ptr off1 : Nat),
    (11 - ptr) * (msg.length + 2) + (msg.length + 1 - off) < fuel →
    (unpackDNAux fuel msg off s ptr off1).isRet = true := by
  induction fuel with
  | zero => intro msg s off ptr off1 hm; exact absurd hm (Nat.not_lt_zero _)
  | succ n ih =>
    intro msg s off ptr off1 hm
    rw [unpackDNAux]
    by_cases h0 : off ≥ msg.length
    · simp [h0, GoR.isRet]
    · simp only [h0, if_false]
      set c := msg.getD off 0 with hc
      by_cases h1 : c &&& 192 = 0
      · simp only [h1, if_true]
        by_cases h2 : c = 0
        · by_cases h3 : s = [] <;> by_cases h4 : ptr = 0 <;>
            simp [h2, h3, h4, GoR.isRet]
        · simp only [h2, if_false]
          by_cases h5 : off + 1 + c > msg.length
          · simp [h5, GoR.isRet]
          · simp only [h5, if_false]
            apply ih
            have hcge : 1 ≤ c := Nat.one_le_iff_ne_zero.mpr h2
            set K := (11 - ptr) * (msg.length + 2) with hK
            omega
      · simp only [h1, if_false]
        by_cases h6 : c &&& 192 = 192
        · simp only [h6, if_true]
          by_cases h7 : off + 1 ≥ msg.length
          · simp [h7, GoR.isRet]
          · simp only [h7, if_false]
            by_cases h8 : ptr + 1 > 10
            · simp [h8, GoR.isRet]
            · simp only [h8, if_false]
              apply ih
              have hp : ptr ≤ 9 := by omega
              have hsplit : (11 - ptr) * (msg.length + 2)
                  = (11 - (ptr + 1)) * (msg.length + 2) + (msg.length + 2) := by
                have h11 : 11 - ptr = (11 - (ptr + 1)) + 1 := by omega
                rw [h11, Nat.add_mul, Nat.one_mul]
              set K := (11 - (ptr + 1)) * (msg.length + 2) with hK
              rw [hsplit] at hm
              omega
        · simp [h6, GoR.isRet]

/-- The hop counter returned by the name-decoding loop never exceeds 11, and
exceeding 10 hops happens exactly on the Loop-error return. -/
theorem unpackDNAux_hops (fuel : Nat) : ∀ (msg s : List Nat) (off ptr off1 : Nat)
    (s' : List Nat) (o h : Nat) (e : Option DnsErr), ptr ≤ 10 →
    unpackDNAux fuel msg off s ptr off1 = .ret (s', o, h) e →
    h ≤ 11 ∧ (10 < h → e = some .loop) := by
  induction fuel with
  | zero => intro msg s off ptr off1 s' o h e hp hr; exact absurd hr (by simp [unpackDNAux])
  | succ n ih =>
    intro msg s off ptr off1 s' o h e hp hr
    rw [unpackDNAux] at hr
    by_cases h0 : off ≥ msg.length
    · rw [if_pos h0] at hr
      obtain ⟨⟨-, -, rfl⟩, rfl⟩ := by
        simpa only [GoR.ret.injEq, Prod.mk.injEq] using hr
      exact ⟨by omega, by omega⟩
    · rw [if_neg h0] at hr
      simp only at hr
      set c := msg.getD off 0 with hc
      by_cases h1 : c &&& 192 = 0
      · rw [if_pos h1] at hr
        by_cases h2 : c = 0
        · rw [if_pos h2] at hr
          by_cases h3 : s = []
          · rw [if_pos h3] at hr
            obtain ⟨⟨-, -, rfl⟩, rfl⟩ := by
              simpa only [GoR.ret.injEq, Prod.mk.injEq] using hr
            exact ⟨by omega, by omega⟩
          · rw [if_neg h3] at hr
            by_cases h4 : ptr = 0
            · rw [if_pos h4] at hr
              obtain ⟨⟨-, -, rfl⟩, rfl⟩ := by
                simpa only [GoR.ret.injEq, Prod.mk.injEq] using hr
              exact ⟨by omega, by omega⟩
            · rw [if_neg h4] at hr
              obtain ⟨⟨-, -, rfl⟩, rfl⟩ := by
                simpa only [GoR.ret.injEq, Prod.mk.injEq] using hr
              exact ⟨by omega, by omega⟩
        · rw [if_neg h2] at hr
          by_cases h5 : off + 1 + c > msg.length
          · rw [if_pos h5] at hr
            obtain ⟨⟨-, -, rfl⟩, rfl⟩ := by
              simpa only [GoR.ret.injEq, Prod.mk.injEq] using hr
            exact ⟨by omega, by omega⟩
          · rw [if_neg h5] at hr
            exact ih _ _ _ _ _ _ _ _ _ hp hr
      · rw [if_neg h1] at hr
        by_cases h6 : c &&& 192 = 192
        · rw [if_pos h6] at hr
          by_cases h7 : off + 1 ≥ msg.length
          · rw [if_pos h7] at hr
            obtain ⟨⟨-, -, rfl⟩, rfl⟩ := by
              simpa only [GoR.ret.injEq, Prod.mk.injEq] using hr
            exact ⟨by omega, by omega⟩
          · rw [if_neg h7] at hr
            by_cases h8 : ptr + 1 > 10
            · rw [if_pos h8] at hr
              obtain ⟨⟨-, -, rfl⟩, rfl⟩ := by
                simpa only [GoR.ret.injEq, Prod.mk.injEq] using hr
              exact ⟨by omega, fun _ => rfl⟩
            · rw [if_neg h8] at hr
              exact ih _ _ _ _ _ _ _ _ _ (by omega) hr
        · rw [if_neg h6] at hr
          obtain ⟨⟨-, -, rfl⟩, rfl⟩ := by
            simpa only [GoR.ret.injEq, Prod.mk.injEq] using hr
          exact ⟨by omega, by omega⟩

/-- C3: `UnpackDomainName` terminates deterministically on every buffer and
offset: it always returns (never diverges or panics), the number of
compression pointers it follows never exceeds the ceiling (more than 10 hops
happens only on the Loop-error return, so at most 10 pointers are followed on
any other outcome), and the self-referencing pointer `C0 00` at offset 0
fails with the Loop error after the 11th hop. -/
theorem unpackDomainName_terminates_loop_bound :
    (∀ (msg : List Nat) (off : Nat), (UnpackDomainName msg off).isRet = true)
    ∧ (∀ (msg s' : List Nat) (off o h : Nat) (e : Option DnsErr),
        UnpackDomainName msg off = .ret (s', o, h) e →
        h ≤ 11 ∧ (10 < h → e = some .loop))
    ∧ UnpackDomainName [192, 0] 0 = .ret ([], 2, 11) (some .loop) := by
  refine ⟨?_, ?_, by decide⟩
  · intro msg off
    apply unpackDNAux_isRet
    have : (11 - 0) * (msg.length + 2) = 11 * msg.length + 22 := by ring
    unfold unpackDNFuel
    omega
  · intro msg s' off o h e hr
    exact unpackDNAux_hops _ _ _ _ _ _ _ _ _ _ (by omega) hr

/-- C3 witness: the theorem applied to the two-byte self-pointer buffer. -/
theorem unpackDomainName_terminates_loop_bound_witness :
    (11 : Nat) ≤ 11 ∧ (some DnsErr.loop : Option DnsErr) = some .loop := by
  have h := unpackDomainName_terminates_loop_bound.2.1 [192, 0] [] 0 2 11 (some .loop)
    unpackDomainName_terminates_loop_bound.2.2
  exact ⟨h.1, h.2 (by omega)⟩

theorem tblExtends_refl (t : CTable) : tblExtends t t :=
  fun _ _ h => .inl h

/-- Recording one absent key below the ceiling preserves the growth
invariant. -/
theorem tblExtends_insert_none (t tl : CTable) (sfx : List Nat) (offset : Nat)
    (hfind : ctFind t sfx = none) (hoff : offset < maxCompressionOffset)
    (hext : tblExtends ((sfx, offset) :: t) tl) : tblExtends t tl := by
  intro k v hv
  rcases hext k v hv with h | ⟨hnone, hlt⟩
  · rw [ctFind] at h
    by_cases hk : sfx = k
    · right
      rw [if_pos hk] at h
      obtain rfl : offset = v := by simpa using h
      exact ⟨hk ▸ hfind, hoff⟩
    · left
      rwa [if_neg hk] at h
  · right
    rw [ctFind] at hnone
    by_cases hk : sfx = k
    · rw [if_pos hk] at hnone; cases hnone
    · rw [if_neg hk] at hnone
      exact ⟨hnone, hlt⟩

/-- Along the label loop, the compression table only grows by bindings for
keys that were absent, recorded at offsets below the 14-bit ceiling. -/
theorem packDNAux_tbl (fuel : Nat) : ∀ (bs : List Nat) (ls i b off : Nat)
    (msg : List Nat) (t : CTable) (cp : Bool) (t' : Option CTable),
    plTbl (packDNAux fuel bs ls i b off msg (some t) cp) = some t' →
    ∃ tl, t' = some tl ∧ tblExtends t tl := by
  induction fuel with
  | zero => intro bs ls i b off msg t cp t' hp; exact absurd hp (by simp [packDNAux, plTbl])
  | succ n ih =>
    intro bs ls i b off msg t cp t' hp
    rw [packDNAux] at hp
    by_cases hi : i < ls
    · rw [if_pos hi] at hp
      simp only at hp
      set c := bs.getD i 0 with hc
      by_cases h92 : c = 92
      · rw [if_pos h92] at hp
        exact ih _ _ _ _ _ _ _ _ _ hp
      · rw [if_neg h92] at hp
        by_cases h46 : c = 46
        · rw [if_pos h46] at hp
          by_cases hbig : i - b ≥ 64
          · rw [if_pos hbig] at hp
            obtain rfl : some t = t' := by simpa [plTbl] using hp
            exact ⟨t, rfl, tblExtends_refl t⟩
          · rw [if_neg hbig] at hp
            by_cases hoob : off + 1 > msg.length
            · rw [if_pos hoob] at hp
              obtain rfl : some t = t' := by simpa [plTbl] using hp
              exact ⟨t, rfl, tblExtends_refl t⟩
            · rw [if_neg hoob] at hp
              rcases hw : writeBytesChecked (msg.set off (i - b)) (off + 1)
                  ((bs.drop b).take (i - b)) with m | ⟨msg2, off2⟩
              · simp only [hw] at hp
                obtain rfl : some t = t' := by simpa [plTbl] using hp
                exact ⟨t, rfl, tblExtends_refl t⟩
              · simp only [hw] at hp
                by_cases hq : bs.drop b = [46, 39]
                · rw [if_pos hq] at hp
                  exact ih _ _ _ _ _ _ _ _ _ hp
                · rw [if_neg hq] at hp
                  rcases hf : ctFind t (bs.drop b) with - | p
                  · simp only [hf] at hp
                    by_cases hceil : off < maxCompressionOffset
                    · rw [if_pos hceil] at hp
                      obtain ⟨tl, rfl, hext⟩ := ih _ _ _ _ _ _ _ _ _ hp
                      exact ⟨tl, rfl,
                        tblExtends_insert_none t tl (bs.drop b) off hf hceil hext⟩
                    · rw [if_neg hceil] at hp
                      exact ih _ _ _ _ _ _ _ _ _ hp
                  · simp only [hf] at hp
                    by_cases hcp : cp = true
                    · rw [if_pos hcp] at hp
                      obtain rfl : some t = t' := by simpa [plTbl] using hp
                      exact ⟨t, rfl, tblExtends_refl t⟩
                    · rw [if_neg hcp] at hp
                      exact ih _ _ _ _ _ _ _ _ _ hp
        · rw [if_neg h46] at hp
          exact ih _ _ _ _ _ _ _ _ _ hp
    · rw [if_neg hi] at hp
      obtain rfl : some t = t' := by simpa [plTbl] using hp
      exact ⟨t, rfl, tblExtends_refl t⟩

/-- C4: packing `"a.example.com."` then `"b.example.com."` at offsets 12 and
27 of one buffer with compression on: the first call records the three
suffixes at their label offsets (12, 14, 22); the second call emits the label
`b` followed by the two-byte pointer `C0 0E` (top two bits set, low 14 bits
equal to 14, the recorded offset of `"example.com."`) and stops right after
it (`off1 = 31`); the already-present suffix is not re-recorded; and in
general a `PackDomainName` call records a suffix in the table only when the
suffix was not yet present and its offset is below the 14-bit ceiling of
16384. -/
theorem packDomainName_compression_scenario :
    PackDomainName nameAEx (List.replicate 40 0) 12 (some []) true
      = .ret (c4wire1, some c4table1, 27) none
    ∧ PackDomainName nameBEx c4wire1 27 (some c4table1) true
      = .ret (c4wire2, some c4table2, 31) none
    ∧ ctFind c4table1 sfxExampleCom = some 14
    ∧ c4wire2.getD 29 0 &&& 192 = 192
    ∧ (c4wire2.getD 29 0 &&& 63) * 256 + c4wire2.getD 30 0 = 14
    ∧ ctFind c4table2 sfxExampleCom = some 14
    ∧ (∀ (s msg : List Nat) (off : Nat) (t : CTable) (cp : Bool)
        (m : List Nat) (t' : Option CTable) (o : Nat) (e : Option DnsErr),
        PackDomainName s msg off (some t) cp = .ret (m, t', o) e →
        ∃ tl, t' = some tl ∧ tblExtends t tl) := by
  refine ⟨by decide, by decide, by decide, by decide, by decide, by decide, ?_⟩
  intro s msg off t cp m t' o e hpk
  simp only [PackDomainName] at hpk
  split at hpk
  · obtain ⟨⟨-, rfl, -⟩, -⟩ := by
      simpa only [GoR.ret.injEq, Prod.mk.injEq] using hpk
    exact ⟨t, rfl, tblExtends_refl t⟩
  · revert hpk
    split
    · intro hpk; exact absurd hpk (by simp)
    · rename_i heq
      intro hpk
      obtain ⟨⟨-, rfl, -⟩, -⟩ := by
        simpa only [GoR.ret.injEq, Prod.mk.injEq] using hpk
      exact packDNAux_tbl _ _ _ _ _ _ _ _ _ _ (by rw [heq]; rfl)
    · rename_i heq
      intro hpk
      revert hpk
      split
      · intro hpk
        obtain ⟨⟨-, rfl, -⟩, -⟩ := by
          simpa only [GoR.ret.injEq, Prod.mk.injEq] using hpk
        exact packDNAux_tbl _ _ _ _ _ _ _ _ _ _ (by rw [heq]; rfl)
      · split
        · split
          · intro hpk
            obtain ⟨⟨-, rfl, -⟩, -⟩ := by
              simpa only [GoR.ret.injEq, Prod.mk.injEq] using hpk
            exact packDNAux_tbl _ _ _ _ _ _ _ _ _ _ (by rw [heq]; rfl)
          · intro hpk; exact absurd hpk (by simp)
        · intro hpk; exact absurd hpk (by simp)
    · rename_i heq
      intro hpk
      revert hpk
      split
      · intro hpk
        obtain ⟨⟨-, rfl, -⟩, -⟩ := by
          simpa only [GoR.ret.injEq, Prod.mk.injEq] using hpk
        exact packDNAux_tbl _ _ _ _ _ _ _ _ _ _ (by rw [heq]; rfl)
      · split
        · intro hpk
          obtain ⟨⟨-, rfl, -⟩, -⟩ := by
            simpa only [GoR.ret.injEq, Prod.mk.injEq] using hpk
          exact packDNAux_tbl _ _ _ _ _ _ _ _ _ _ (by rw [heq]; rfl)
        · intro hpk; exact absurd hpk (by simp)

/-- C4 witness: the general recording clause applied to the concrete pack of
`"a.example.com."` into an empty table. -/
theorem packDomainName_compression_scenario_witness :
    ∃ tl, (some c4table1 : Option CTable) = some tl ∧ tblExtends [] tl :=
  packDomainName_compression_scenario.2.2.2.2.2.2 nameAEx (List.replicate 40 0) 12 [] true
    c4wire1 (some c4table1) 27 none packDomainName_compression_scenario.1

/-- C8 (amended): `PackDomainName` fails with the not-fully-qualified error
for every name lacking a trailing root dot; a label split off at an unescaped
dot fails with `ErrShortBuf` as soon as it reaches 64 octets, while a
63-octet label encodes; `\.` is a literal character rather than a separator
(`"a\.b."` encodes as the single 3-octet label `a.b`).  Zero-length labels
are not rejected (see the counterexample). -/
theorem packDomainName_fqdn_label_rules :
    (∀ (s msg : List Nat) (off : Nat) (tbl : Option CTable) (cp : Bool),
      s.length = 0 ∨ s.getD (s.length - 1) 0 ≠ 46 →
      PackDomainName s msg off tbl cp = .ret (msg, tbl, msg.length) (some .fqdn))
    ∧ (PackDomainName (List.replicate 63 97 ++ [46]) (List.replicate 70 0) 0 none false).errOf
        = none
    ∧ (PackDomainName (List.replicate 63 97 ++ [46]) (List.replicate 70 0) 0 none false).val.map
        (fun r => r.2.2) = some 65
    ∧ PackDomainName (List.replicate 64 97 ++ [46]) (List.replicate 100 0) 0 none false
        = .ret (List.replicate 100 0, none, 100) (some .shortBuf)
    ∧ PackDomainName [97, 92, 46, 98, 46] (List.replicate 10 0) 0 none false
        = .ret ([3, 97, 46, 98, 0, 0, 0, 0, 0, 0], none, 5) none := by
  refine ⟨?_, by decide, by decide, by decide, by decide⟩
  intro s msg off tbl cp h
  simp only [PackDomainName]
  rw [if_pos h]

/-- C8 witness: the theorem applied to the undotted name `"ab"`. -/
theorem packDomainName_fqdn_label_rules_witness :
    PackDomainName [97, 98] (List.replicate 10 0) 0 none false
      = .ret (List.replicate 10 0, none, 10) (some .fqdn) :=
  packDomainName_fqdn_label_rules.1 [97, 98] (List.replicate 10 0) 0 none false (by decide)

/-- C8 counterexample: the name `"a..b."` contains a zero-length label, but
`PackDomainName` does not fail: it encodes the empty label as a bare zero
length byte (terminating the wire name early) and returns without error. -/
theorem packDomainName_zero_label_accepted :
    PackDomainName [97, 46, 46, 98, 46] (List.replicate 10 0) 0 none false
      = .ret ([1, 97, 0, 1, 98, 0, 0, 0, 0, 0], none, 6) none := by
  decide

/-! Buffer-length preservation: every packing primitive only writes in
place, so the buffer it hands back has the length it received. -/

theorem writeBytesChecked_len (bytes : List Nat) : ∀ (msg : List Nat) (off : Nat),
    (∀ m, writeBytesChecked msg off bytes = .error m → m.length = msg.length)
    ∧ (∀ m o, writeBytesChecked msg off bytes = .ok (m, o) → m.length = msg.length) := by
  induction bytes with
  | nil =>
    intro msg off
    refine ⟨fun m h => ?_, fun m o h => ?_⟩
    · exact absurd h (by simp [writeBytesChecked])
    · obtain ⟨rfl, -⟩ : msg = m ∧ off = o := by
        simpa [writeBytesChecked, Prod.ext_iff] using h
      rfl
  | cons b rest ih =>
    intro msg off
    refine ⟨fun m h => ?_, fun m o h => ?_⟩
    · rw [writeBytesChecked] at h
      by_cases hb : off + 1 > msg.length
      · rw [if_pos hb] at h
        obtain rfl : msg = m := by simpa using h
        rfl
      · rw [if_neg hb] at h
        have := (ih (msg.set off b) (off + 1)).1 m h
        simpa using this
    · rw [writeBytesChecked] at h
      by_cases hb : off + 1 > msg.length
      · rw [if_pos hb] at h; exact absurd h (by simp)
      · rw [if_neg hb] at h
        have := (ih (msg.set off b) (off + 1)).2 m o h
        simpa using this

theorem packDNAux_len (fuel : Nat) : ∀ (bs : List Nat) (ls i bg off : Nat)
    (msg : List Nat) (tbl : Option CTable) (cp : Bool) (m' : List Nat),
    plMsg (packDNAux fuel bs ls i bg off msg tbl cp) = some m' → m'.length = msg.length := by
  induction fuel with
  | zero => intro bs ls i bg off msg tbl cp m' h; exact absurd h (by simp [packDNAux, plMsg])
  | succ n ih =>
    intro bs ls i bg off msg tbl cp m' h
    rw [packDNAux] at h
    by_cases hi : i < ls
    · rw [if_pos hi] at h
      simp only at h
      by_cases h92 : bs.getD i 0 = 92
      · rw [if_pos h92] at h
        exact ih _ _ _ _ _ _ _ _ _ h
      · rw [if_neg h92] at h
        by_cases h46 : bs.getD i 0 = 46
        · rw [if_pos h46] at h
          by_cases hbig : i - bg ≥ 64
          · rw [if_pos hbig] at h
            obtain rfl : msg = m' := by simpa [plMsg] using h
            rfl
          · rw [if_neg hbig] at h
            by_cases hoob : off + 1 > msg.length
            · rw [if_pos hoob] at h
              obtain rfl : msg = m' := by simpa [plMsg] using h
              rfl
            · rw [if_neg hoob] at h
              rcases hw : writeBytesChecked (msg.set off (i - bg)) (off + 1)
                  ((bs.drop bg).take (i - bg)) with mm | ⟨msg2, off2⟩
              · simp only [hw] at h
                obtain rfl : mm = m' := by simpa [plMsg] using h
                have := (writeBytesChecked_len _ _ _).1 mm hw
                simpa using this
              · simp only [hw] at h
                have hm2 : msg2.length = msg.length := by
                  have := (writeBytesChecked_len _ _ _).2 msg2 off2 hw
                  simpa using this
                rcases tbl with - | t
                · have := ih _ _ _ _ _ _ _ _ _ h
                  omega
                · simp only at h
                  by_cases hq : bs.drop bg = [46, 39]
                  · rw [if_pos hq] at h
                    have := ih _ _ _ _ _ _ _ _ _ h
                    omega
                  · rw [if_neg hq] at h
                    rcases hf : ctFind t (bs.drop bg) with - | p
                    · simp only [hf] at h
                      have := ih _ _ _ _ _ _ _ _ _ h
                      omega
                    · simp only [hf] at h
                      by_cases hcp : cp = true
                      · rw [if_pos hcp] at h
                        obtain rfl : msg2 = m' := by simpa [plMsg] using h
                        omega
                      · rw [if_neg hcp] at h
                        have := ih _ _ _ _ _ _ _ _ _ h
                        omega
        · rw [if_neg h46] at h
          exact ih _ _ _ _ _ _ _ _ _ h
    · rw [if_neg hi] at h
      obtain rfl : msg = m' := by simpa [plMsg] using h
      rfl

theorem PackDomainName_len : ∀ (s msg : List Nat) (off : Nat) (tbl : Option CTable)
    (cp : Bool) (m : List Nat) (t : Option CTable) (o : Nat) (e : Option DnsErr),
    PackDomainName s msg off tbl cp = .ret (m, t, o) e → m.length = msg.length := by
  intro s msg off tbl cp m t o e h
  simp only [PackDomainName] at h
  split at h
  · obtain ⟨⟨rfl, -, -⟩, -⟩ := by
      simpa only [GoR.ret.injEq, Prod.mk.injEq] using h
    rfl
  · rename_i hcond
    revert h
    split
    · intro h; exact absurd h (by simp)
    · rename_i mm tt ee heq
      intro h
      obtain ⟨⟨rfl, -, -⟩, -⟩ := by
        simpa only [GoR.ret.injEq, Prod.mk.injEq] using h
      exact packDNAux_len _ _ _ _ _ _ _ _ _ _ (by rw [heq]; rfl)
    · rename_i mm tt off' p noff bs' heq
      intro h
      have hmm : mm.length = msg.length :=
        packDNAux_len _ _ _ _ _ _ _ _ _ _ (by rw [heq]; rfl)
      revert h
      split
      · intro h
        obtain ⟨⟨rfl, -, -⟩, -⟩ := by
          simpa only [GoR.ret.injEq, Prod.mk.injEq] using h
        exact hmm
      · split
        · split
          · intro h
            obtain ⟨⟨rfl, -, -⟩, -⟩ := by
              simpa only [GoR.ret.injEq, Prod.mk.injEq] using h
            simpa using hmm
          · intro h; exact absurd h (by simp)
        · intro h; exact absurd h (by simp)
    · rename_i mm tt off' bs' heq
      intro h
      have hmm : mm.length = msg.length :=
        packDNAux_len _ _ _ _ _ _ _ _ _ _ (by rw [heq]; rfl)
      revert h
      split
      · intro h
        obtain ⟨⟨rfl, -, -⟩, -⟩ := by
          simpa only [GoR.ret.injEq, Prod.mk.injEq] using h
        exact hmm
      · split
        · intro h
          obtain ⟨⟨rfl, -, -⟩, -⟩ := by
            simpa only [GoR.ret.injEq, Prod.mk.injEq] using h
          simpa using hmm
        · intro h; exact absurd h (by simp)

theorem packU16List_len : ∀ (vs : List Nat) (msg : List Nat) (off : Nat)
    (m : List Nat) (o : Nat) (e : Option DnsErr),
    packU16List msg off vs = .ret (m, o) e → m.length = msg.length := by
  intro vs
  induction vs with
  | nil =>
    intro msg off m o e h
    obtain ⟨⟨rfl, -⟩, -⟩ := by
      simpa only [packU16List, GoR.ret.injEq, Prod.mk.injEq] using h
    rfl
  | cons v rest ih =>
    intro msg off m o e h
    rw [packU16List] at h
    by_cases hb : off + 2 > msg.length
    · rw [if_pos hb] at h
      obtain ⟨⟨rfl, -⟩, -⟩ := by
        simpa only [GoR.ret.injEq, Prod.mk.injEq] using h
      rfl
    · rw [if_neg hb] at h
      have := ih _ _ _ _ _ h
      simpa using this

theorem packU32_len : ∀ (msg : List Nat) (off v : Nat) (m : List Nat) (o : Nat)
    (e : Option DnsErr), packU32 msg off v = .ret (m, o) e → m.length = msg.length := by
  intro msg off v m o e h
  rw [packU32] at h
  by_cases hb : off + 4 > msg.length
  · rw [if_pos hb] at h
    obtain ⟨⟨rfl, -⟩, -⟩ := by
      simpa only [GoR.ret.injEq, Prod.mk.injEq] using h
    rfl
  · rw [if_neg hb] at h
    obtain ⟨⟨rfl, -⟩, -⟩ := by
      simpa only [GoR.ret.injEq, Prod.mk.injEq] using h
    simp

theorem packCountedString_len : ∀ (msg : List Nat) (off : Nat) (s : List Nat)
    (m : List Nat) (o : Nat) (e : Option DnsErr),
    packCountedString msg off s = .ret (m, o) e → m.length = msg.length := by
  intro msg off s m o e h
  rw [packCountedString] at h
  split at h
  · obtain ⟨⟨rfl, -⟩, -⟩ := by
      simpa only [GoR.ret.injEq, Prod.mk.injEq] using h
    rfl
  · revert h
    rcases hw : writeBytesChecked (msg.set off s.length) (off + 1) s with mm | ⟨m2, o2⟩
    · intro h
      obtain ⟨⟨rfl, -⟩, -⟩ := by
        simpa only [GoR.ret.injEq, Prod.mk.injEq] using h
      have := (writeBytesChecked_len _ _ _).1 mm hw
      simpa using this
    · intro h
      obtain ⟨⟨rfl, -⟩, -⟩ := by
        simpa only [GoR.ret.injEq, Prod.mk.injEq] using h
      have := (writeBytesChecked_len _ _ _).2 m2 o2 hw
      simpa using this

theorem packTxts_len : ∀ (ss : List (List Nat)) (msg : List Nat) (off : Nat)
    (m : List Nat) (o : Nat) (e : Option DnsErr),
    packTxts msg off ss = .ret (m, o) e → m.length = msg.length := by
  intro ss
  induction ss with
  | nil =>
    intro msg off m o e h
    obtain ⟨⟨rfl, -⟩, -⟩ := by
      simpa only [packTxts, GoR.ret.injEq, Prod.mk.injEq] using h
    rfl
  | cons s rest ih =>
    intro msg off m o e h
    rw [packTxts] at h
    revert h
    rcases hc : packCountedString msg off s with ⟨⟨m1, o1⟩, e1⟩ | - | -
    · rcases e1 with - | e1
      · intro h
        have h1 := packCountedString_len _ _ _ _ _ _ hc
        have h2 := ih _ _ _ _ _ h
        omega
      · intro h
        obtain ⟨⟨rfl, -⟩, -⟩ := by
          simpa only [GoR.ret.injEq, Prod.mk.injEq] using h
        exact packCountedString_len _ _ _ _ _ _ hc
    · intro h; exact absurd h (by simp)
    · intro h; exact absurd h (by simp)

theorem packIPv4_len : ∀ (msg : List Nat) (off : Nat) (ip : List Nat)
    (m : List Nat) (o : Nat) (e : Option DnsErr),
    packIPv4 msg off ip = .ret (m, o) e → m.length = msg.length := by
  intro msg off ip m o e h
  rw [packIPv4] at h
  by_cases h16 : ip.length = 16
  · rw [if_pos h16] at h
    by_cases hb : off + 4 > msg.length
    · rw [if_pos hb] at h
      obtain ⟨⟨rfl, -⟩, -⟩ := by
        simpa only [GoR.ret.injEq, Prod.mk.injEq] using h
      rfl
    · rw [if_neg hb] at h
      obtain ⟨⟨rfl, -⟩, -⟩ := by
        simpa only [GoR.ret.injEq, Prod.mk.injEq] using h
      simp
  · rw [if_neg h16] at h
    by_cases h4 : ip.length = 4
    · rw [if_pos h4] at h
      by_cases hb : off + 4 > msg.length
      · rw [if_pos hb] at h
        obtain ⟨⟨rfl, -⟩, -⟩ := by
          simpa only [GoR.ret.injEq, Prod.mk.injEq] using h
        rfl
      · rw [if_neg hb] at h
        obtain ⟨⟨rfl, -⟩, -⟩ := by
          simpa only [GoR.ret.injEq, Prod.mk.injEq] using h
        simp
    · rw [if_neg h4] at h
      by_cases h0 : ip.length = 0
      · rw [if_pos h0] at h
        obtain ⟨⟨rfl, -⟩, -⟩ := by
          simpa only [GoR.ret.injEq, Prod.mk.injEq] using h
        rfl
      · rw [if_neg h0] at h
        obtain ⟨⟨rfl, -⟩, -⟩ := by
          simpa only [GoR.ret.injEq, Prod.mk.injEq] using h
        rfl

theorem packNsecLoop_len : ∀ (fv : List Nat) (lw ln off : Nat) (msg : List Nat)
    (m : List Nat) (o ln' : Nat) (e : Option DnsErr),
    packNsecLoop fv lw ln off msg = .ret (m, o, ln') e → m.length = msg.length := by
  intro fv
  induction fv with
  | nil =>
    intro lw ln off msg m o ln' e h
    obtain ⟨⟨rfl, -, -⟩, -⟩ := by
      simpa only [packNsecLoop, GoR.ret.injEq, Prod.mk.injEq] using h
    rfl
  | cons t rest ih =>
    intro lw ln off msg m o ln' e h
    rw [packNsecLoop] at h
    simp only at h
    by_cases hw : lw ≠ t / 256
    · rw [if_pos hw] at h
      by_cases hg : off + ln + 3 > msg.length
      · rw [if_pos ⟨hw, hg⟩] at h
        obtain ⟨⟨rfl, -, -⟩, -⟩ := by
          simpa only [GoR.ret.injEq, Prod.mk.injEq] using h
        rfl
      · rw [if_neg (fun hc => hg hc.2)] at h
        by_cases hb : off + ln + 3 + 2 + (t - t / 256 * 256) / 8 > msg.length
        · rw [if_pos hb] at h
          obtain ⟨⟨rfl, -, -⟩, -⟩ := by
            simpa only [GoR.ret.injEq, Prod.mk.injEq] using h
          rfl
        · rw [if_neg hb] at h
          have := ih _ _ _ _ _ _ _ _ h
          simpa using this
    · rw [if_neg hw] at h
      rw [if_neg (fun hc => hw hc.1)] at h
      by_cases hb : off + 2 + (t - t / 256 * 256) / 8 > msg.length
      · rw [if_pos hb] at h
        obtain ⟨⟨rfl, -, -⟩, -⟩ := by
          simpa only [GoR.ret.injEq, Prod.mk.injEq] using h
        rfl
      · rw [if_neg hb] at h
        have := ih _ _ _ _ _ _ _ _ h
        simpa using this

theorem packNsecBitmap_len : ∀ (fv : List Nat) (msg : List Nat) (off : Nat)
    (m : List Nat) (o : Nat) (e : Option DnsErr),
    packNsecBitmap fv msg off = .ret (m, o) e → m.length = msg.length := by
  intro fv msg off m o e h
  rw [packNsecBitmap] at h
  split at h
  · obtain ⟨⟨rfl, -⟩, -⟩ := by
      simpa only [GoR.ret.injEq, Prod.mk.injEq] using h
    rfl
  · split at h
    · obtain ⟨⟨rfl, -⟩, -⟩ := by
        simpa only [GoR.ret.injEq, Prod.mk.injEq] using h
      rfl
    · rcases hl : packNsecLoop fv 0 0 off msg with ⟨⟨m1, o1, ln1⟩, - | e1⟩ | - | -
      · simp only [hl] at h
        split at h
        · obtain ⟨⟨rfl, -⟩, -⟩ := by
            simpa only [GoR.ret.injEq, Prod.mk.injEq] using h
          exact packNsecLoop_len _ _ _ _ _ _ _ _ _ hl
        · obtain ⟨⟨rfl, -⟩, -⟩ := by
            simpa only [GoR.ret.injEq, Prod.mk.injEq] using h
          exact packNsecLoop_len _ _ _ _ _ _ _ _ _ hl
      · simp only [hl] at h
        obtain ⟨⟨rfl, -⟩, -⟩ := by
          simpa only [GoR.ret.injEq, Prod.mk.injEq] using h
        exact packNsecLoop_len _ _ _ _ _ _ _ _ _ hl
      · simp only [hl] at h
        exact absurd h (by simp)
      · simp only [hl] at h
        exact absurd h (by simp)

theorem packBlob_len : ∀ (msg : List Nat) (off : Nat) (bytes : List Nat)
    (m : List Nat) (o : Nat) (e : Option DnsErr),
    packBlob msg off bytes = .ret (m, o) e → m.length = msg.length := by
  intro msg off bytes m o e h
  rw [packBlob] at h
  split at h
  · obtain ⟨⟨rfl, -⟩, -⟩ := by
      simpa only [GoR.ret.injEq, Prod.mk.injEq] using h
    rfl
  · revert h
    rcases hw : writeBytesChecked msg off bytes with mm | ⟨m2, o2⟩
    · intro h
      obtain ⟨⟨rfl, -⟩, -⟩ := by
        simpa only [GoR.ret.injEq, Prod.mk.injEq] using h
      exact (writeBytesChecked_len _ _ _).1 mm hw
    · intro h
      obtain ⟨⟨rfl, -⟩, -⟩ := by
        simpa only [GoR.ret.injEq, Prod.mk.injEq] using h
      exact (writeBytesChecked_len _ _ _).2 m2 o2 hw

theorem packStructQuestion_len : ∀ (q : Question) (msg : List Nat) (off : Nat)
    (tbl : Option CTable) (cp : Bool) (m : List Nat) (t : Option CTable) (o : Nat)
    (e : Option DnsErr),
    packStructQuestion q msg off tbl cp = .ret (m, t, o) e → m.length = msg.length := by
  intro q msg off tbl cp m t o e h
  rw [packStructQuestion] at h
  rcases hd : PackDomainName q.name msg off tbl (true && cp) with ⟨⟨m1, t1, o1⟩, - | e1⟩ | - | -
  · simp only [hd] at h
    rcases hu : packU16List m1 o1 [q.qtype, q.qclass] with ⟨⟨m2, o2⟩, e2⟩ | - | -
    · simp only [hu] at h
      obtain ⟨⟨rfl, -, -⟩, -⟩ := by
        simpa only [GoR.ret.injEq, Prod.mk.injEq] using h
      have h1 := PackDomainName_len _ _ _ _ _ _ _ _ _ hd
      have h2 := packU16List_len _ _ _ _ _ _ hu
      omega
    · simp only [hu] at h; exact absurd h (by simp)
    · simp only [hu] at h; exact absurd h (by simp)
  · simp only [hd] at h
    obtain ⟨⟨rfl, -, -⟩, -⟩ := by
      simpa only [GoR.ret.injEq, Prod.mk.injEq] using h
    exact PackDomainName_len _ _ _ _ _ _ _ _ _ hd
  · simp only [hd] at h; exact absurd h (by simp)
  · simp only [hd] at h; exact absurd h (by simp)

theorem packRRHeaderPart_len : ∀ (hd : RRHeader) (msg : List Nat) (off : Nat)
    (tbl : Option CTable) (cp : Bool) (m : List Nat) (t : Option CTable) (o : Nat)
    (e : Option DnsErr),
    packRRHeaderPart hd msg off tbl cp = .ret (m, t, o) e → m.length = msg.length := by
  intro hd msg off tbl cp m t o e h
  rw [packRRHeaderPart] at h
  rcases h1 : PackDomainName hd.name msg off tbl (true && cp) with ⟨⟨m1, t1, o1⟩, - | e1⟩ | - | -
  · simp only [h1] at h
    rcases h2 : packU16List m1 o1 [hd.rrtype, hd.rclass] with ⟨⟨m2, o2⟩, - | e2⟩ | - | -
    · simp only [h2] at h
      rcases h3 : packU32 m2 o2 hd.ttl with ⟨⟨m3, o3⟩, - | e3⟩ | - | -
      · simp only [h3] at h
        rcases h4 : packU16List m3 o3 [hd.rdlength] with ⟨⟨m4, o4⟩, e4⟩ | - | -
        · simp only [h4] at h
          obtain ⟨⟨rfl, -, -⟩, -⟩ := by
            simpa only [GoR.ret.injEq, Prod.mk.injEq] using h
          have k1 := PackDomainName_len _ _ _ _ _ _ _ _ _ h1
          have k2 := packU16List_len _ _ _ _ _ _ h2
          have k3 := packU32_len _ _ _ _ _ _ h3
          have k4 := packU16List_len _ _ _ _ _ _ h4
          omega
        · simp only [h4] at h; exact absurd h (by simp)
        · simp only [h4] at h; exact absurd h (by simp)
      · simp only [h3] at h
        obtain ⟨⟨rfl, -, -⟩, -⟩ := by
          simpa only [GoR.ret.injEq, Prod.mk.injEq] using h
        have k1 := PackDomainName_len _ _ _ _ _ _ _ _ _ h1
        have k2 := packU16List_len _ _ _ _ _ _ h2
        have k3 := packU32_len _ _ _ _ _ _ h3
        omega
      · simp only [h3] at h; exact absurd h (by simp)
      · simp only [h3] at h; exact absurd h (by simp)
    · simp only [h2] at h
      obtain ⟨⟨rfl, -, -⟩, -⟩ := by
        simpa only [GoR.ret.injEq, Prod.mk.injEq] using h
      have k1 := PackDomainName_len _ _ _ _ _ _ _ _ _ h1
      have k2 := packU16List_len _ _ _ _ _ _ h2
      omega
    · simp only [h2] at h; exact absurd h (by simp)
    · simp only [h2] at h; exact absurd h (by simp)
  · simp only [h1] at h
    obtain ⟨⟨rfl, -, -⟩, -⟩ := by
      simpa only [GoR.ret.injEq, Prod.mk.injEq] using h
    exact PackDomainName_len _ _ _ _ _ _ _ _ _ h1
  · simp only [h1] at h; exact absurd h (by simp)
  · simp only [h1] at h; exact absurd h (by simp)

theorem packStructRR_len : ∀ (rr : RR) (msg : List Nat) (off : Nat)
    (tbl : Option CTable) (cp : Bool) (m : List Nat) (t : Option CTable) (o : Nat)
    (e : Option DnsErr),
    packStructRR rr msg off tbl cp = .ret (m, t, o) e → m.length = msg.length := by
  intro rr msg off tbl cp m t o e h
  rw [packStructRR] at h
  rcases h1 : packRRHeaderPart rr.header msg off tbl cp with ⟨⟨m1, t1, o1⟩, - | e1⟩ | - | -
  · simp only [h1] at h
    have k1 := packRRHeaderPart_len _ _ _ _ _ _ _ _ _ h1
    cases rr with
    | a hd ip =>
      rcases h2 : packIPv4 m1 o1 ip with ⟨⟨m2, o2⟩, e2⟩ | - | -
      · simp only [h2] at h
        obtain ⟨⟨rfl, -, -⟩, -⟩ := by
          simpa only [GoR.ret.injEq, Prod.mk.injEq] using h
        have k2 := packIPv4_len _ _ _ _ _ _ h2
        omega
      · simp only [h2] at h; exact absurd h (by simp)
      · simp only [h2] at h; exact absurd h (by simp)
    | cname hd target =>
      rcases h2 : PackDomainName target m1 o1 t1 (true && cp) with ⟨⟨m2, t2, o2⟩, - | e2⟩ | - | -
      · simp only [h2] at h
        obtain ⟨⟨rfl, -, -⟩, -⟩ := by
          simpa only [GoR.ret.injEq, Prod.mk.injEq] using h
        have k2 := PackDomainName_len _ _ _ _ _ _ _ _ _ h2
        omega
      · simp only [h2] at h
        obtain ⟨⟨rfl, -, -⟩, -⟩ := by
          simpa only [GoR.ret.injEq, Prod.mk.injEq] using h
        have k2 := PackDomainName_len _ _ _ _ _ _ _ _ _ h2
        omega
      · simp only [h2] at h; exact absurd h (by simp)
      · simp only [h2] at h; exact absurd h (by simp)
    | txt hd ss =>
      rcases h2 : packTxts m1 o1 ss with ⟨⟨m2, o2⟩, e2⟩ | - | -
      · simp only [h2] at h
        obtain ⟨⟨rfl, -, -⟩, -⟩ := by
          simpa only [GoR.ret.injEq, Prod.mk.injEq] using h
        have k2 := packTxts_len _ _ _ _ _ _ h2
        omega
      · simp only [h2] at h; exact absurd h (by simp)
      · simp only [h2] at h; exact absurd h (by simp)
    | nsec hd nd bm =>
      rcases h2 : PackDomainName nd m1 o1 t1 (false && cp) with ⟨⟨m2, t2, o2⟩, - | e2⟩ | - | -
      · simp only [h2] at h
        have k2 := PackDomainName_len _ _ _ _ _ _ _ _ _ h2
        rcases h3 : packNsecBitmap bm m2 o2 with ⟨⟨m3, o3⟩, e3⟩ | - | -
        · simp only [h3] at h
          obtain ⟨⟨rfl, -, -⟩, -⟩ := by
            simpa only [GoR.ret.injEq, Prod.mk.injEq] using h
          have k3 := packNsecBitmap_len _ _ _ _ _ _ h3
          omega
        · simp only [h3] at h; exact absurd h (by simp)
        · simp only [h3] at h; exact absurd h (by simp)
      · simp only [h2] at h
        obtain ⟨⟨rfl, -, -⟩, -⟩ := by
          simpa only [GoR.ret.injEq, Prod.mk.injEq] using h
        have k2 := PackDomainName_len _ _ _ _ _ _ _ _ _ h2
        omega
      · simp only [h2] at h; exact absurd h (by simp)
      · simp only [h2] at h; exact absurd h (by simp)
    | unknown hd rd =>
      rcases h2 : packBlob m1 o1 rd with ⟨⟨m2, o2⟩, e2⟩ | - | -
      · simp only [h2] at h
        obtain ⟨⟨rfl, -, -⟩, -⟩ := by
          simpa only [GoR.ret.injEq, Prod.mk.injEq] using h
        have k2 := packBlob_len _ _ _ _ _ _ h2
        omega
      · simp only [h2] at h; exact absurd h (by simp)
      · simp only [h2] at h; exact absurd h (by simp)
    | hdrOnly hd =>
      obtain ⟨⟨rfl, -, -⟩, -⟩ := by
        simpa only [GoR.ret.injEq, Prod.mk.injEq] using h
      exact k1
  · simp only [h1] at h
    obtain ⟨⟨rfl, -, -⟩, -⟩ := by
      simpa only [GoR.ret.injEq, Prod.mk.injEq] using h
    exact packRRHeaderPart_len _ _ _ _ _ _ _ _ _ h1
  · simp only [h1] at h; exact absurd h (by simp)
  · simp only [h1] at h; exact absurd h (by simp)

theorem rawSetRdlength_len : ∀ (msg : List Nat) (off off1 : Nat) (m : List Nat),
    rawSetRdlength msg off off1 = some m → m.length = msg.length := by
  intro msg off off1 m h
  rw [rawSetRdlength] at h
  rcases hs : skipName msg off (msg.length + 1) with - | p
  · simp only [hs] at h; cases h
  · simp only [hs] at h
    split at h
    · obtain rfl : (msg.set (p + 8) _).set (p + 8 + 1) _ = m := by simpa using h
      simp
    · cases h

theorem PackRR_len : ∀ (rr : Option RR) (msg : List Nat) (off : Nat)
    (tbl : Option CTable) (cp : Bool) (m : List Nat) (t : Option CTable) (o : Nat)
    (e : Option DnsErr),
    PackRR rr msg off tbl cp = .ret (m, t, o) e → m.length = msg.length := by
  intro rr msg off tbl cp m t o e h
  rcases rr with - | rr
  · obtain ⟨⟨rfl, -, -⟩, -⟩ := by
      simpa only [PackRR, GoR.ret.injEq, Prod.mk.injEq] using h
    rfl
  · rw [PackRR] at h
    rcases h1 : packStructRR rr msg off tbl cp with ⟨⟨m1, t1, o1⟩, - | e1⟩ | - | -
    · simp only [h1] at h
      have k1 := packStructRR_len _ _ _ _ _ _ _ _ _ h1
      rcases h2 : rawSetRdlength m1 off o1 with - | m2
      · simp only [h2] at h
        obtain ⟨⟨rfl, -, -⟩, -⟩ := by
          simpa only [GoR.ret.injEq, Prod.mk.injEq] using h
        exact k1
      · simp only [h2] at h
        obtain ⟨⟨rfl, -, -⟩, -⟩ := by
          simpa only [GoR.ret.injEq, Prod.mk.injEq] using h
        have k2 := rawSetRdlength_len _ _ _ _ h2
        omega
    · simp only [h1] at h
      obtain ⟨⟨rfl, -, -⟩, -⟩ := by
        simpa only [GoR.ret.injEq, Prod.mk.injEq] using h
      exact packStructRR_len _ _ _ _ _ _ _ _ _ h1
    · simp only [h1] at h; exact absurd h (by simp)
    · simp only [h1] at h; exact absurd h (by simp)

theorem packQuestionLoop_len : ∀ (qs : List Question) (msg : List Nat)
    (tbl : Option CTable) (off : Nat) (err : Option DnsErr) (cp : Bool)
    (m : List Nat) (t : Option CTable) (o : Nat) (e : Option DnsErr),
    packQuestionLoop qs msg tbl off err cp = .st m t o e → m.length = msg.length := by
  intro qs
  induction qs with
  | nil =>
    intro msg tbl off err cp m t o e h
    obtain ⟨rfl, -, -, -⟩ := by
      simpa only [packQuestionLoop, PRes.st.injEq] using h
    rfl
  | cons q rest ih =>
    intro msg tbl off err cp m t o e h
    rw [packQuestionLoop] at h
    rcases h1 : packStructQuestion q msg off tbl cp with ⟨⟨m1, t1, o1⟩, e1⟩ | - | -
    · simp only [h1] at h
      have k1 := packStructQuestion_len _ _ _ _ _ _ _ _ _ h1
      have k2 := ih _ _ _ _ _ _ _ _ _ h
      omega
    · simp only [h1] at h; cases h
    · simp only [h1] at h; cases h

theorem packRRLoop_len : ∀ (rrs : List (Option RR)) (msg : List Nat)
    (tbl : Option CTable) (off : Nat) (err : Option DnsErr) (cp : Bool)
    (m : List Nat) (t : Option CTable) (o : Nat) (e : Option DnsErr),
    packRRLoop rrs msg tbl off err cp = .st m t o e → m.length = msg.length := by
  intro rrs
  induction rrs with
  | nil =>
    intro msg tbl off err cp m t o e h
    obtain ⟨rfl, -, -, -⟩ := by
      simpa only [packRRLoop, PRes.st.injEq] using h
    rfl
  | cons rr rest ih =>
    intro msg tbl off err cp m t o e h
    rw [packRRLoop] at h
    rcases h1 : PackRR rr msg off tbl cp with ⟨⟨m1, t1, o1⟩, e1⟩ | - | -
    · simp only [h1] at h
      have k1 := PackRR_len _ _ _ _ _ _ _ _ _ h1
      have k2 := ih _ _ _ _ _ _ _ _ _ h
      omega
    · simp only [h1] at h; cases h
    · simp only [h1] at h; cases h

/-- On error, the name-decoding loop always reports `off1 = len(msg)`. -/
theorem unpackDNAux_err_off (fuel : Nat) : ∀ (msg s : List Nat) (off ptr off1 : Nat)
    (s' : List Nat) (o h : Nat) (e : DnsErr),
    unpackDNAux fuel msg off s ptr off1 = .ret (s', o, h) (some e) →
    o = msg.length := by
  induction fuel with
  | zero => intro msg s off ptr off1 s' o h e hr; exact absurd hr (by simp [unpackDNAux])
  | succ n ih =>
    intro msg s off ptr off1 s' o h e hr
    rw [unpackDNAux] at hr
    by_cases h0 : off ≥ msg.length
    · rw [if_pos h0] at hr
      obtain ⟨⟨-, rfl, -⟩, -⟩ := by
        simpa only [GoR.ret.injEq, Prod.mk.injEq] using hr
      rfl
    · rw [if_neg h0] at hr
      simp only at hr
      set c := msg.getD off 0 with hc
      by_cases h1 : c &&& 192 = 0
      · rw [if_pos h1] at hr
        by_cases h2 : c = 0
        · rw [if_pos h2] at hr
          by_cases h3 : s = []
          · rw [if_pos h3] at hr
            exact absurd hr (by simp)
          · rw [if_neg h3] at hr
            by_cases h4 : ptr = 0
            · rw [if_pos h4] at hr
              exact absurd hr (by simp)
            · rw [if_neg h4] at hr
              exact absurd hr (by simp)
        · rw [if_neg h2] at hr
          by_cases h5 : off + 1 + c > msg.length
          · rw [if_pos h5] at hr
            obtain ⟨⟨-, rfl, -⟩, -⟩ := by
              simpa only [GoR.ret.injEq, Prod.mk.injEq] using hr
            rfl
          · rw [if_neg h5] at hr
            exact ih _ _ _ _ _ _ _ _ _ hr
      · rw [if_neg h1] at hr
        by_cases h6 : c &&& 192 = 192
        · rw [if_pos h6] at hr
          by_cases h7 : off + 1 ≥ msg.length
          · rw [if_pos h7] at hr
            obtain ⟨⟨-, rfl, -⟩, -⟩ := by
              simpa only [GoR.ret.injEq, Prod.mk.injEq] using hr
            rfl
          · rw [if_neg h7] at hr
            by_cases h8 : ptr + 1 > 10
            · rw [if_pos h8] at hr
              obtain ⟨⟨-, rfl, -⟩, -⟩ := by
                simpa only [GoR.ret.injEq, Prod.mk.injEq] using hr
              rfl
            · rw [if_neg h8] at hr
              exact ih _ _ _ _ _ _ _ _ _ hr
        · rw [if_neg h6] at hr
          obtain ⟨⟨-, rfl, -⟩, -⟩ := by
            simpa only [GoR.ret.injEq, Prod.mk.injEq] using hr
          rfl

/-- At `off = len(msg)` the label loop of PackDomainName can neither write
nor break: it either runs into the bounds check (ErrShortBuf) or falls off
the end of the name with buffer, table and offset untouched. -/
theorem packDNAux_at_end (fuel : Nat) : ∀ (bs : List Nat) (ls i b : Nat)
    (msg : List Nat) (t : Option CTable) (cp : Bool), ls ≤ bs.length →
    packDNAux fuel bs ls i b msg.length msg t cp = .nofuel
    ∨ packDNAux fuel bs ls i b msg.length msg t cp = .errOut msg t .shortBuf
    ∨ ∃ bs', packDNAux fuel bs ls i b msg.length msg t cp = .done msg t msg.length bs'
        ∧ bs'.length = bs.length := by
  induction fuel with
  | zero => intro bs ls i b msg t cp hls; exact .inl rfl
  | succ n ih =>
    intro bs ls i b msg t cp hls
    rw [packDNAux]
    by_cases hi : i < ls
    · rw [if_pos hi]
      simp only
      set c := bs.getD i 0 with hc
      by_cases h92 : c = 92
      · rw [if_pos h92]
        have hlen : (shiftDel bs i).length = bs.length :=
          shiftDel_length bs i (lt_of_lt_of_le hi hls)
        have := ih (shiftDel bs i) (ls - 1) (i + 1) b msg t cp (by omega)
        rcases this with h | h | ⟨bs', h, hbl⟩
        · exact .inl h
        · exact .inr (.inl h)
        · exact .inr (.inr ⟨bs', h, by omega⟩)
      · rw [if_neg h92]
        by_cases h46 : c = 46
        · rw [if_pos h46]
          by_cases hbig : i - b ≥ 64
          · rw [if_pos hbig]; exact .inr (.inl rfl)
          · rw [if_neg hbig]
            rw [if_pos (by omega : msg.length + 1 > msg.length)]
            exact .inr (.inl rfl)
        · rw [if_neg h46]
          exact ih bs ls (i + 1) b msg t cp hls
    · rw [if_neg hi]
      exact .inr (.inr ⟨bs, rfl, rfl⟩)

/-- C10: the offset convention of the name codec: whenever `PackDomainName`
or `UnpackDomainName` returns a non-nil error, the returned offset equals
`len(msg)`; consequently a pack or unpack started at that offset never
succeeds — `PackDomainName` at `off = len(msg)` always fails (with an error,
or with a panic for a name whose only dots are escaped), and
`UnpackDomainName` at `off = len(msg)` fails with `ErrShortBuf`. -/
theorem name_error_offset_equals_len :
    (∀ (s msg : List Nat) (off : Nat) (tbl : Option CTable) (cp : Bool)
      (m : List Nat) (t : Option CTable) (o : Nat) (e : DnsErr),
      PackDomainName s msg off tbl cp = .ret (m, t, o) (some e) → o = msg.length)
    ∧ (∀ (msg s' : List Nat) (off o h : Nat) (e : DnsErr),
      UnpackDomainName msg off = .ret (s', o, h) (some e) → o = msg.length)
    ∧ (∀ (s msg : List Nat) (tbl : Option CTable) (cp : Bool),
      (PackDomainName s msg msg.length tbl cp).okRet = false)
    ∧ (∀ msg : List Nat,
      UnpackDomainName msg msg.length = .ret ([], msg.length, 0) (some .shortBuf)) := by
  refine ⟨?_, ?_, ?_, ?_⟩
  · intro s msg off tbl cp m t o e hpk
    simp only [PackDomainName] at hpk
    split at hpk
    · obtain ⟨⟨-, -, rfl⟩, -⟩ := by
        simpa only [GoR.ret.injEq, Prod.mk.injEq] using hpk
      rfl
    · split at hpk
      · exact absurd hpk (by simp)
      · obtain ⟨⟨-, -, rfl⟩, -⟩ := by
          simpa only [GoR.ret.injEq, Prod.mk.injEq] using hpk
        rfl
      · split at hpk
        · exact absurd hpk (by simp)
        · split at hpk
          · split at hpk
            · exact absurd hpk (by simp)
            · exact absurd hpk (by simp)
          · exact absurd hpk (by simp)
      · split at hpk
        · exact absurd hpk (by simp)
        · split at hpk
          · exact absurd hpk (by simp)
          · exact absurd hpk (by simp)
  · intro msg s' off o h e hr
    exact unpackDNAux_err_off _ _ _ _ _ _ _ _ _ _ hr
  · intro s msg tbl cp
    simp only [PackDomainName]
    split
    · rfl
    · rename_i hcond
      push_neg at hcond
      obtain ⟨hs0, hs46⟩ := hcond
      rcases packDNAux_at_end (s.length + 1) s s.length 0 0 msg tbl cp le_rfl
        with h | h | ⟨bs', h, hbl⟩
      · rw [h]; rfl
      · rw [h]; rfl
      · rw [h]
        by_cases h46 : bs' = [46]
        · exfalso
          have hs1 : s.length = 1 := by rw [← hbl, h46]; rfl
          have hseq : s = [46] := by
            cases s with
            | nil => simp at hs1
            | cons a rest =>
              have hr0 : rest = [] := by
                simp only [List.length_cons] at hs1
                exact List.length_eq_zero.mp (by omega)
              subst hr0
              have ha : a = 46 := by simpa using hs46
              rw [ha]
          rw [hseq] at h
          have hcomp : packDNAux (([46] : List Nat).length + 1) [46] ([46] : List Nat).length
              0 0 msg.length msg tbl cp = .errOut msg tbl .shortBuf := by
            show packDNAux 2 [46] 1 0 0 msg.length msg tbl cp = _
            rw [packDNAux, if_pos (by omega : (0 : Nat) < 1)]
            simp only [show ([46] : List Nat).getD 0 0 = 46 from rfl]
            rw [if_neg (by decide : ¬ (46 : Nat) = 92), if_pos trivial,
              if_neg (by decide : ¬ (0 : Nat) - 0 ≥ 64),
              if_pos (by omega : msg.length + 1 > msg.length)]
          rw [hcomp] at h
          exact PDNLoop.noConfusion h
        · simp [h46, GoR.okRet]
  · intro msg
    rw [UnpackDomainName, unpackDNFuel]
    have hk : 12 * (msg.length + 2) + 2 = (12 * (msg.length + 2) + 1) + 1 := rfl
    rw [hk, unpackDNAux, if_pos (le_refl msg.length)]

/-- C10 witness: the error-offset convention applied to two concrete
failing calls — packing the non-qualified name `"a"` into an empty buffer
(fqdn error at offset 0 = len) and unpacking the truncated buffer `[5]`
(ErrShortBuf at offset 1 = len). -/
theorem name_error_offset_equals_len_witness :
    (0 : Nat) = ([] : List Nat).length ∧ (1 : Nat) = ([5] : List Nat).length :=
  ⟨name_error_offset_equals_len.1 [97] [] 0 none false [] none 0 .fqdn (by decide),
   name_error_offset_equals_len.2.1 [5] [] 0 1 0 .shortBuf (by decide)⟩

/-- C1 counterexample: the message `c2origMsg` (Compress = false, one TXT
answer with strings `"a"` and `"b"`) packs successfully to `c2wire`, but
unpacking those bytes yields `c1resMsg`, whose answer is a bare header
rather than the original TXT record: the TXT payload decoder never assigns
its rdata start, its parse fails, and `UnpackRR` silently resynchronises,
so Unpack(Pack(m)) differs from m field-for-field. -/
theorem msg_roundtrip_txt_counterexample :
    MsgPack c2origMsg = .ret (some c2wire) none
    ∧ MsgUnpack c2wire = .ret (some c1resMsg) none
    ∧ c1resMsg.answer ≠ c2origMsg.answer := by
  exact ⟨by decide, by decide, by decide⟩

/-- C6 counterexample: for two A records sharing the owner name
`"a.example.com."` with compression on, `Msg.Len` predicts 56 bytes but
`Msg.Pack` succeeds and returns 57 bytes: the estimator discounts the full
recorded name length (14) while the encoder still spends 2 bytes on the
pointer, so `Len` is not an upper bound on the encoded length. -/
theorem msg_len_compression_underestimate :
    MsgLen c6msg = 56 ∧ MsgPack c6msg = .ret (some c6wire) none ∧ c6wire.length = 57 :=
  ⟨by decide, by decide, by decide⟩

/-- C6 (amended): whatever `Msg.Pack` returns on success is never longer
than `Msg.Len() + 10`, the preallocated buffer — every write is in place and
the returned slice is a prefix of that buffer.  `Len` itself can be exceeded
under compression (see the counterexample). -/
theorem msg_pack_len_plus_slack_bound :
    ∀ (m : Msg) (bytes : List Nat),
    MsgPack m = .ret (some bytes) none → bytes.length ≤ MsgLen m + 10 := by
  intro m bytes h
  rw [MsgPack] at h
  rcases h1 : packStructHeader ⟨m.id, packBits m, m.question.length % 65536,
      m.answer.length % 65536, m.ns.length % 65536, m.extra.length % 65536⟩
      (List.replicate (MsgLen m + 10) 0) 0 with ⟨⟨m1, o1⟩, e1⟩ | - | -
  · simp only [h1] at h
    have k1 : m1.length = MsgLen m + 10 := by
      have := packU16List_len _ _ _ _ _ _ h1
      simpa using this
    rcases h2 : packQuestionLoop m.question m1 (some []) o1 e1 m.compress
        with ⟨m2, t2, o2, e2⟩ | - | -
    · simp only [h2] at h
      have k2 := packQuestionLoop_len _ _ _ _ _ _ _ _ _ _ h2
      rcases h3 : packRRLoop m.answer m2 t2 o2 e2 m.compress with ⟨m3, t3, o3, e3⟩ | - | -
      · simp only [h3] at h
        have k3 := packRRLoop_len _ _ _ _ _ _ _ _ _ _ h3
        rcases h4 : packRRLoop m.ns m3 t3 o3 e3 m.compress with ⟨m4, t4, o4, e4⟩ | - | -
        · simp only [h4] at h
          have k4 := packRRLoop_len _ _ _ _ _ _ _ _ _ _ h4
          rcases h5 : packRRLoop m.extra m4 t4 o4 e4 m.compress with ⟨m5, t5, o5, e5⟩ | - | -
          · simp only [h5] at h
            have k5 := packRRLoop_len _ _ _ _ _ _ _ _ _ _ h5
            rcases e5 with - | err
            · simp only at h
              split at h
              · exact absurd h (by simp)
              · obtain ⟨rfl, -⟩ : m5.take o5 = bytes ∧ (none : Option DnsErr) = none := by
                  simpa only [GoR.ret.injEq, Option.some.injEq] using h
                calc (m5.take o5).length ≤ m5.length := by simp
                  _ = MsgLen m + 10 := by omega
            · simp only at h
              exact absurd h (by simp)
          · simp only [h5] at h; exact absurd h (by simp)
          · simp only [h5] at h; exact absurd h (by simp)
        · simp only [h4] at h; exact absurd h (by simp)
        · simp only [h4] at h; exact absurd h (by simp)
      · simp only [h3] at h; exact absurd h (by simp)
      · simp only [h3] at h; exact absurd h (by simp)
    · simp only [h2] at h; exact absurd h (by simp)
    · simp only [h2] at h; exact absurd h (by simp)
  · simp only [h1] at h; exact absurd h (by simp)
  · simp only [h1] at h; exact absurd h (by simp)

/-- C6 witness: the bound applied to the counterexample message. -/
theorem msg_pack_len_plus_slack_bound_witness : c6wire.length ≤ MsgLen c6msg + 10 :=
  msg_pack_len_plus_slack_bound c6msg c6wire (by decide)

/-- C7: packing the type-bitmap field for `{1, 15, 16, 28, 65535}` emits
only the two non-empty windows — window 0 (number byte 0, length byte 4)
and window 255 (number byte 255, length byte 32, whose last octet carries
65535) — and decoding those 40 bytes with RDLENGTH 40 reproduces exactly
the same set. -/
theorem nsec_bitmap_roundtrip :
    packNsecBitmap c7set (List.replicate 60 0) 0 = .ret (c7wire, 40) none
    ∧ unpackNsecArm (c7wire.take 40) 0 40 = .ret (c7set, 40) none
    ∧ c7wire.getD 0 0 = 0 ∧ c7wire.getD 1 0 = 4
    ∧ c7wire.getD 6 0 = 255 ∧ c7wire.getD 7 0 = 32 ∧ c7wire.getD 39 0 = 1 :=
  ⟨by decide, by decide, by decide, by decide, by decide, by decide, by decide⟩

/-- C2 counterexample: for the TXT record of `c2wire` the payload parse
stops at offset 27 while header-offset + RDLENGTH is 25 + 4 = 29; instead
of failing with a format error, `UnpackRR` silently clamps the offset to 29,
substitutes the bare header for the record and returns a nil error. -/
theorem unpackRR_mismatch_returns_header_nil_error :
    unpackRRHeaderStruct c2wire 12 = .ret (c2hdr, 25) none
    ∧ unpackStructRR (rrMk 16) c2wire 12 = .ret (some (.txt c2hdr [[97]]), 27) none
    ∧ (27 : Nat) ≠ 25 + 4
    ∧ UnpackRR c2wire 12 = .ret (some (.hdrOnly c2hdr), 29) none :=
  ⟨by decide, by decide, by decide, by decide⟩

/-- C2 (amended): `UnpackRR` reads the fixed record header first (type code
and RDLENGTH), parses the payload with that type's layout from the original
offset, and compares the resulting offset with header-offset + RDLENGTH.
On mismatch it does not fail: it returns the bare header as the record, the
offset clamped to header-offset + RDLENGTH, and a nil error (masking any
payload error); only on an exact match are the parsed record and its error
returned. -/
theorem unpackRR_rdlength_mismatch_resync :
    ∀ (msg : List Nat) (off : Nat) (h : RRHeader) (offh : Nat) (rrv : Option RR)
      (offp : Nat) (e : Option DnsErr),
      unpackRRHeaderStruct msg off = .ret (h, offh) none →
      unpackStructRR (rrMk h.rrtype) msg off = .ret (rrv, offp) e →
      (offp ≠ offh + h.rdlength →
        UnpackRR msg off = .ret (some (.hdrOnly h), offh + h.rdlength) none)
      ∧ (offp = offh + h.rdlength → UnpackRR msg off = .ret (rrv, offp) e) := by
  intro msg off h offh rrv offp e h1 h2
  constructor
  · intro hne
    rw [UnpackRR]
    simp only [h1, h2]
    rw [if_pos hne]
  · intro heq
    rw [UnpackRR]
    simp only [h1, h2]
    rw [if_neg (fun hn => hn heq)]

/-- C2 witness: the resync clause applied to the concrete TXT record. -/
theorem unpackRR_rdlength_mismatch_resync_witness :
    UnpackRR c2wire 12 = .ret (some (.hdrOnly c2hdr), 29) none :=
  (unpackRR_rdlength_mismatch_resync c2wire 12 c2hdr 25 (some (.txt c2hdr [[97]])) 27 none
    (by decide) (by decide)).1 (by decide)

/-- The question loop decodes exactly the declared number of entries. -/
theorem unpackQuestionLoop_count : ∀ (n : Nat) (buf : List Nat) (off : Nat)
    (err : Option DnsErr) (qs : List Question) (o : Nat) (e : Option DnsErr),
    unpackQuestionLoop n buf off err = .st qs o e → qs.length = n := by
  intro n
  induction n with
  | zero =>
    intro buf off err qs o e h
    obtain ⟨rfl, -, -⟩ := by simpa only [unpackQuestionLoop, URes.st.injEq] using h
    rfl
  | succ k ih =>
    intro buf off err qs o e h
    rw [unpackQuestionLoop] at h
    rcases h1 : unpackQuestionStruct buf off with ⟨⟨q, o1⟩, e1⟩ | - | -
    · simp only [h1] at h
      rcases h2 : unpackQuestionLoop k buf o1 e1 with ⟨qs2, o2, e2⟩ | - | -
      · simp only [h2] at h
        obtain ⟨rfl, -, -⟩ := by simpa only [URes.st.injEq] using h
        simpa using ih _ _ _ _ _ _ h2
      · simp only [h2] at h; cases h
      · simp only [h2] at h; cases h
    · simp only [h1] at h; cases h
    · simp only [h1] at h; cases h

/-- The record loop decodes exactly the declared number of entries. -/
theorem unpackRRLoop_count : ∀ (n : Nat) (buf : List Nat) (off : Nat)
    (err : Option DnsErr) (rs : List (Option RR)) (o : Nat) (e : Option DnsErr),
    unpackRRLoop n buf off err = .st rs o e → rs.length = n := by
  intro n
  induction n with
  | zero =>
    intro buf off err rs o e h
    obtain ⟨rfl, -, -⟩ := by simpa only [unpackRRLoop, URes.st.injEq] using h
    rfl
  | succ k ih =>
    intro buf off err rs o e h
    rw [unpackRRLoop] at h
    rcases h1 : UnpackRR buf off with ⟨⟨rrv, o1⟩, e1⟩ | - | -
    · simp only [h1] at h
      rcases h2 : unpackRRLoop k buf o1 e1 with ⟨rs2, o2, e2⟩ | - | -
      · simp only [h2] at h
        obtain ⟨rfl, -, -⟩ := by simpa only [URes.st.injEq] using h
        simpa using ih _ _ _ _ _ _ h2
      · simp only [h2] at h; cases h
      · simp only [h2] at h; cases h
    · simp only [h1] at h; cases h
    · simp only [h1] at h; cases h

/-- C5: decoding a header that declares ANCOUNT = 2 over a buffer encoding
only one answer record fails with ErrShortBuf; a well-formed message with a
trailing byte also fails with ErrShortBuf; and in general a successful
`Msg.Unpack` returns exactly the header-declared number of entries per
section, never fewer. -/
theorem msg_unpack_exhaustion_and_trailing :
    MsgUnpack c5buf = .ret none (some .shortBuf)
    ∧ MsgUnpack (emptyMsgWire ++ [0]) = .ret none (some .shortBuf)
    ∧ (∀ (buf : List Nat) (m : Msg) (dh : Header) (o : Nat),
        MsgUnpack buf = .ret (some m) none →
        unpackStructHeader buf 0 = .ret (dh, o) none →
        m.question.length = dh.qdcount ∧ m.answer.length = dh.ancount
          ∧ m.ns.length = dh.nscount ∧ m.extra.length = dh.arcount) := by
  refine ⟨by decide, by decide, ?_⟩
  intro buf m dh o h hh
  rw [MsgUnpack] at h
  simp only [hh] at h
  rcases hq : unpackQuestionLoop dh.qdcount buf o none with ⟨qs, o1, e1⟩ | - | -
  · simp only [hq] at h
    rcases ha : unpackRRLoop dh.ancount buf o1 e1 with ⟨ans, o2, e2⟩ | - | -
    · simp only [ha] at h
      rcases hn : unpackRRLoop dh.nscount buf o2 e2 with ⟨nss, o3, e3⟩ | - | -
      · simp only [hn] at h
        rcases hx : unpackRRLoop dh.arcount buf o3 e3 with ⟨exs, o4, e4⟩ | - | -
        · simp only [hx] at h
          rcases e4 with - | err
          · simp only at h
            split at h
            · exact absurd h (by simp)
            · obtain ⟨hm, -⟩ := by
                simpa only [GoR.ret.injEq, Option.some.injEq] using h
              subst hm
              exact ⟨unpackQuestionLoop_count _ _ _ _ _ _ _ hq,
                unpackRRLoop_count _ _ _ _ _ _ _ ha,
                unpackRRLoop_count _ _ _ _ _ _ _ hn,
                unpackRRLoop_count _ _ _ _ _ _ _ hx⟩
          · simp only at h
            exact absurd h (by simp)
        · simp only [hx] at h; exact absurd h (by simp)
        · simp only [hx] at h; exact absurd h (by simp)
      · simp only [hn] at h; exact absurd h (by simp)
      · simp only [hn] at h; exact absurd h (by simp)
    · simp only [ha] at h; exact absurd h (by simp)
    · simp only [ha] at h; exact absurd h (by simp)
  · simp only [hq] at h; exact absurd h (by simp)
  · simp only [hq] at h; exact absurd h (by simp)

/-- C5 witness: the count clause applied to the truthful one-answer
buffer. -/
theorem msg_unpack_exhaustion_and_trailing_witness :
    ∃ (m : Msg), m.question.length = 0 ∧ m.answer.length = 1
      ∧ m.ns.length = 0 ∧ m.extra.length = 0 := by
  refine ⟨⟨7, false, 0, false, false, false, false, false, false, false, 0, false,
    [], [some (.a ⟨[120, 46], 1, 1, 300, 4⟩ ip16Ex)], [], []⟩, ?_⟩
  exact msg_unpack_exhaustion_and_trailing.2.2 c5okbuf _ ⟨7, 0, 0, 1, 0, 0⟩ 12
    (by decide) (by decide)

/-- C9 counterexample: in `c9buf` the first answer's payload decode fails
with the format error (bitmap window length 33), yet `Msg.Unpack` returns
success: the offset mismatch resync of `UnpackRR` swallows the error,
substitutes the bare header, and decoding continues to a nil-error return
with a message whose first answer lost its payload. -/
theorem msg_unpack_masks_entry_error :
    unpackStructRR (rrMk 47) c9buf 12 = .ret (none, 74) (some .fmtRR)
    ∧ MsgUnpack c9buf = .ret (some c9msg) none :=
  ⟨by decide, by decide⟩

/-- C9 (amended): the first error does not abort a Pack pass — the section
loops run to the end, overwriting the error variable each iteration and
checking it only after the loops.  When `Msg.Pack` does return with an
error, the byte slice is nil (the source's literal `return nil, err`),
never a truncated slice; but an entry reached after an earlier failure can
instead make Pack panic, because `PackDomainName`'s unchecked terminator
write lands at the stale error offset `len(msg)`, as `c9pmsg` shows (its
first question lacks the root dot and errors, its second name's only dot is
escaped, so the root-label write happens out of bounds). -/
theorem msg_pack_error_nil_slice_or_panic :
    (∀ (m : Msg) (v : Option (List Nat)) (e : DnsErr),
      MsgPack m = .ret v (some e) → v = none)
    ∧ MsgPack c9pmsg = .panik := by
  refine ⟨?_, by decide⟩
  intro m v e h
  rw [MsgPack] at h
  rcases h1 : packStructHeader ⟨m.id, packBits m, m.question.length % 65536,
      m.answer.length % 65536, m.ns.length % 65536, m.extra.length % 65536⟩
      (List.replicate (MsgLen m + 10) 0) 0 with ⟨⟨m1, o1⟩, e1⟩ | - | -
  · simp only [h1] at h
    rcases h2 : packQuestionLoop m.question m1 (some []) o1 e1 m.compress
        with ⟨m2, t2, o2, e2⟩ | - | -
    · simp only [h2] at h
      rcases h3 : packRRLoop m.answer m2 t2 o2 e2 m.compress with ⟨m3, t3, o3, e3⟩ | - | -
      · simp only [h3] at h
        rcases h4 : packRRLoop m.ns m3 t3 o3 e3 m.compress with ⟨m4, t4, o4, e4⟩ | - | -
        · simp only [h4] at h
          rcases h5 : packRRLoop m.extra m4 t4 o4 e4 m.compress with ⟨m5, t5, o5, e5⟩ | - | -
          · simp only [h5] at h
            rcases e5 with - | err
            · simp only at h
              split at h
              · exact absurd h (by simp)
              · obtain ⟨-, he⟩ := by
                  simpa only [GoR.ret.injEq] using h
                cases he
            · simp only at h
              obtain ⟨hv, -⟩ := by
                simpa only [GoR.ret.injEq] using h
              exact hv.symm
          · simp only [h5] at h; exact absurd h (by simp)
          · simp only [h5] at h; exact absurd h (by simp)
        · simp only [h4] at h; exact absurd h (by simp)
        · simp only [h4] at h; exact absurd h (by simp)
      · simp only [h3] at h; exact absurd h (by simp)
      · simp only [h3] at h; exact absurd h (by simp)
    · simp only [h2] at h; exact absurd h (by simp)
    · simp only [h2] at h; exact absurd h (by simp)
  · simp only [h1] at h; exact absurd h (by simp)
  · simp only [h1] at h; exact absurd h (by simp)

/-- C9 witness: the nil-slice clause applied to a pack that fails with the
fqdn error. -/
theorem msg_pack_error_nil_slice_or_panic_witness :
    (none : Option (List Nat)) = none :=
  msg_pack_error_nil_slice_or_panic.1 c9emsg none .fqdn (by decide)

/-! ## List and bit helpers for the C1 round trip -/

theorem getD_append_len (pre post : List Nat) (j : Nat) :
    (pre ++ post).getD (pre.length + j) 0 = post.getD j 0 := by
  rw [List.getD_append_right pre post 0 _ (Nat.le_add_right _ _)]
  simp

theorem set_append_len (b x : Nat) : ∀ (pre rest : List Nat),
    (pre ++ x :: rest).set pre.length b = pre ++ b :: rest := by
  intro pre
  induction pre with
  | nil => intro rest; rfl
  | cons a pre ih => intro rest; simp [List.set, ih]

theorem drop_append_len_add (k : Nat) : ∀ (pre post : List Nat),
    (pre ++ post).drop (pre.length + k) = post.drop k := by
  intro pre
  induction pre with
  | nil => intro post; simp
  | cons a pre ih =>
    intro post
    have hs : (a :: pre).length + k = (pre.length + k) + 1 := by simp; omega
    rw [hs, List.cons_append, List.drop_succ_cons, ih]

theorem encLabels_length (ls : List (List Nat)) :
    (encLabels ls).length = (joinName ls).length := by
  induction ls with
  | nil => rfl
  | cons l rest ih => simp [encLabels, joinName, ih]; omega

theorem joinName_getLast : ∀ (ls : List (List Nat)), ls ≠ [] →
    (joinName ls).getD ((joinName ls).length - 1) 0 = 46 := by
  intro ls
  induction ls with
  | nil => intro h; exact absurd rfl h
  | cons l rest ih =>
    intro _
    cases rest with
    | nil =>
      show (l ++ [46]).getD ((l ++ [46]).length - 1) 0 = 46
      have h1 : (l ++ [46]).length - 1 = l.length + 0 := by simp
      rw [h1, getD_append_len]
      rfl
    | cons l2 rest2 =>
      have hJ : joinName (l :: l2 :: rest2) = l ++ 46 :: joinName (l2 :: rest2) := rfl
      rw [hJ]
      have hjl : joinName (l2 :: rest2) ≠ [] := by simp [joinName]
      have hpos : 1 ≤ (joinName (l2 :: rest2)).length :=
        Nat.one_le_iff_ne_zero.mpr (by simpa using hjl)
      have h1 : (l ++ 46 :: joinName (l2 :: rest2)).length - 1
          = l.length + (1 + ((joinName (l2 :: rest2)).length - 1)) := by
        simp; omega
      rw [h1, getD_append_len]
      have h2 : (46 :: joinName (l2 :: rest2)).getD (1 + ((joinName (l2 :: rest2)).length - 1)) 0
          = (joinName (l2 :: rest2)).getD ((joinName (l2 :: rest2)).length - 1) 0 := by
        rw [Nat.add_comm 1 _]
        rfl
      rw [h2]
      exact ih (by simp)

theorem and192_eq_zero (c : Nat) (h : c < 64) : c &&& 192 = 0 := by
  interval_cases c <;> rfl

theorem or_eq_add_of_and_eq_zero : ∀ a b : Nat, a &&& b = 0 → a ||| b = a + b := by
  intro a
  induction a using Nat.binaryRec with
  | z => intro b _; rw [Nat.zero_or, Nat.zero_add]
  | f ba na ih =>
    intro b
    refine Nat.bitCasesOn (motive := fun x => Nat.bit ba na &&& x = 0 →
      Nat.bit ba na ||| x = Nat.bit ba na + x) b ?_
    intro bb nb h
    rw [Nat.land_bit] at h
    obtain ⟨hn, hb⟩ := Nat.bit_eq_zero_iff.mp h
    rw [Nat.lor_bit, Nat.bit_val, Nat.bit_val, Nat.bit_val, ih nb hn]
    cases ba <;> cases bb <;> simp_all <;> omega

theorem or_two_pow_eq_add (x i : Nat) (h : x.testBit i = false) :
    x ||| 2 ^ i = x + 2 ^ i := by
  apply or_eq_add_of_and_eq_zero
  rw [Nat.and_two_pow, h]
  simp

theorem testBit_mul_add_lt (C r i : Nat) (hr : r < 2 ^ i) :
    (2 ^ (i + 1) * C + r).testBit i = false := by
  rw [Nat.testBit_to_div_mod]
  have h1 : (2 ^ (i + 1) * C + r) / 2 ^ i = 2 * C := by
    have h2 : 2 ^ (i + 1) * C + r = r + (2 * C) * 2 ^ i := by ring
    rw [h2, Nat.add_mul_div_right _ _ (Nat.pos_pow_of_pos i (by omega)),
      Nat.div_eq_of_lt hr, Nat.zero_add]
  rw [h1]
  simp [Nat.mul_mod_right]

theorem cond_or_flag (c : Bool) (C r i : Nat) (hr : r < 2 ^ i) :
    (if c then (2 ^ (i + 1) * C + r) ||| 2 ^ i else (2 ^ (i + 1) * C + r))
      = 2 ^ (i + 1) * C + r + c.toNat * 2 ^ i := by
  cases c
  · simp
  · simp [or_two_pow_eq_add _ _ (testBit_mul_add_lt C r i hr)]

theorem cond_or_top (c : Bool) (x i : Nat) (hx : x < 2 ^ i) :
    (if c then x ||| 2 ^ i else x) = x + c.toNat * 2 ^ i := by
  cases c
  · simp
  · simp [or_two_pow_eq_add _ _ (Nat.testBit_lt_two_pow hx)]

theorem testBit_mul_two_pow_lt (a k j : Nat) (h : j < k) :
    (a * 2 ^ k).testBit j = false := by
  rw [Nat.testBit_to_div_mod]
  have h1 : a * 2 ^ k / 2 ^ j = a * 2 ^ (k - j) := by
    rw [show (2 : Nat) ^ k = 2 ^ (k - j) * 2 ^ j from by rw [← pow_add]; congr 1; omega,
      ← Nat.mul_assoc, Nat.mul_div_cancel _ (Nat.pos_pow_of_pos j (by omega))]
  rw [h1]
  have h2 : a * 2 ^ (k - j) % 2 = 0 := by
    rw [show k - j = (k - j - 1) + 1 from by omega, pow_succ, ← Nat.mul_assoc]
    simp [Nat.mul_mod_left]
  simp [h2]

theorem mul_2048_and_lt16_eq_zero (a b : Nat) (hb : b < 16) : a * 2048 &&& b = 0 := by
  apply Nat.eq_of_testBit_eq
  intro j
  rw [Nat.testBit_and, Nat.zero_testBit]
  by_cases hj : j < 11
  · rw [show (2048 : Nat) = 2 ^ 11 from by norm_num, testBit_mul_two_pow_lt a 11 j hj]
    rfl
  · have hbj : b < 2 ^ j := by
      calc b < 2 ^ 4 := by norm_num; omega
        _ ≤ 2 ^ j := Nat.pow_le_pow_right (by omega) (by omega)
    rw [Nat.testBit_lt_two_pow hbj]
    simp

theorem packBits_eq_sum (m : Msg) (hop : m.opcode < 16) (hrc : m.rcode < 16) :
    packBits m = m.opcode * 2048 + m.rcode
      + m.response.toNat * 32768 + m.authoritative.toNat * 1024
      + m.truncated.toNat * 512 + m.recursionDesired.toNat * 256
      + m.recursionAvailable.toNat * 128 + m.zero.toNat * 64
      + m.authenticatedData.toNat * 32 + m.checkingDisabled.toNat * 16 := by
  have hmod1 : m.opcode % 65536 = m.opcode := Nat.mod_eq_of_lt (by omega)
  have hmod2 : m.opcode * 2048 % 65536 = m.opcode * 2048 := Nat.mod_eq_of_lt (by omega)
  have hmod3 : m.rcode % 65536 = m.rcode := Nat.mod_eq_of_lt (by omega)
  have hb0 : m.opcode * 2048 ||| m.rcode = m.opcode * 2048 + m.rcode :=
    or_eq_add_of_and_eq_zero _ _ (mul_2048_and_lt16_eq_zero _ _ hrc)
  set oc := m.opcode with hoc
  set rc := m.rcode with hrcv
  set vR := m.response.toNat with hvR
  set vA := m.authoritative.toNat with hvA
  set vT := m.truncated.toNat with hvT
  set vD := m.recursionDesired.toNat with hvD
  set vV := m.recursionAvailable.toNat with hvV
  set vZ := m.zero.toNat with hvZ
  set vU := m.authenticatedData.toNat with hvU
  set vC := m.checkingDisabled.toNat with hvC
  have h1 : (if m.response then (oc * 2048 + rc) ||| 32768 else (oc * 2048 + rc))
      = oc * 2048 + rc + vR * 32768 := by
    have := cond_or_top m.response (oc * 2048 + rc) 15 (by norm_num; omega)
    norm_num at this
    exact this
  have h2 : (if m.authoritative then (oc * 2048 + rc + vR * 32768) ||| 1024
        else (oc * 2048 + rc + vR * 32768))
      = oc * 2048 + rc + vR * 32768 + vA * 1024 := by
    have hdec : oc * 2048 + rc + vR * 32768 = 2 ^ (10 + 1) * (oc + vR * 16) + rc := by ring
    have := cond_or_flag m.authoritative (oc + vR * 16) rc 10 (by norm_num; omega)
    rw [← hdec] at this
    norm_num at this
    rw [this]
  have h3 : (if m.truncated then (oc * 2048 + rc + vR * 32768 + vA * 1024) ||| 512
        else (oc * 2048 + rc + vR * 32768 + vA * 1024))
      = oc * 2048 + rc + vR * 32768 + vA * 1024 + vT * 512 := by
    have hdec : oc * 2048 + rc + vR * 32768 + vA * 1024
        = 2 ^ (9 + 1) * (oc * 2 + vR * 32 + vA) + rc := by ring
    have := cond_or_flag m.truncated (oc * 2 + vR * 32 + vA) rc 9 (by norm_num; omega)
    rw [← hdec] at this
    norm_num at this
    rw [this]
  have h4 : (if m.recursionDesired then
        (oc * 2048 + rc + vR * 32768 + vA * 1024 + vT * 512) ||| 256
        else (oc * 2048 + rc + vR * 32768 + vA * 1024 + vT * 512))
      = oc * 2048 + rc + vR * 32768 + vA * 1024 + vT * 512 + vD * 256 := by
    have hdec : oc * 2048 + rc + vR * 32768 + vA * 1024 + vT * 512
        = 2 ^ (8 + 1) * (oc * 4 + vR * 64 + vA * 2 + vT) + rc := by ring
    have := cond_or_flag m.recursionDesired (oc * 4 + vR * 64 + vA * 2 + vT) rc 8
      (by norm_num; omega)
    rw [← hdec] at this
    norm_num at this
    rw [this]
  have h5 : (if m.recursionAvailable then
        (oc * 2048 + rc + vR * 32768 + vA * 1024 + vT * 512 + vD * 256) ||| 128
        else (oc * 2048 + rc + vR * 32768 + vA * 1024 + vT * 512 + vD * 256))
      = oc * 2048 + rc + vR * 32768 + vA * 1024 + vT * 512 + vD * 256 + vV * 128 := by
    have hdec : oc * 2048 + rc + vR * 32768 + vA * 1024 + vT * 512 + vD * 256
        = 2 ^ (7 + 1) * (oc * 8 + vR * 128 + vA * 4 + vT * 2 + vD) + rc := by ring
    have := cond_or_flag m.recursionAvailable (oc * 8 + vR * 128 + vA * 4 + vT * 2 + vD) rc 7
      (by norm_num; omega)
    rw [← hdec] at this
    norm_num at this
    rw [this]
  have h6 : (if m.zero then
        (oc * 2048 + rc + vR * 32768 + vA * 1024 + vT * 512 + vD * 256 + vV * 128) ||| 64
        else (oc * 2048 + rc + vR * 32768 + vA * 1024 + vT * 512 + vD * 256 + vV * 128))
      = oc * 2048 + rc + vR * 32768 + vA * 1024 + vT * 512 + vD * 256 + vV * 128 + vZ * 64 := by
    have hdec : oc * 2048 + rc + vR * 32768 + vA * 1024 + vT * 512 + vD * 256 + vV * 128
        = 2 ^ (6 + 1) * (oc * 16 + vR * 256 + vA * 8 + vT * 4 + vD * 2 + vV) + rc := by ring
    have := cond_or_flag m.zero (oc * 16 + vR * 256 + vA * 8 + vT * 4 + vD * 2 + vV) rc 6
      (by norm_num; omega)
    rw [← hdec] at this
    norm_num at this
    rw [this]
  have h7 : (if m.authenticatedData then
        (oc * 2048 + rc + vR * 32768 + vA * 1024 + vT * 512 + vD * 256 + vV * 128 + vZ * 64) ||| 32
        else (oc * 2048 + rc + vR * 32768 + vA * 1024 + vT * 512 + vD * 256 + vV * 128 + vZ * 64))
      = oc * 2048 + rc + vR * 32768 + vA * 1024 + vT * 512 + vD * 256 + vV * 128 + vZ * 64
        + vU * 32 := by
    have hdec : oc * 2048 + rc + vR * 32768 + vA * 1024 + vT * 512 + vD * 256 + vV * 128 + vZ * 64
        = 2 ^ (5 + 1) * (oc * 32 + vR * 512 + vA * 16 + vT * 8 + vD * 4 + vV * 2 + vZ) + rc := by
      ring
    have := cond_or_flag m.authenticatedData
      (oc * 32 + vR * 512 + vA * 16 + vT * 8 + vD * 4 + vV * 2 + vZ) rc 5 (by norm_num; omega)
    rw [← hdec] at this
    norm_num at this
    rw [this]
  have h8 : (if m.checkingDisabled then
        (oc * 2048 + rc + vR * 32768 + vA * 1024 + vT * 512 + vD * 256 + vV * 128 + vZ * 64
          + vU * 32) ||| 16
        else (oc * 2048 + rc + vR * 32768 + vA * 1024 + vT * 512 + vD * 256 + vV * 128 + vZ * 64
          + vU * 32))
      = oc * 2048 + rc + vR * 32768 + vA * 1024 + vT * 512 + vD * 256 + vV * 128 + vZ * 64
        + vU * 32 + vC * 16 := by
    have hdec : oc * 2048 + rc + vR * 32768 + vA * 1024 + vT * 512 + vD * 256 + vV * 128 + vZ * 64
          + vU * 32
        = 2 ^ (4 + 1) * (oc * 64 + vR * 1024 + vA * 32 + vT * 16 + vD * 8 + vV * 4 + vZ * 2 + vU)
          + rc := by ring
    have := cond_or_flag m.checkingDisabled
      (oc * 64 + vR * 1024 + vA * 32 + vT * 16 + vD * 8 + vV * 4 + vZ * 2 + vU) rc 4
      (by norm_num; omega)
    rw [← hdec] at this
    norm_num at this
    rw [this]
  show packBits m = _
  rw [packBits]
  simp only [hmod1, hmod2, hmod3, ← hoc, ← hrcv]
  rw [hb0, h1, h2, h3, h4, h5, h6, h7, h8]

theorem packBits_lt (m : Msg) (hop : m.opcode < 16) (hrc : m.rcode < 16) :
    packBits m < 65536 := by
  rw [packBits_eq_sum m hop hrc]
  have h1 : m.response.toNat ≤ 1 := Bool.toNat_le _
  have h2 : m.authoritative.toNat ≤ 1 := Bool.toNat_le _
  have h3 : m.truncated.toNat ≤ 1 := Bool.toNat_le _
  have h4 : m.recursionDesired.toNat ≤ 1 := Bool.toNat_le _
  have h5 : m.recursionAvailable.toNat ≤ 1 := Bool.toNat_le _
  have h6 : m.zero.toNat ≤ 1 := Bool.toNat_le _
  have h7 : m.authenticatedData.toNat ≤ 1 := Bool.toNat_le _
  have h8 : m.checkingDisabled.toNat ≤ 1 := Bool.toNat_le _
  omega

theorem nat_and_15_eq_mod (x : Nat) : x &&& 15 = x % 16 := by
  have := Nat.and_pow_two_sub_one_eq_mod x 4
  norm_num at this
  exact this

theorem bne_and_two_pow (x i : Nat) : (x &&& 2 ^ i != 0) = x.testBit i := by
  rw [Nat.and_two_pow]
  cases h : x.testBit i
  · simp
  · simp only [Bool.toNat_true, Nat.one_mul]
    have hp : 0 < (2 : Nat) ^ i := Nat.pos_pow_of_pos i (by omega)
    simp [hp.ne']

/-- Each header flag, the opcode and the rcode read back from the packed
`Bits` word exactly as the message stored them. -/
theorem packBits_extract (m : Msg) (hop : m.opcode < 16) (hrc : m.rcode < 16) :
    (packBits m &&& 32768 != 0) = m.response
    ∧ (packBits m / 2048 &&& 15) = m.opcode
    ∧ (packBits m &&& 1024 != 0) = m.authoritative
    ∧ (packBits m &&& 512 != 0) = m.truncated
    ∧ (packBits m &&& 256 != 0) = m.recursionDesired
    ∧ (packBits m &&& 128 != 0) = m.recursionAvailable
    ∧ (packBits m &&& 64 != 0) = m.zero
    ∧ (packBits m &&& 32 != 0) = m.authenticatedData
    ∧ (packBits m &&& 16 != 0) = m.checkingDisabled
    ∧ (packBits m &&& 15) = m.rcode := by
  have hS := packBits_eq_sum m hop hrc
  have b1 : m.response.toNat ≤ 1 := Bool.toNat_le _
  have b2 : m.authoritative.toNat ≤ 1 := Bool.toNat_le _
  have b3 : m.truncated.toNat ≤ 1 := Bool.toNat_le _
  have b4 : m.recursionDesired.toNat ≤ 1 := Bool.toNat_le _
  have b5 : m.recursionAvailable.toNat ≤ 1 := Bool.toNat_le _
  have b6 : m.zero.toNat ≤ 1 := Bool.toNat_le _
  have b7 : m.authenticatedData.toNat ≤ 1 := Bool.toNat_le _
  have b8 : m.checkingDisabled.toNat ≤ 1 := Bool.toNat_le _
  refine ⟨?_, ?_, ?_, ?_, ?_, ?_, ?_, ?_, ?_, ?_⟩
  · rw [show (32768 : Nat) = 2 ^ 15 from by norm_num, bne_and_two_pow,
      Nat.testBit_to_div_mod, hS]
    cases hx : m.response
    · simp only [Bool.toNat_false, decide_eq_false_iff_not]
      norm_num
      omega
    · simp only [Bool.toNat_true, decide_eq_true_eq]
      norm_num
      omega
  · rw [hS, nat_and_15_eq_mod]
    omega
  · rw [show (1024 : Nat) = 2 ^ 10 from by norm_num, bne_and_two_pow,
      Nat.testBit_to_div_mod, hS]
    cases hx : m.authoritative
    · simp only [Bool.toNat_false, decide_eq_false_iff_not]
      norm_num
      omega
    · simp only [Bool.toNat_true, decide_eq_true_eq]
      norm_num
      omega
  · rw [show (512 : Nat) = 2 ^ 9 from by norm_num, bne_and_two_pow,
      Nat.testBit_to_div_mod, hS]
    cases hx : m.truncated
    · simp only [Bool.toNat_false, decide_eq_false_iff_not]
      norm_num
      omega
    · simp only [Bool.toNat_true, decide_eq_true_eq]
      norm_num
      omega
  · rw [show (256 : Nat) = 2 ^ 8 from by norm_num, bne_and_two_pow,
      Nat.testBit_to_div_mod, hS]
    cases hx : m.recursionDesired
    · simp only [Bool.toNat_false, decide_eq_false_iff_not]
      norm_num
      omega
    · simp only [Bool.toNat_true, decide_eq_true_eq]
      norm_num
      omega
  · rw [show (128 : Nat) = 2 ^ 7 from by norm_num, bne_and_two_pow,
      Nat.testBit_to_div_mod, hS]
    cases hx : m.recursionAvailable
    · simp only [Bool.toNat_false, decide_eq_false_iff_not]
      norm_num
      omega
    · simp only [Bool.toNat_true, decide_eq_true_eq]
      norm_num
      omega
  · rw [show (64 : Nat) = 2 ^ 6 from by norm_num, bne_and_two_pow,
      Nat.testBit_to_div_mod, hS]
    cases hx : m.zero
    · simp only [Bool.toNat_false, decide_eq_false_iff_not]
      norm_num
      omega
    · simp only [Bool.toNat_true, decide_eq_true_eq]
      norm_num
      omega
  · rw [show (32 : Nat) = 2 ^ 5 from by norm_num, bne_and_two_pow,
      Nat.testBit_to_div_mod, hS]
    cases hx : m.authenticatedData
    · simp only [Bool.toNat_false, decide_eq_false_iff_not]
      norm_num
      omega
    · simp only [Bool.toNat_true, decide_eq_true_eq]
      norm_num
      omega
  · rw [show (16 : Nat) = 2 ^ 4 from by norm_num, bne_and_two_pow,
      Nat.testBit_to_div_mod, hS]
    cases hx : m.checkingDisabled
    · simp only [Bool.toNat_false, decide_eq_false_iff_not]
      norm_num
      omega
    · simp only [Bool.toNat_true, decide_eq_true_eq]
      norm_num
      omega
  · rw [hS, nat_and_15_eq_mod]
    omega

theorem set_append_cons1 (b x0 x : Nat) : ∀ (pre rest : List Nat),
    (pre ++ x0 :: x :: rest).set (pre.length + 1) b = pre ++ x0 :: b :: rest := by
  intro pre
  induction pre with
  | nil => intro rest; rfl
  | cons a pre ih => intro rest; simp [List.set, ih]

theorem set_append_cons2 (b x0 x1 x : Nat) : ∀ (pre rest : List Nat),
    (pre ++ x0 :: x1 :: x :: rest).set (pre.length + 2) b = pre ++ x0 :: x1 :: b :: rest := by
  intro pre
  induction pre with
  | nil => intro rest; rfl
  | cons a pre ih => intro rest; simp [List.set, ih]

theorem set_append_cons3 (b x0 x1 x2 x : Nat) : ∀ (pre rest : List Nat),
    (pre ++ x0 :: x1 :: x2 :: x :: rest).set (pre.length + 3) b
      = pre ++ x0 :: x1 :: x2 :: b :: rest := by
  intro pre
  induction pre with
  | nil => intro rest; rfl
  | cons a pre ih => intro rest; simp [List.set, ih]

theorem writeBytesChecked_enc : ∀ (bytes pre rest : List Nat), bytes.length ≤ rest.length →
    writeBytesChecked (pre ++ rest) pre.length bytes
      = .ok (pre ++ bytes ++ rest.drop bytes.length, pre.length + bytes.length) := by
  intro bytes
  induction bytes with
  | nil => intro pre rest h; simp [writeBytesChecked]
  | cons b bs ih =>
    intro pre rest h
    simp only [List.length_cons] at h
    rw [writeBytesChecked]
    rw [if_neg (by simp only [List.length_append]; omega)]
    cases rest with
    | nil => simp at h
    | cons r0 rest2 =>
      simp only [List.length_cons] at h
      rw [set_append_len]
      have hlen : bs.length ≤ rest2.length := by omega
      have hrec := ih (pre ++ [b]) rest2 hlen
      have hEq : (pre ++ [b]) ++ rest2 = pre ++ b :: rest2 := by simp
      have hLen : (pre ++ [b]).length = pre.length + 1 := by simp
      rw [hEq, hLen] at hrec
      rw [hrec]
      congr 2
      · simp
      · simp only [List.length_cons]
        omega

theorem packU16List_enc : ∀ (vs : List Nat) (pre rest : List Nat), 2 * vs.length ≤ rest.length →
    packU16List (pre ++ rest) pre.length vs
      = .ret (pre ++ u16s vs ++ rest.drop (2 * vs.length), pre.length + 2 * vs.length) none := by
  intro vs
  induction vs with
  | nil => intro pre rest h; simp [packU16List, u16s]
  | cons v vs ih =>
    intro pre rest h
    simp only [List.length_cons] at h
    rw [packU16List]
    rw [if_neg (by simp only [List.length_append]; omega)]
    cases rest with
    | nil => simp at h
    | cons r0 rest1 =>
      cases rest1 with
      | nil => simp at h; omega
      | cons r1 rest2 =>
        simp only [List.length_cons] at h
        rw [set_append_len, set_append_cons1]
        have hlen : 2 * vs.length ≤ rest2.length := by omega
        have hrec := ih (pre ++ [v / 256 % 256, v % 256]) rest2 hlen
        have hEq : (pre ++ [v / 256 % 256, v % 256]) ++ rest2
            = pre ++ v / 256 % 256 :: v % 256 :: rest2 := by simp
        have hLen : (pre ++ [v / 256 % 256, v % 256]).length = pre.length + 2 := by simp
        rw [hEq, hLen] at hrec
        rw [hrec]
        have hdrop : List.drop (2 * (v :: vs).length) (r0 :: r1 :: rest2)
            = List.drop (2 * vs.length) rest2 := by
          rw [show 2 * (v :: vs).length = 2 * vs.length + 1 + 1 from by
            simp only [List.length_cons]; omega]
          rw [List.drop_succ_cons, List.drop_succ_cons]
        rw [hdrop, show u16s (v :: vs) = v / 256 % 256 :: v % 256 :: u16s vs from rfl,
          show pre.length + 2 * (v :: vs).length = pre.length + 2 + 2 * vs.length from by
            simp only [List.length_cons]; omega]
        simp

theorem packU32_enc (pre rest : List Nat) (v : Nat) (h : 4 ≤ rest.length) :
    packU32 (pre ++ rest) pre.length v
      = .ret (pre ++ u32b v ++ rest.drop 4, pre.length + 4) none := by
  rw [packU32]
  rw [if_neg (by simp; omega)]
  cases rest with
  | nil => simp at h
  | cons r0 rest1 =>
    cases rest1 with
    | nil => simp at h
    | cons r1 rest2 =>
      cases rest2 with
      | nil => simp at h
      | cons r2 rest3 =>
        cases rest3 with
        | nil => simp at h
        | cons r3 rest4 =>
          rw [set_append_len, set_append_cons1, set_append_cons2, set_append_cons3]
          simp [u32b]

theorem packIPv4_enc (pre rest ip : List Nat) (h16 : ip.length = 16) (h : 4 ≤ rest.length) :
    packIPv4 (pre ++ rest) pre.length ip
      = .ret (pre ++ [ip.getD 12 0, ip.getD 13 0, ip.getD 14 0, ip.getD 15 0] ++ rest.drop 4,
          pre.length + 4) none := by
  rw [packIPv4]
  rw [if_pos h16]
  rw [if_neg (by simp; omega)]
  cases rest with
  | nil => simp at h
  | cons r0 rest1 =>
    cases rest1 with
    | nil => simp at h
    | cons r1 rest2 =>
      cases rest2 with
      | nil => simp at h
      | cons r2 rest3 =>
        cases rest3 with
        | nil => simp at h
        | cons r3 rest4 =>
          rw [set_append_len, set_append_cons1, set_append_cons2, set_append_cons3]
          simp

theorem drop12_eq_getD (ip : List Nat) (h16 : ip.length = 16) :
    ip.drop 12 = [ip.getD 12 0, ip.getD 13 0, ip.getD 14 0, ip.getD 15 0] := by
  have hsplit := List.take_append_drop 12 ip
  have hlen : (ip.drop 12).length = 4 := by simp [h16]
  have htk : (ip.take 12).length = 12 := by simp [h16]
  rcases hd : ip.drop 12 with - | ⟨a0, d1⟩
  · rw [hd] at hlen; simp at hlen
  · rcases d1 with - | ⟨a1, d2⟩
    · rw [hd] at hlen; simp at hlen
    · rcases d2 with - | ⟨a2, d3⟩
      · rw [hd] at hlen; simp at hlen
      · rcases d3 with - | ⟨a3, d4⟩
        · rw [hd] at hlen; simp at hlen
        · rcases d4 with - | ⟨a4, d5⟩
          · obtain ⟨t, ht, hlen12⟩ : ∃ t, ip = t ++ [a0, a1, a2, a3] ∧ t.length = 12 :=
              ⟨ip.take 12, by rw [← hd, hsplit], htk⟩
            rw [ht]
            have g0 : (t ++ [a0, a1, a2, a3]).getD (t.length + 0) 0 = a0 := by
              rw [getD_append_len]; rfl
            have g1 : (t ++ [a0, a1, a2, a3]).getD (t.length + 1) 0 = a1 := by
              rw [getD_append_len]; rfl
            have g2 : (t ++ [a0, a1, a2, a3]).getD (t.length + 2) 0 = a2 := by
              rw [getD_append_len]; rfl
            have g3 : (t ++ [a0, a1, a2, a3]).getD (t.length + 3) 0 = a3 := by
              rw [getD_append_len]; rfl
            rw [show (12 : Nat) = t.length + 0 from by rw [hlen12], g0,
              show (13 : Nat) = t.length + 1 from by rw [hlen12], g1,
              show (14 : Nat) = t.length + 2 from by rw [hlen12], g2,
              show (15 : Nat) = t.length + 3 from by rw [hlen12], g3]
          · rw [hd] at hlen; simp at hlen

theorem unpackU16_enc (pre post : List Nat) (v : Nat) :
    unpackU16 (pre ++ u16b v ++ post) pre.length = .ret (v % 65536, pre.length + 2) none := by
  rw [unpackU16]
  rw [if_neg (by simp [u16b])]
  have g0 : (pre ++ u16b v ++ post).getD pre.length 0 = v / 256 % 256 := by
    rw [List.append_assoc, show pre.length = pre.length + 0 from rfl, getD_append_len]
    rfl
  have g1 : (pre ++ u16b v ++ post).getD (pre.length + 1) 0 = v % 256 := by
    rw [List.append_assoc, getD_append_len]
    rfl
  rw [g0, g1, show v / 256 % 256 * 256 + v % 256 = v % 65536 from by omega]

theorem unpackU32_enc (pre post : List Nat) (v : Nat) :
    unpackU32 (pre ++ u32b v ++ post) pre.length
      = .ret (v % 4294967296, pre.length + 4) none := by
  rw [unpackU32]
  rw [if_neg (by simp [u32b])]
  have g0 : (pre ++ u32b v ++ post).getD pre.length 0 = v / 16777216 % 256 := by
    rw [List.append_assoc, show pre.length = pre.length + 0 from rfl, getD_append_len]
    rfl
  have g1 : (pre ++ u32b v ++ post).getD (pre.length + 1) 0 = v / 65536 % 256 := by
    rw [List.append_assoc, getD_append_len]
    rfl
  have g2 : (pre ++ u32b v ++ post).getD (pre.length + 2) 0 = v / 256 % 256 := by
    rw [List.append_assoc, getD_append_len]
    rfl
  have g3 : (pre ++ u32b v ++ post).getD (pre.length + 3) 0 = v % 256 := by
    rw [List.append_assoc, getD_append_len]
    rfl
  rw [g0, g1, g2, g3, show v / 16777216 % 256 * 16777216 + v / 65536 % 256 * 65536
    + v / 256 % 256 * 256 + v % 256 = v % 4294967296 from by omega]

theorem validLabel_spec (l : List Nat) (h : validLabel l = true) :
    1 ≤ l.length ∧ l.length ≤ 63 ∧ ∀ b ∈ l, b < 128 ∧ b ≠ 46 ∧ b ≠ 92 := by
  simp only [validLabel, Bool.and_eq_true, decide_eq_true_eq, List.all_eq_true] at h
  obtain ⟨⟨h1, h2⟩, h3⟩ := h
  refine ⟨h1, h2, fun b hb => ?_⟩
  have := h3 b hb
  simp only [Bool.and_eq_true, decide_eq_true_eq] at this
  exact ⟨this.1.1, this.1.2, this.2⟩

theorem validName_spec (s : List Nat) (h : validName s = true) :
    SplitLabels s ≠ [] ∧ s = joinName (SplitLabels s) ∧ s.length ≤ 255
      ∧ ∀ l ∈ SplitLabels s, validLabel l = true := by
  simp only [validName, Bool.and_eq_true, decide_eq_true_eq, List.all_eq_true] at h
  obtain ⟨⟨⟨h1, h2⟩, h3⟩, h4⟩ := h
  exact ⟨h1, h2, h3, h4⟩

theorem encN_length (s : List Nat) (h : validName s = true) :
    (encN s).length = s.length + 1 := by
  obtain ⟨-, hjoin, -, -⟩ := validName_spec s h
  rw [encN, List.length_append, encLabels_length, ← hjoin]
  rfl

/-- Scanning the plain bytes of one label: the loop advances `i` one byte at
a time without touching the buffer, the offset or the label start. -/
theorem packDNAux_scan : ∀ (r : List Nat) (fuel F : Nat) (s : List Nat) (i bg off : Nat)
    (msg : List Nat) (tbl : Option CTable) (cp : Bool) (u p v : List Nat),
    s = u ++ p ++ r ++ v → bg = u.length → i = u.length + p.length →
    F = r.length + fuel →
    (∀ b ∈ r, b ≠ 46 ∧ b ≠ 92) →
    packDNAux F s s.length i bg off msg tbl cp
      = packDNAux fuel s s.length (i + r.length) bg off msg tbl cp := by
  intro r
  induction r with
  | nil =>
    intro fuel F s i bg off msg tbl cp u p v hs hbg hi hF _
    subst hF
    simp
  | cons b r ih =>
    intro fuel F s i bg off msg tbl cp u p v hs hbg hi hF hv
    obtain ⟨hb46, hb92⟩ := hv b (by simp)
    subst hF
    rw [show (b :: r).length + fuel = (r.length + fuel) + 1 from by
      simp only [List.length_cons]; omega]
    rw [packDNAux]
    have hilt : i < s.length := by
      rw [hs, hi]; simp only [List.length_append, List.length_cons]; omega
    rw [if_pos hilt]
    have hgd : s.getD i 0 = b := by
      rw [hs, hi, show u ++ p ++ (b :: r) ++ v = (u ++ p) ++ (b :: (r ++ v)) from by simp,
        show u.length + p.length = (u ++ p).length + 0 from by simp, getD_append_len]
      rfl
    simp only [hgd]
    rw [if_neg hb92, if_neg hb46]
    have h2 := ih fuel (r.length + fuel) s (i + 1) bg off msg tbl cp u (p ++ [b]) v
      (by rw [hs]; simp) hbg
      (by rw [hi]; simp only [List.length_append, List.length_cons, List.length_nil]; omega)
      rfl (fun x hx => hv x (by simp [hx]))
    rw [h2, show i + 1 + r.length = i + (b :: r).length from by
      simp only [List.length_cons]; omega]

/-- Walking a whole list of valid labels with compression off: each label
writes its length byte and its bytes, the table evolves by recording only,
and the loop exits at the end of the name. -/
theorem packDNAux_labels : ∀ (ls : List (List Nat)) (fuel F : Nat) (s : List Nat)
    (i off : Nat) (u pre rest : List Nat) (tbl : Option CTable),
    s = u ++ joinName ls → i = u.length → off = pre.length →
    F = (joinName ls).length + 1 + fuel →
    (∀ l ∈ ls, validLabel l = true) →
    (encLabels ls).length ≤ rest.length →
    ∃ tbl2,
    packDNAux F s s.length i i off (pre ++ rest) tbl false
      = .done (pre ++ encLabels ls ++ rest.drop (encLabels ls).length) tbl2
          (off + (encLabels ls).length) s := by
  intro ls
  induction ls with
  | nil =>
    intro fuel F s i off u pre rest tbl hs hi hoff hF _ _
    refine ⟨tbl, ?_⟩
    rw [show F = fuel + 1 from by rw [hF]; simp [joinName]; omega]
    rw [packDNAux]
    rw [if_neg (by rw [hs, hi]; simp [joinName])]
    simp [encLabels]
  | cons l ls ih =>
    intro fuel F s i off u pre rest tbl hs hi hoff hF hvl hrest
    subst hoff
    obtain ⟨hl1, hl63, hlb⟩ := validLabel_spec l (hvl l (by simp))
    have hled : (encLabels (l :: ls)).length = 1 + l.length + (encLabels ls).length := by
      simp only [encLabels, List.length_cons, List.length_append]
      omega
    have hslen : s.length = u.length + l.length + 1 + (joinName ls).length := by
      rw [hs]
      simp only [joinName, List.length_append, List.length_cons]
      omega
    have hscan := packDNAux_scan l (((joinName ls).length + 1 + fuel) + 1) F s i i
      pre.length (pre ++ rest) tbl false u [] (46 :: joinName ls)
      (by rw [hs]; simp [joinName]) hi (by rw [hi]; simp)
      (by rw [hF]; simp only [joinName, List.length_append, List.length_cons]; omega)
      (fun b hb => ⟨(hlb b hb).2.1, (hlb b hb).2.2⟩)
    rw [hscan, packDNAux]
    rw [if_pos (show i + l.length < s.length from by omega)]
    have hgd46 : s.getD (i + l.length) 0 = 46 := by
      rw [hs, hi, show u ++ joinName (l :: ls) = (u ++ l) ++ (46 :: joinName ls) from by
        simp [joinName],
        show u.length + l.length = (u ++ l).length + 0 from by simp, getD_append_len]
      rfl
    simp only [hgd46]
    rw [if_pos trivial]
    rw [if_neg (show ¬ i + l.length - i ≥ 64 from by omega)]
    cases rest with
    | nil =>
      exfalso
      rw [hled] at hrest
      simp only [List.length_nil] at hrest
      omega
    | cons r0 rest2 =>
      rw [if_neg (show ¬ pre.length + 1 > (pre ++ r0 :: rest2).length from by
        simp only [List.length_append, List.length_cons]; omega)]
      rw [show i + l.length - i = l.length from by omega]
      rw [set_append_len]
      have hbytes : (s.drop i).take l.length = l := by
        rw [hs, hi, List.drop_left, show joinName (l :: ls) = l ++ 46 :: joinName ls from rfl,
          List.take_left]
      rw [hbytes]
      have hwlen : l.length ≤ rest2.length := by
        rw [hled] at hrest
        simp only [List.length_cons] at hrest
        omega
      have hW := writeBytesChecked_enc l (pre ++ [l.length]) rest2 hwlen
      rw [show (pre ++ [l.length]) ++ rest2 = pre ++ l.length :: rest2 from by simp,
        show (pre ++ [l.length]).length = pre.length + 1 from by simp] at hW
      simp only [hW]
      have hsfx : s.drop i = l ++ 46 :: joinName ls := by
        rw [hs, hi, List.drop_left]
        rfl
      have hstep : ∀ tblX : Option CTable, ∃ tbl2,
          packDNAux ((joinName ls).length + 1 + fuel) s s.length (i + l.length + 1)
            (i + l.length + 1) (pre.length + 1 + l.length)
            ((pre ++ [l.length]) ++ l ++ rest2.drop l.length) tblX false
          = .done (pre ++ encLabels (l :: ls)
                ++ (r0 :: rest2).drop (encLabels (l :: ls)).length)
              tbl2 (pre.length + (encLabels (l :: ls)).length) s := by
        intro tblX
        obtain ⟨tbl2, hdone⟩ := ih fuel ((joinName ls).length + 1 + fuel) s
          (i + l.length + 1) (pre.length + 1 + l.length) (u ++ l ++ [46])
          ((pre ++ [l.length]) ++ l) (rest2.drop l.length) tblX
          (by rw [hs]; simp [joinName])
          (by rw [hi]; simp only [List.length_append, List.length_cons, List.length_nil])
          (by simp only [List.length_append, List.length_cons, List.length_nil])
          rfl (fun l2 h2 => hvl l2 (by simp [h2]))
          (by simp only [List.length_drop]
              rw [hled] at hrest
              simp only [List.length_cons] at hrest
              omega)
        refine ⟨tbl2, ?_⟩
        rw [hdone]
        have hA : ((pre ++ [l.length]) ++ l) ++ encLabels ls
              ++ (rest2.drop l.length).drop (encLabels ls).length
            = pre ++ encLabels (l :: ls)
              ++ (r0 :: rest2).drop (encLabels (l :: ls)).length := by
          rw [show encLabels (l :: ls) = l.length :: (l ++ encLabels ls) from rfl]
          rw [List.drop_drop]
          rw [show (l.length :: (l ++ encLabels ls)).length
              = (l.length + (encLabels ls).length) + 1 from by
            simp only [List.length_cons, List.length_append]]
          rw [List.drop_succ_cons]
          simp
        have hB : pre.length + 1 + l.length + (encLabels ls).length
            = pre.length + (encLabels (l :: ls)).length := by
          rw [hled]
          omega
        rw [hA, hB]
      rcases tbl with - | t
      · exact hstep none
      · by_cases hq : l ++ 46 :: joinName ls = [46, 39]
        · exfalso
          cases l with
          | nil => simp at hl1
          | cons a ltl =>
            simp only [List.cons_append, List.cons.injEq] at hq
            exact (hlb a (by simp)).2.1 hq.1
        · simp only [hsfx]
          rw [if_neg hq]
          rcases hf : ctFind t (l ++ 46 :: joinName ls) with - | pv
          · simp only [hf]
            exact hstep _
          · simp only [hf]
            exact hstep _

/-- With compression off, packing a plain valid name writes exactly its
counted-label encoding and advances the offset past it; only the table may
change. -/
theorem PackDomainName_enc (s pre rest : List Nat) (tbl : Option CTable)
    (hv : validName s = true) (hr : (encN s).length ≤ rest.length) :
    ∃ tbl2, PackDomainName s (pre ++ rest) pre.length tbl false
      = .ret (pre ++ encN s ++ rest.drop (encN s).length, tbl2,
          pre.length + (encN s).length) none := by
  obtain ⟨hne, hjoin, -, hvl⟩ := validName_spec s hv
  have hel : (encLabels (SplitLabels s)).length = s.length := by
    rw [encLabels_length, ← hjoin]
  have henl : (encN s).length = s.length + 1 := encN_length s hv
  have hs1 : 1 ≤ s.length := by
    rcases hmm : SplitLabels s with - | ⟨l, ls⟩
    · exact absurd hmm hne
    · rw [hjoin, hmm]
      simp [joinName]
      omega
  have hcond : ¬ (s.length = 0 ∨ s.getD (s.length - 1) 0 ≠ 46) := by
    push_neg
    refine ⟨by omega, ?_⟩
    rw [hjoin]
    exact joinName_getLast (SplitLabels s) hne
  simp only [PackDomainName]
  rw [if_neg hcond]
  obtain ⟨tbl2, hdone⟩ := packDNAux_labels (SplitLabels s) 0 (s.length + 1) s 0 pre.length
    [] pre rest tbl (by rw [← hjoin]; rfl) rfl rfl
    (by rw [← hjoin]) hvl (by rw [hel]; omega)
  simp only [hdone]
  have hs46 : ¬ s = [46] := by
    intro hx
    have hsp : SplitLabels s = [[]] := by rw [hx]; rfl
    obtain ⟨hl1, -, -⟩ := validLabel_spec [] (hvl [] (by rw [hsp]; simp))
    simp at hl1
  rw [if_neg hs46]
  have hdlen : (rest.drop (encLabels (SplitLabels s)).length).length
      = rest.length - s.length := by
    simp [List.length_drop, hel]
  have hmlen : (pre ++ encLabels (SplitLabels s)
      ++ rest.drop (encLabels (SplitLabels s)).length).length = pre.length + rest.length := by
    simp only [List.length_append, List.length_drop, hel]
    omega
  rw [if_pos (show pre.length + (encLabels (SplitLabels s)).length
      < (pre ++ encLabels (SplitLabels s)
        ++ rest.drop (encLabels (SplitLabels s)).length).length from by
    rw [hmlen, hel]; omega)]
  rcases hD : rest.drop (encLabels (SplitLabels s)).length with - | ⟨d0, dtl⟩
  · exfalso
    have : rest.length - s.length = 0 := by rw [← hdlen, hD]; rfl
    omega
  · have hset : (pre ++ encLabels (SplitLabels s) ++ d0 :: dtl).set
            (pre.length + (encLabels (SplitLabels s)).length) 0
        = (pre ++ encLabels (SplitLabels s)) ++ 0 :: dtl := by
      rw [show pre ++ encLabels (SplitLabels s) ++ d0 :: dtl
          = (pre ++ encLabels (SplitLabels s)) ++ d0 :: dtl from by simp,
        show pre.length + (encLabels (SplitLabels s)).length
          = (pre ++ encLabels (SplitLabels s)).length from by simp,
        set_append_len]
    rw [hset]
    refine ⟨tbl2, ?_⟩
    have hdtl : dtl = rest.drop (encN s).length := by
      rw [show (encN s).length = (encLabels (SplitLabels s)).length + 1 from by
        rw [henl, hel]]
      rw [← List.drop_drop, hD]
      rfl
    have henc : pre ++ encN s ++ rest.drop (encN s).length
        = (pre ++ encLabels (SplitLabels s)) ++ 0 :: dtl := by
      rw [encN, hdtl]
      simp
      rw [show (encLabels (SplitLabels s)).length + 1 = (encN s).length from by
        rw [henl, hel]]
    have hoffe : pre.length + (encLabels (SplitLabels s)).length + 1
        = pre.length + (encN s).length := by
      rw [henl, hel]
      omega
    rw [henc, hoffe]

theorem readLabelBytes_id : ∀ (l : List Nat), (∀ b ∈ l, b < 128 ∧ b ≠ 46) →
    readLabelBytes l = l := by
  intro l
  induction l with
  | nil => intro _; rfl
  | cons b rest ih =>
    intro h
    obtain ⟨hlt, h46⟩ := h b (by simp)
    rw [readLabelBytes]
    rw [if_neg h46]
    rw [show goAppendByte b = [b] from by rw [goAppendByte, if_pos hlt]]
    rw [ih (fun x hx => (h x (by simp [hx])))]
    rfl

theorem encLabels_ge (ls : List (List Nat)) : ls.length ≤ (encLabels ls).length := by
  induction ls with
  | nil => simp [encLabels]
  | cons l rest ih =>
    simp only [encLabels, List.length_cons, List.length_append]
    omega

/-- Decoding the counted-label image of a valid label list appends exactly
the dotted name and stops one past its root byte, following no pointer. -/
theorem unpackDNAux_labels : ∀ (ls : List (List Nat)) (fuel F : Nat)
    (pre post acc : List Nat) (off : Nat),
    off = pre.length →
    F = ls.length + 1 + fuel →
    (∀ l ∈ ls, validLabel l = true) →
    (acc = [] → ls ≠ []) →
    unpackDNAux F (pre ++ encLabels ls ++ [0] ++ post) off acc 0 0
      = .ret (acc ++ joinName ls, pre.length + (encLabels ls).length + 1, 0) none := by
  intro ls
  induction ls with
  | nil =>
    intro fuel F pre post acc off hoff hF hv hne
    subst hoff
    rw [show F = fuel + 1 from by rw [hF]; simp only [List.length_nil]; omega]
    rw [show pre ++ encLabels [] ++ [0] ++ post = pre ++ 0 :: post from by
      simp [encLabels]]
    rw [unpackDNAux]
    rw [if_neg (show ¬ pre.length ≥ (pre ++ 0 :: post).length from by
      simp only [List.length_append, List.length_cons]; omega)]
    have hg : (pre ++ 0 :: post).getD pre.length 0 = 0 := by
      rw [show pre.length = pre.length + 0 from rfl, getD_append_len]
      rfl
    simp only [hg]
    by_cases hacc : acc = []
    · exact absurd rfl (hne hacc)
    · simp only [hacc, if_false, ite_false]
      simp [joinName, encLabels]
  | cons l ls ih =>
    intro fuel F pre post acc off hoff hF hv hne
    subst hoff
    obtain ⟨hl1, hl63, hlb⟩ := validLabel_spec l (hv l (by simp))
    rw [show F = (ls.length + 1 + fuel) + 1 from by
      rw [hF]; simp only [List.length_cons]; omega]
    have hBsh : pre ++ encLabels (l :: ls) ++ [0] ++ post
        = pre ++ l.length :: (l ++ (encLabels ls ++ [0] ++ post)) := by
      rw [show encLabels (l :: ls) = l.length :: (l ++ encLabels ls) from rfl]
      simp
    rw [hBsh]
    rw [unpackDNAux]
    rw [if_neg (show ¬ pre.length
        ≥ (pre ++ l.length :: (l ++ (encLabels ls ++ [0] ++ post))).length from by
      simp only [List.length_append, List.length_cons]; omega)]
    have hg : (pre ++ l.length :: (l ++ (encLabels ls ++ [0] ++ post))).getD pre.length 0
        = l.length := by
      rw [show pre.length = pre.length + 0 from rfl, getD_append_len]
      rfl
    simp only [hg]
    rw [if_pos (show l.length &&& 192 = 0 from and192_eq_zero l.length (by omega))]
    rw [if_neg (show ¬ l.length = 0 from by omega)]
    rw [if_neg (show ¬ pre.length + 1 + l.length
        > (pre ++ l.length :: (l ++ (encLabels ls ++ [0] ++ post))).length from by
      simp only [List.length_append, List.length_cons]; omega)]
    have hdrop : (pre ++ l.length :: (l ++ (encLabels ls ++ [0] ++ post))).drop
          (pre.length + 1) = l ++ (encLabels ls ++ [0] ++ post) := by
      rw [show pre ++ l.length :: (l ++ (encLabels ls ++ [0] ++ post))
          = (pre ++ [l.length]) ++ (l ++ (encLabels ls ++ [0] ++ post)) from by simp,
        show pre.length + 1 = (pre ++ [l.length]).length from by simp, List.drop_left]
    rw [hdrop]
    rw [List.take_left l (encLabels ls ++ [0] ++ post)]
    rw [readLabelBytes_id l (fun b hb => ⟨(hlb b hb).1, (hlb b hb).2.1⟩)]
    have hrec := ih fuel (ls.length + 1 + fuel) (pre ++ l.length :: l) post
      (acc ++ l ++ [46]) (pre.length + 1 + l.length)
      (by simp only [List.length_append, List.length_cons]; omega)
      rfl (fun x hx => hv x (by simp [hx]))
      (fun hc => absurd hc (by simp))
    rw [show (pre ++ l.length :: l) ++ encLabels ls ++ [0] ++ post
        = pre ++ l.length :: (l ++ (encLabels ls ++ [0] ++ post)) from by simp] at hrec
    rw [hrec]
    have hA : acc ++ l ++ [46] ++ joinName ls = acc ++ joinName (l :: ls) := by
      rw [show joinName (l :: ls) = l ++ 46 :: joinName ls from rfl]
      simp
    have hB2 : (pre ++ l.length :: l).length + (encLabels ls).length + 1
        = pre.length + (encLabels (l :: ls)).length + 1 := by
      simp only [List.length_append, List.length_cons,
        show encLabels (l :: ls) = l.length :: (l ++ encLabels ls) from rfl]
      omega
    rw [hA, hB2]

/-- Decoding the wire image of a plain valid name reproduces it exactly. -/
theorem UnpackDomainName_enc (s pre post : List Nat) (hv : validName s = true) :
    UnpackDomainName (pre ++ encN s ++ post) pre.length
      = .ret (s, pre.length + (encN s).length, 0) none := by
  obtain ⟨hne, hjoin, -, hvl⟩ := validName_spec s hv
  have hsh : pre ++ encN s ++ post
      = pre ++ encLabels (SplitLabels s) ++ [0] ++ post := by
    rw [encN]
    simp
  rw [UnpackDomainName, hsh]
  have hge := encLabels_ge (SplitLabels s)
  have hfuel : unpackDNFuel (pre ++ encLabels (SplitLabels s) ++ [0] ++ post)
      = (SplitLabels s).length + 1
        + (unpackDNFuel (pre ++ encLabels (SplitLabels s) ++ [0] ++ post)
          - ((SplitLabels s).length + 1)) := by
    rw [unpackDNFuel]
    simp only [List.length_append, List.length_cons, List.length_nil]
    omega
  rw [hfuel]
  rw [unpackDNAux_labels (SplitLabels s) _ _ pre post [] pre.length rfl rfl hvl
    (fun _ => hne)]
  have hs : ([] : List Nat) ++ joinName (SplitLabels s) = s := by
    rw [← hjoin]
    rfl
  have hlen : pre.length + (encLabels (SplitLabels s)).length + 1
      = pre.length + (encN s).length := by
    rw [encN]
    simp only [List.length_append, List.length_cons, List.length_nil]
    omega
  rw [hs, hlen]

theorem skipName_enc : ∀ (ls : List (List Nat)) (fuel : Nat) (pre post : List Nat),
    (∀ l ∈ ls, validLabel l = true) → ls.length < fuel →
    skipName (pre ++ encLabels ls ++ [0] ++ post) pre.length fuel
      = some (pre.length + (encLabels ls).length + 1) := by
  intro ls
  induction ls with
  | nil =>
    intro fuel pre post _ hf
    cases fuel with
    | zero => omega
    | succ fl =>
      rw [show pre ++ encLabels [] ++ [0] ++ post = pre ++ 0 :: post from by
        simp [encLabels]]
      rw [skipName]
      rw [if_neg (show ¬ pre.length ≥ (pre ++ 0 :: post).length from by
        simp only [List.length_append, List.length_cons]; omega)]
      have hg : (pre ++ 0 :: post).getD pre.length 0 = 0 := by
        rw [show pre.length = pre.length + 0 from rfl, getD_append_len]
        rfl
      simp only [hg]
      simp [encLabels]
  | cons l ls ih =>
    intro fuel pre post hv hf
    obtain ⟨hl1, hl63, hlb⟩ := validLabel_spec l (hv l (by simp))
    cases fuel with
    | zero => omega
    | succ fl =>
      have hBsh : pre ++ encLabels (l :: ls) ++ [0] ++ post
          = pre ++ l.length :: (l ++ (encLabels ls ++ [0] ++ post)) := by
        rw [show encLabels (l :: ls) = l.length :: (l ++ encLabels ls) from rfl]
        simp
      rw [hBsh]
      rw [skipName]
      rw [if_neg (show ¬ pre.length
          ≥ (pre ++ l.length :: (l ++ (encLabels ls ++ [0] ++ post))).length from by
        simp only [List.length_append, List.length_cons]; omega)]
      have hg : (pre ++ l.length :: (l ++ (encLabels ls ++ [0] ++ post))).getD pre.length 0
          = l.length := by
        rw [show pre.length = pre.length + 0 from rfl, getD_append_len]
        rfl
      simp only [hg]
      rw [if_neg (show ¬ l.length = 0 from by omega)]
      rw [if_neg (show ¬ l.length &&& 192 = 192 from by
        rw [and192_eq_zero l.length (by omega)]; omega)]
      have hrec := ih fl (pre ++ l.length :: l) post (fun x hx => hv x (by simp [hx]))
        (by simp only [List.length_cons] at hf; omega)
      rw [show (pre ++ l.length :: l) ++ encLabels ls ++ [0] ++ post
          = pre ++ l.length :: (l ++ (encLabels ls ++ [0] ++ post)) from by simp] at hrec
      rw [show (pre ++ l.length :: l).length = pre.length + 1 + l.length from by
        simp only [List.length_append, List.length_cons]; omega] at hrec
      rw [hrec]
      rw [show pre.length + 1 + l.length + (encLabels ls).length + 1
          = pre.length + (encLabels (l :: ls)).length + 1 from by
        simp only [show encLabels (l :: ls) = l.length :: (l ++ encLabels ls) from rfl,
          List.length_cons, List.length_append]
        omega]

/-- Packing one question with compression off writes its name encoding and
the two 16-bit codes. -/
theorem packStructQuestion_enc (q : Question) (pre rest : List Nat) (tbl : Option CTable)
    (hv : validQ q = true) (hr : (encQ q).length ≤ rest.length) :
    ∃ tbl2, packStructQuestion q (pre ++ rest) pre.length tbl false
      = .ret (pre ++ encQ q ++ rest.drop (encQ q).length, tbl2,
          pre.length + (encQ q).length) none := by
  simp only [validQ, Bool.and_eq_true, decide_eq_true_eq] at hv
  obtain ⟨⟨hn, hqt⟩, hqc⟩ := hv
  have hqlen : (encQ q).length = (encN q.name).length + 4 := by
    simp only [encQ, List.length_append, u16b, List.length_cons, List.length_nil] <;> omega
  obtain ⟨tblN, hN⟩ := PackDomainName_enc q.name pre rest tbl hn (by omega)
  refine ⟨tblN, ?_⟩
  rw [packStructQuestion, Bool.and_false]
  simp only [hN]
  rw [show pre.length + (encN q.name).length = (pre ++ encN q.name).length from by simp]
  have hU := packU16List_enc [q.qtype, q.qclass] (pre ++ encN q.name)
    (rest.drop (encN q.name).length)
    (by simp only [List.length_cons, List.length_nil, List.length_drop] <;> omega)
  simp only [hU]
  have hA : (pre ++ encN q.name) ++ u16s [q.qtype, q.qclass]
        ++ (rest.drop (encN q.name).length).drop (2 * ([q.qtype, q.qclass] : List Nat).length)
      = pre ++ encQ q ++ rest.drop (encQ q).length := by
    rw [List.drop_drop]
    rw [show (encN q.name).length + 2 * ([q.qtype, q.qclass] : List Nat).length
        = (encQ q).length from by simp only [List.length_cons, List.length_nil] <;> omega]
    simp [encQ, u16s]
  have hB : (pre ++ encN q.name).length + 2 * ([q.qtype, q.qclass] : List Nat).length
      = pre.length + (encQ q).length := by
    simp only [List.length_append, List.length_cons, List.length_nil]
    omega
  rw [hA, hB]

/-- Packing the fixed record part with compression off writes the owner
name, type, class, TTL and the unpatched RDLENGTH. -/
theorem packRRHeaderPart_enc (h : RRHeader) (pre rest : List Nat) (tbl : Option CTable)
    (hv : validName h.name = true) (hr : (encRRHeaderPart h).length ≤ rest.length) :
    ∃ tbl2, packRRHeaderPart h (pre ++ rest) pre.length tbl false
      = .ret (pre ++ encRRHeaderPart h ++ rest.drop (encRRHeaderPart h).length, tbl2,
          pre.length + (encRRHeaderPart h).length) none := by
  have hplen : (encRRHeaderPart h).length = (encN h.name).length + 10 := by
    simp only [encRRHeaderPart, List.length_append, u16b, u32b, List.length_cons,
      List.length_nil] <;> omega
  obtain ⟨tblN, hN⟩ := PackDomainName_enc h.name pre rest tbl hv (by omega)
  refine ⟨tblN, ?_⟩
  rw [packRRHeaderPart, Bool.and_false]
  simp only [hN]
  rw [show pre.length + (encN h.name).length = (pre ++ encN h.name).length from by simp]
  have hU1 := packU16List_enc [h.rrtype, h.rclass] (pre ++ encN h.name)
    (rest.drop (encN h.name).length)
    (by simp only [List.length_cons, List.length_nil, List.length_drop] <;> omega)
  simp only [hU1]
  have hsh1 : (pre ++ encN h.name) ++ u16s [h.rrtype, h.rclass]
        ++ (rest.drop (encN h.name).length).drop (2 * ([h.rrtype, h.rclass] : List Nat).length)
      = (pre ++ encN h.name ++ u16s [h.rrtype, h.rclass])
        ++ rest.drop ((encN h.name).length + 4) := by
    rw [List.drop_drop]
    rw [show (encN h.name).length + 2 * ([h.rrtype, h.rclass] : List Nat).length
        = (encN h.name).length + 4 from by simp only [List.length_cons, List.length_nil] <;> omega]
  have hsh2 : (pre ++ encN h.name).length + 2 * ([h.rrtype, h.rclass] : List Nat).length
      = (pre ++ encN h.name ++ u16s [h.rrtype, h.rclass]).length := by
    simp only [List.length_append, List.length_cons, List.length_nil, u16s, u16b,
      List.append_nil] <;> omega
  rw [hsh1, hsh2]
  have hU2 := packU32_enc (pre ++ encN h.name ++ u16s [h.rrtype, h.rclass])
    (rest.drop ((encN h.name).length + 4)) h.ttl
    (by simp only [List.length_drop] <;> omega)
  simp only [hU2]
  have hsh3 : (pre ++ encN h.name ++ u16s [h.rrtype, h.rclass]) ++ u32b h.ttl
        ++ (rest.drop ((encN h.name).length + 4)).drop 4
      = (pre ++ encN h.name ++ u16s [h.rrtype, h.rclass] ++ u32b h.ttl)
        ++ rest.drop ((encN h.name).length + 8) := by
    rw [List.drop_drop]
  have hsh4 : (pre ++ encN h.name ++ u16s [h.rrtype, h.rclass]).length + 4
      = (pre ++ encN h.name ++ u16s [h.rrtype, h.rclass] ++ u32b h.ttl).length := by
    simp only [List.length_append, u16s, u16b, u32b, List.length_cons, List.length_nil,
      List.append_nil] <;> omega
  rw [hsh3, hsh4]
  have hU3 := packU16List_enc [h.rdlength]
    (pre ++ encN h.name ++ u16s [h.rrtype, h.rclass] ++ u32b h.ttl)
    (rest.drop ((encN h.name).length + 8))
    (by simp only [List.length_cons, List.length_nil, List.length_drop] <;> omega)
  simp only [hU3]
  have hA : (pre ++ encN h.name ++ u16s [h.rrtype, h.rclass] ++ u32b h.ttl)
        ++ u16s [h.rdlength]
        ++ (rest.drop ((encN h.name).length + 8)).drop (2 * ([h.rdlength] : List Nat).length)
      = pre ++ encRRHeaderPart h ++ rest.drop (encRRHeaderPart h).length := by
    rw [List.drop_drop]
    rw [show (encN h.name).length + 8 + 2 * ([h.rdlength] : List Nat).length
        = (encRRHeaderPart h).length from by
      simp only [List.length_cons, List.length_nil]; omega]
    simp [encRRHeaderPart, u16s]
  have hB : (pre ++ encN h.name ++ u16s [h.rrtype, h.rclass] ++ u32b h.ttl).length
        + 2 * ([h.rdlength] : List Nat).length
      = pre.length + (encRRHeaderPart h).length := by
    simp only [List.length_append, u16s, u16b, u32b, List.length_cons, List.length_nil,
      List.append_nil] <;> omega
  rw [hA, hB]

/-- The RDLENGTH patch: skipping the plain owner name lands on the fixed
part, and the two bytes eight octets behind it are overwritten with the
payload length. -/
theorem rawSetRdlength_enc (nm pre f8 pay post : List Nat) (x : Nat)
    (hv : validName nm = true) (hf8 : f8.length = 8) :
    rawSetRdlength (pre ++ encN nm ++ f8 ++ u16b x ++ pay ++ post) pre.length
        (pre.length + (encN nm).length + 8 + 2 + pay.length)
      = some (pre ++ encN nm ++ f8 ++ u16b pay.length ++ pay ++ post) := by
  obtain ⟨hne, hjoin, -, hvl⟩ := validName_spec nm hv
  have henl : (encN nm).length = (encLabels (SplitLabels nm)).length + 1 := by
    rw [encN]
    simp
  have hBsh : pre ++ encN nm ++ f8 ++ u16b x ++ pay ++ post
      = pre ++ encLabels (SplitLabels nm) ++ [0] ++ (f8 ++ u16b x ++ pay ++ post) := by
    rw [encN]
    simp
  rw [rawSetRdlength, hBsh]
  have hge := encLabels_ge (SplitLabels nm)
  have hskip := skipName_enc (SplitLabels nm)
    ((pre ++ encLabels (SplitLabels nm) ++ [0] ++ (f8 ++ u16b x ++ pay ++ post)).length + 1)
    pre (f8 ++ u16b x ++ pay ++ post) hvl
    (by simp only [List.length_append, List.length_cons, List.length_nil]; omega)
  simp only [hskip]
  have hrdl : pre.length + (encN nm).length + 8 + 2 + pay.length
      - (pre.length + (encLabels (SplitLabels nm)).length + 1 + 8 + 2) = pay.length := by
    omega
  simp only [hrdl]
  have hcnd : pre.length + (encLabels (SplitLabels nm)).length + 1 + 8 + 2
      ≤ (pre ++ encLabels (SplitLabels nm) ++ [0] ++ (f8 ++ u16b x ++ pay ++ post)).length := by
    simp only [List.length_append, List.length_cons, List.length_nil, u16b] <;> omega
  simp only [eq_true hcnd, if_true]
  have hsh2 : pre ++ encLabels (SplitLabels nm) ++ [0] ++ (f8 ++ u16b x ++ pay ++ post)
      = (pre ++ encLabels (SplitLabels nm) ++ [0] ++ f8)
        ++ (x / 256 % 256) :: (x % 256) :: (pay ++ post) := by
    rw [u16b]
    simp
  rw [hsh2]
  rw [show pre.length + (encLabels (SplitLabels nm)).length + 1 + 8
      = (pre ++ encLabels (SplitLabels nm) ++ [0] ++ f8).length from by
    simp only [List.length_append, List.length_cons, List.length_nil]
    omega]
  rw [set_append_len, set_append_cons1]
  rw [show (pre ++ encLabels (SplitLabels nm) ++ [0] ++ f8)
        ++ (pay.length / 256 % 256) :: (pay.length % 256) :: (pay ++ post)
      = pre ++ encN nm ++ f8 ++ u16b pay.length ++ pay ++ post from by
    rw [encN, u16b]
    simp]

/-- Packing a whole A record before the patch: fixed part then the four
address bytes. -/
theorem packStructRR_A_enc (h : RRHeader) (ip pre rest : List Nat) (tbl : Option CTable)
    (hn : validName h.name = true) (h16 : ip.length = 16)
    (hr : (encRRHeaderPart h).length + 4 ≤ rest.length) :
    ∃ tbl2, packStructRR (.a h ip) (pre ++ rest) pre.length tbl false
      = .ret (pre ++ encRRHeaderPart h ++ ip.drop 12
            ++ rest.drop ((encRRHeaderPart h).length + 4), tbl2,
          pre.length + (encRRHeaderPart h).length + 4) none := by
  obtain ⟨tbl2, hHdr⟩ := packRRHeaderPart_enc h pre rest tbl hn (by omega)
  refine ⟨tbl2, ?_⟩
  rw [packStructRR]
  rw [show (RR.a h ip).header = h from rfl]
  simp only [hHdr]
  rw [show pre.length + (encRRHeaderPart h).length
      = (pre ++ encRRHeaderPart h).length from by simp]
  have hIP := packIPv4_enc (pre ++ encRRHeaderPart h)
    (rest.drop (encRRHeaderPart h).length) ip h16
    (by simp only [List.length_drop]; omega)
  rw [← drop12_eq_getD ip h16] at hIP
  simp only [hIP]
  have hA : (pre ++ encRRHeaderPart h) ++ ip.drop 12
        ++ (rest.drop (encRRHeaderPart h).length).drop 4
      = pre ++ encRRHeaderPart h ++ ip.drop 12
        ++ rest.drop ((encRRHeaderPart h).length + 4) := by
    rw [List.drop_drop]
  rw [hA]

/-- Packing a whole CNAME record before the patch: fixed part then the
encoded target name. -/
theorem packStructRR_cname_enc (h : RRHeader) (tg pre rest : List Nat) (tbl : Option CTable)
    (hn : validName h.name = true) (htg : validName tg = true)
    (hr : (encRRHeaderPart h).length + (encN tg).length ≤ rest.length) :
    ∃ tbl2, packStructRR (.cname h tg) (pre ++ rest) pre.length tbl false
      = .ret (pre ++ encRRHeaderPart h ++ encN tg
            ++ rest.drop ((encRRHeaderPart h).length + (encN tg).length), tbl2,
          pre.length + (encRRHeaderPart h).length + (encN tg).length) none := by
  obtain ⟨tbl2, hHdr⟩ := packRRHeaderPart_enc h pre rest tbl hn (by omega)
  rw [packStructRR]
  rw [show (RR.cname h tg).header = h from rfl]
  simp only [hHdr]
  rw [Bool.and_false]
  rw [show pre.length + (encRRHeaderPart h).length
      = (pre ++ encRRHeaderPart h).length from by simp]
  obtain ⟨tbl3, hT⟩ := PackDomainName_enc tg (pre ++ encRRHeaderPart h)
    (rest.drop (encRRHeaderPart h).length) tbl2 htg
    (by simp only [List.length_drop]; omega)
  refine ⟨tbl3, ?_⟩
  simp only [hT]
  have hA : (pre ++ encRRHeaderPart h) ++ encN tg
        ++ (rest.drop (encRRHeaderPart h).length).drop (encN tg).length
      = pre ++ encRRHeaderPart h ++ encN tg
        ++ rest.drop ((encRRHeaderPart h).length + (encN tg).length) := by
    rw [List.drop_drop]
  rw [hA]

/-- Packing a valid A or CNAME record with compression off writes exactly
its wire bytes, with RDLENGTH patched to the actual payload length. -/
theorem PackRR_enc (rr : RR) (pre rest : List Nat) (tbl : Option CTable)
    (hv : validRRrec rr = true) (hr : (encRR rr).length ≤ rest.length) :
    ∃ tbl2, PackRR (some rr) (pre ++ rest) pre.length tbl false
      = .ret (pre ++ encRR rr ++ rest.drop (encRR rr).length, tbl2,
          pre.length + (encRR rr).length) none := by
  cases rr with
  | txt h ss => simp [validRRrec] at hv
  | nsec h nd bm => simp [validRRrec] at hv
  | unknown h rd => simp [validRRrec] at hv
  | hdrOnly h => simp [validRRrec] at hv
  | a h ip =>
    simp only [validRRrec, Bool.and_eq_true, decide_eq_true_eq, List.all_eq_true] at hv
    obtain ⟨⟨⟨⟨⟨⟨hn, hrt⟩, hrc⟩, httl⟩, h16⟩, htk⟩, hbz⟩ := hv
    have hplen : (ip.drop 12).length = 4 := by simp [h16]
    have hE : (encRR (RR.a h ip)).length = (encRRHeaderPart h).length + 4 := by
      simp only [encRR, encRRHeaderPart, RR.header, encPayload, List.length_append,
        u16b, u32b, List.length_cons, List.length_nil] <;> omega
    obtain ⟨tbl2, hps⟩ := packStructRR_A_enc h ip pre rest tbl hn h16 (by omega)
    refine ⟨tbl2, ?_⟩
    rw [PackRR]
    simp only [hps]
    have hmsh : pre ++ encRRHeaderPart h ++ ip.drop 12
          ++ rest.drop ((encRRHeaderPart h).length + 4)
        = pre ++ encN h.name ++ (u16b h.rrtype ++ u16b h.rclass ++ u32b h.ttl)
          ++ u16b h.rdlength ++ ip.drop 12
          ++ rest.drop ((encRRHeaderPart h).length + 4) := by
      rw [encRRHeaderPart]
      simp
    have ho1 : pre.length + (encRRHeaderPart h).length + 4
        = pre.length + (encN h.name).length + 8 + 2 + (ip.drop 12).length := by
      simp only [encRRHeaderPart, List.length_append, u16b, u32b, List.length_cons,
        List.length_nil] <;> omega
    rw [hmsh, ho1]
    rw [rawSetRdlength_enc h.name pre (u16b h.rrtype ++ u16b h.rclass ++ u32b h.ttl)
      (ip.drop 12) (rest.drop ((encRRHeaderPart h).length + 4)) h.rdlength hn
      (by simp [u16b, u32b])]
    have hA : pre ++ encN h.name ++ (u16b h.rrtype ++ u16b h.rclass ++ u32b h.ttl)
          ++ u16b (ip.drop 12).length ++ ip.drop 12
          ++ rest.drop ((encRRHeaderPart h).length + 4)
        = pre ++ encRR (RR.a h ip) ++ rest.drop (encRR (RR.a h ip)).length := by
      rw [hE]
      simp only [encRR, RR.header, encPayload]
      simp
    have hB : pre.length + (encN h.name).length + 8 + 2 + (ip.drop 12).length
        = pre.length + (encRR (RR.a h ip)).length := by
      rw [hE]
      simp only [encRRHeaderPart, List.length_append, u16b, u32b, List.length_cons,
        List.length_nil] <;> omega
    rw [hA, hB]
  | cname h tg =>
    simp only [validRRrec, Bool.and_eq_true, decide_eq_true_eq] at hv
    obtain ⟨⟨⟨⟨hn, hrt⟩, hrc⟩, httl⟩, htg⟩ := hv
    have hE : (encRR (RR.cname h tg)).length
        = (encRRHeaderPart h).length + (encN tg).length := by
      simp only [encRR, encRRHeaderPart, RR.header, encPayload, List.length_append,
        u16b, u32b, List.length_cons, List.length_nil] <;> omega
    obtain ⟨tbl2, hps⟩ := packStructRR_cname_enc h tg pre rest tbl hn htg (by omega)
    refine ⟨tbl2, ?_⟩
    rw [PackRR]
    simp only [hps]
    have hmsh : pre ++ encRRHeaderPart h ++ encN tg
          ++ rest.drop ((encRRHeaderPart h).length + (encN tg).length)
        = pre ++ encN h.name ++ (u16b h.rrtype ++ u16b h.rclass ++ u32b h.ttl)
          ++ u16b h.rdlength ++ encN tg
          ++ rest.drop ((encRRHeaderPart h).length + (encN tg).length) := by
      rw [encRRHeaderPart]
      simp
    have ho1 : pre.length + (encRRHeaderPart h).length + (encN tg).length
        = pre.length + (encN h.name).length + 8 + 2 + (encN tg).length := by
      simp only [encRRHeaderPart, List.length_append, u16b, u32b, List.length_cons,
        List.length_nil] <;> omega
    rw [hmsh, ho1]
    rw [rawSetRdlength_enc h.name pre (u16b h.rrtype ++ u16b h.rclass ++ u32b h.ttl)
      (encN tg) (rest.drop ((encRRHeaderPart h).length + (encN tg).length)) h.rdlength hn
      (by simp [u16b, u32b])]
    have hA : pre ++ encN h.name ++ (u16b h.rrtype ++ u16b h.rclass ++ u32b h.ttl)
          ++ u16b (encN tg).length ++ encN tg
          ++ rest.drop ((encRRHeaderPart h).length + (encN tg).length)
        = pre ++ encRR (RR.cname h tg) ++ rest.drop (encRR (RR.cname h tg)).length := by
      rw [hE]
      simp only [encRR, RR.header, encPayload]
      simp
    have hB : pre.length + (encN h.name).length + 8 + 2 + (encN tg).length
        = pre.length + (encRR (RR.cname h tg)).length := by
      rw [hE]
      simp only [encRRHeaderPart, List.length_append, u16b, u32b, List.length_cons,
        List.length_nil] <;> omega
    rw [hA, hB]

/-- Decoding six 16-bit words reproduces the wire header. -/
theorem unpackStructHeader_enc (B pre post : List Nat) (off a b c d e f : Nat)
    (hB : B = pre ++ u16b a ++ u16b b ++ u16b c ++ u16b d ++ u16b e ++ u16b f ++ post)
    (hoff : off = pre.length)
    (ha : a < 65536) (hb : b < 65536) (hc : c < 65536) (hd : d < 65536)
    (he : e < 65536) (hf : f < 65536) :
    unpackStructHeader B off = .ret (⟨a, b, c, d, e, f⟩, off + 12) none := by
  subst hB hoff
  rw [unpackStructHeader]
  have hU1 := unpackU16_enc pre (u16b b ++ u16b c ++ u16b d ++ u16b e ++ u16b f ++ post) a
  rw [show pre ++ u16b a ++ (u16b b ++ u16b c ++ u16b d ++ u16b e ++ u16b f ++ post)
      = pre ++ u16b a ++ u16b b ++ u16b c ++ u16b d ++ u16b e ++ u16b f ++ post from by simp,
    Nat.mod_eq_of_lt ha] at hU1
  simp only [hU1]
  have hU2 := unpackU16_enc (pre ++ u16b a) (u16b c ++ u16b d ++ u16b e ++ u16b f ++ post) b
  rw [show (pre ++ u16b a) ++ u16b b ++ (u16b c ++ u16b d ++ u16b e ++ u16b f ++ post)
      = pre ++ u16b a ++ u16b b ++ u16b c ++ u16b d ++ u16b e ++ u16b f ++ post from by simp,
    Nat.mod_eq_of_lt hb,
    show (pre ++ u16b a).length = pre.length + 2 from by simp [u16b]] at hU2
  simp only [hU2]
  have hU3 := unpackU16_enc (pre ++ u16b a ++ u16b b)
    (u16b d ++ u16b e ++ u16b f ++ post) c
  rw [show (pre ++ u16b a ++ u16b b) ++ u16b c ++ (u16b d ++ u16b e ++ u16b f ++ post)
      = pre ++ u16b a ++ u16b b ++ u16b c ++ u16b d ++ u16b e ++ u16b f ++ post from by simp,
    Nat.mod_eq_of_lt hc,
    show (pre ++ u16b a ++ u16b b).length = pre.length + 2 + 2 from by simp [u16b]] at hU3
  simp only [hU3]
  have hU4 := unpackU16_enc (pre ++ u16b a ++ u16b b ++ u16b c)
    (u16b e ++ u16b f ++ post) d
  rw [show (pre ++ u16b a ++ u16b b ++ u16b c) ++ u16b d ++ (u16b e ++ u16b f ++ post)
      = pre ++ u16b a ++ u16b b ++ u16b c ++ u16b d ++ u16b e ++ u16b f ++ post from by simp,
    Nat.mod_eq_of_lt hd,
    show (pre ++ u16b a ++ u16b b ++ u16b c).length = pre.length + 2 + 2 + 2 from by
      simp [u16b]] at hU4
  simp only [hU4]
  have hU5 := unpackU16_enc (pre ++ u16b a ++ u16b b ++ u16b c ++ u16b d)
    (u16b f ++ post) e
  rw [show (pre ++ u16b a ++ u16b b ++ u16b c ++ u16b d) ++ u16b e ++ (u16b f ++ post)
      = pre ++ u16b a ++ u16b b ++ u16b c ++ u16b d ++ u16b e ++ u16b f ++ post from by simp,
    Nat.mod_eq_of_lt he,
    show (pre ++ u16b a ++ u16b b ++ u16b c ++ u16b d).length
      = pre.length + 2 + 2 + 2 + 2 from by simp [u16b]] at hU5
  simp only [hU5]
  have hU6 := unpackU16_enc (pre ++ u16b a ++ u16b b ++ u16b c ++ u16b d ++ u16b e) post f
  rw [Nat.mod_eq_of_lt hf,
    show (pre ++ u16b a ++ u16b b ++ u16b c ++ u16b d ++ u16b e).length
      = pre.length + 2 + 2 + 2 + 2 + 2 from by simp [u16b]] at hU6
  simp only [hU6]

/-- Decoding one packed question reproduces it. -/
theorem unpackQuestionStruct_enc (q : Question) (pre post : List Nat)
    (hv : validQ q = true) :
    unpackQuestionStruct (pre ++ encQ q ++ post) pre.length
      = .ret (q, pre.length + (encQ q).length) none := by
  simp only [validQ, Bool.and_eq_true, decide_eq_true_eq] at hv
  obtain ⟨⟨hn, hqt⟩, hqc⟩ := hv
  have hqlen : (encQ q).length = (encN q.name).length + 4 := by
    simp only [encQ, List.length_append, u16b, List.length_cons, List.length_nil] <;> omega
  have hBsh : pre ++ encQ q ++ post
      = pre ++ encN q.name ++ (u16b q.qtype ++ u16b q.qclass ++ post) := by
    rw [encQ]
    simp
  rw [unpackQuestionStruct, hBsh]
  rw [UnpackDomainName_enc q.name pre (u16b q.qtype ++ u16b q.qclass ++ post) hn]
  have hU1 := unpackU16_enc (pre ++ encN q.name) (u16b q.qclass ++ post) q.qtype
  rw [show (pre ++ encN q.name) ++ u16b q.qtype ++ (u16b q.qclass ++ post)
      = pre ++ encN q.name ++ (u16b q.qtype ++ u16b q.qclass ++ post) from by simp,
    Nat.mod_eq_of_lt hqt,
    show (pre ++ encN q.name).length = pre.length + (encN q.name).length from by simp] at hU1
  simp only [hU1]
  have hU2 := unpackU16_enc (pre ++ encN q.name ++ u16b q.qtype) post q.qclass
  rw [show (pre ++ encN q.name ++ u16b q.qtype) ++ u16b q.qclass ++ post
      = pre ++ encN q.name ++ (u16b q.qtype ++ u16b q.qclass ++ post) from by simp,
    Nat.mod_eq_of_lt hqc,
    show (pre ++ encN q.name ++ u16b q.qtype).length
      = pre.length + (encN q.name).length + 2 from by simp [u16b] <;> omega] at hU2
  simp only [hU2]
  rw [show (⟨q.name, q.qtype, q.qclass⟩ : Question) = q from rfl]
  rw [show pre.length + (encN q.name).length + 2 + 2
      = pre.length + (encQ q).length from by omega]

/-- Decoding the fixed record part reproduces its five fields. -/
theorem unpackRRHeaderStruct_enc (nm : List Nat) (rt rc ttl rdl : Nat) (pre post : List Nat)
    (hv : validName nm = true) (hrt : rt < 65536) (hrc : rc < 65536)
    (httl : ttl < 4294967296) (hrdl : rdl < 65536) :
    unpackRRHeaderStruct (pre ++ encN nm ++ u16b rt ++ u16b rc ++ u32b ttl
        ++ u16b rdl ++ post) pre.length
      = .ret (⟨nm, rt, rc, ttl, rdl⟩, pre.length + (encN nm).length + 10) none := by
  rw [unpackRRHeaderStruct]
  rw [show pre ++ encN nm ++ u16b rt ++ u16b rc ++ u32b ttl ++ u16b rdl ++ post
      = pre ++ encN nm ++ (u16b rt ++ u16b rc ++ u32b ttl ++ u16b rdl ++ post) from by simp]
  rw [UnpackDomainName_enc nm pre (u16b rt ++ u16b rc ++ u32b ttl ++ u16b rdl ++ post) hv]
  have hU1 := unpackU16_enc (pre ++ encN nm) (u16b rc ++ u32b ttl ++ u16b rdl ++ post) rt
  rw [show (pre ++ encN nm) ++ u16b rt ++ (u16b rc ++ u32b ttl ++ u16b rdl ++ post)
      = pre ++ encN nm ++ (u16b rt ++ u16b rc ++ u32b ttl ++ u16b rdl ++ post) from by simp,
    Nat.mod_eq_of_lt hrt,
    show (pre ++ encN nm).length = pre.length + (encN nm).length from by simp] at hU1
  simp only [hU1]
  have hU2 := unpackU16_enc (pre ++ encN nm ++ u16b rt) (u32b ttl ++ u16b rdl ++ post) rc
  rw [show (pre ++ encN nm ++ u16b rt) ++ u16b rc ++ (u32b ttl ++ u16b rdl ++ post)
      = pre ++ encN nm ++ (u16b rt ++ u16b rc ++ u32b ttl ++ u16b rdl ++ post) from by simp,
    Nat.mod_eq_of_lt hrc,
    show (pre ++ encN nm ++ u16b rt).length
      = pre.length + (encN nm).length + 2 from by simp [u16b] <;> omega] at hU2
  simp only [hU2]
  have hU3 := unpackU32_enc (pre ++ encN nm ++ u16b rt ++ u16b rc) (u16b rdl ++ post) ttl
  rw [show (pre ++ encN nm ++ u16b rt ++ u16b rc) ++ u32b ttl ++ (u16b rdl ++ post)
      = pre ++ encN nm ++ (u16b rt ++ u16b rc ++ u32b ttl ++ u16b rdl ++ post) from by simp,
    Nat.mod_eq_of_lt httl,
    show (pre ++ encN nm ++ u16b rt ++ u16b rc).length
      = pre.length + (encN nm).length + 2 + 2 from by simp [u16b] <;> omega] at hU3
  simp only [hU3]
  have hU4 := unpackU16_enc (pre ++ encN nm ++ u16b rt ++ u16b rc ++ u32b ttl) post rdl
  rw [show (pre ++ encN nm ++ u16b rt ++ u16b rc ++ u32b ttl) ++ u16b rdl ++ post
      = pre ++ encN nm ++ (u16b rt ++ u16b rc ++ u32b ttl ++ u16b rdl ++ post) from by simp,
    Nat.mod_eq_of_lt hrdl,
    show (pre ++ encN nm ++ u16b rt ++ u16b rc ++ u32b ttl).length
      = pre.length + (encN nm).length + 2 + 2 + 4 from by simp [u16b, u32b] <;> omega] at hU4
  simp only [hU4]

/-- Decoding four address bytes builds the canonical 16-byte value. -/
theorem unpackIPv4Go_enc (A post : List Nat) (b0 b1 b2 b3 : Nat) :
    unpackIPv4Go (A ++ [b0, b1, b2, b3] ++ post) A.length
      = .ret ([0, 0, 0, 0, 0, 0, 0, 0, 0, 0, 255, 255, b0, b1, b2, b3],
          A.length + 4) none := by
  rw [unpackIPv4Go]
  rw [if_neg (by simp <;> omega)]
  have g0 : (A ++ [b0, b1, b2, b3] ++ post).getD A.length 0 = b0 := by
    rw [List.append_assoc, show A.length = A.length + 0 from rfl, getD_append_len]
    rfl
  have g1 : (A ++ [b0, b1, b2, b3] ++ post).getD (A.length + 1) 0 = b1 := by
    rw [List.append_assoc, getD_append_len]
    rfl
  have g2 : (A ++ [b0, b1, b2, b3] ++ post).getD (A.length + 2) 0 = b2 := by
    rw [List.append_assoc, getD_append_len]
    rfl
  have g3 : (A ++ [b0, b1, b2, b3] ++ post).getD (A.length + 3) 0 = b3 := by
    rw [List.append_assoc, getD_append_len]
    rfl
  rw [g0, g1, g2, g3]

/-- Decoding the wire image of a valid A or CNAME record reproduces the
record with its RDLENGTH recomputed, landing exactly on the declared end. -/
theorem UnpackRR_enc (rr : RR) (pre post : List Nat) (hv : validRRrec rr = true) :
    UnpackRR (pre ++ encRR rr ++ post) pre.length
      = .ret (some (canonRR rr), pre.length + (encRR rr).length) none := by
  cases rr with
  | txt h ss => simp [validRRrec] at hv
  | nsec h nd bm => simp [validRRrec] at hv
  | unknown h rd => simp [validRRrec] at hv
  | hdrOnly h => simp [validRRrec] at hv
  | a h ip =>
    simp only [validRRrec, Bool.and_eq_true, decide_eq_true_eq, List.all_eq_true] at hv
    obtain ⟨⟨⟨⟨⟨⟨hn, hrt⟩, hrc⟩, httl⟩, h16⟩, htk⟩, hbz⟩ := hv
    have h4 : (ip.drop 12).length = 4 := by simp [h16]
    have hElen : (encRR (RR.a h ip)).length = (encN h.name).length + 14 := by
      simp only [encRR, RR.header, encPayload, List.length_append, u16b, u32b,
        List.length_cons, List.length_nil] <;> omega
    have hBsh : pre ++ encRR (RR.a h ip) ++ post
        = pre ++ encN h.name ++ u16b h.rrtype ++ u16b h.rclass ++ u32b h.ttl
          ++ u16b (ip.drop 12).length ++ (ip.drop 12 ++ post) := by
      simp only [encRR, RR.header, encPayload]
      simp
    rw [UnpackRR, hBsh, hrt]
    have hhd := unpackRRHeaderStruct_enc h.name 1 h.rclass h.ttl (ip.drop 12).length
      pre (ip.drop 12 ++ post) hn (by omega) hrc httl (by omega)
    simp only [hhd]
    rw [show rrMk 1 = RRKind.ka from rfl]
    rw [unpackStructRR]
    simp only [hhd]
    have hA2 : pre ++ encN h.name ++ u16b 1 ++ u16b h.rclass ++ u32b h.ttl
          ++ u16b (ip.drop 12).length ++ (ip.drop 12 ++ post)
        = (pre ++ encN h.name ++ u16b 1 ++ u16b h.rclass ++ u32b h.ttl
            ++ u16b (ip.drop 12).length)
          ++ [ip.getD 12 0, ip.getD 13 0, ip.getD 14 0, ip.getD 15 0] ++ post := by
      rw [← drop12_eq_getD ip h16]
      simp
    have hoffh : pre.length + (encN h.name).length + 10
        = (pre ++ encN h.name ++ u16b 1 ++ u16b h.rclass ++ u32b h.ttl
            ++ u16b (ip.drop 12).length).length := by
      simp only [List.length_append, u16b, u32b, List.length_cons, List.length_nil]
        <;> omega
    rw [hA2, hoffh]
    have hipeq : ip = [0, 0, 0, 0, 0, 0, 0, 0, 0, 0, 255, 255,
        ip.getD 12 0, ip.getD 13 0, ip.getD 14 0, ip.getD 15 0] := by
      conv_lhs => rw [← List.take_append_drop 12 ip]
      rw [htk, drop12_eq_getD ip h16]
      rfl
    have hIP := unpackIPv4Go_enc (pre ++ encN h.name ++ u16b 1 ++ u16b h.rclass
      ++ u32b h.ttl ++ u16b (ip.drop 12).length) post
      (ip.getD 12 0) (ip.getD 13 0) (ip.getD 14 0) (ip.getD 15 0)
    rw [← hipeq] at hIP
    simp only [hIP]
    rw [if_neg (show ¬ (pre ++ encN h.name ++ u16b 1 ++ u16b h.rclass ++ u32b h.ttl
          ++ u16b (ip.drop 12).length).length + 4
        ≠ (pre ++ encN h.name ++ u16b 1 ++ u16b h.rclass ++ u32b h.ttl
          ++ u16b (ip.drop 12).length).length + (ip.drop 12).length from by
      rw [h4]; omega)]
    rw [show canonRR (RR.a h ip)
        = RR.a ⟨h.name, h.rrtype, h.rclass, h.ttl, (ip.drop 12).length⟩ ip from rfl, hrt]
    rw [h4]
    rw [show (pre ++ encN h.name ++ u16b 1 ++ u16b h.rclass ++ u32b h.ttl
          ++ u16b 4).length + 4
        = pre.length + (encRR (RR.a h ip)).length from by
      rw [hElen]
      simp only [List.length_append, u16b, u32b, List.length_cons, List.length_nil]
        <;> omega]
  | cname h tg =>
    simp only [validRRrec, Bool.and_eq_true, decide_eq_true_eq] at hv
    obtain ⟨⟨⟨⟨hn, hrt⟩, hrc⟩, httl⟩, htg⟩ := hv
    obtain ⟨-, -, htg255, -⟩ := validName_spec tg htg
    have htglen : (encN tg).length = tg.length + 1 := encN_length tg htg
    have hElen : (encRR (RR.cname h tg)).length
        = (encN h.name).length + 10 + (encN tg).length := by
      simp only [encRR, RR.header, encPayload, List.length_append, u16b, u32b,
        List.length_cons, List.length_nil] <;> omega
    have hBsh : pre ++ encRR (RR.cname h tg) ++ post
        = pre ++ encN h.name ++ u16b h.rrtype ++ u16b h.rclass ++ u32b h.ttl
          ++ u16b (encN tg).length ++ (encN tg ++ post) := by
      simp only [encRR, RR.header, encPayload]
      simp
    rw [UnpackRR, hBsh, hrt]
    have hhd := unpackRRHeaderStruct_enc h.name 5 h.rclass h.ttl (encN tg).length
      pre (encN tg ++ post) hn (by omega) hrc httl (by omega)
    simp only [hhd]
    rw [show rrMk 5 = RRKind.kcname from rfl]
    rw [unpackStructRR]
    simp only [hhd]
    have hA2 : pre ++ encN h.name ++ u16b 5 ++ u16b h.rclass ++ u32b h.ttl
          ++ u16b (encN tg).length ++ (encN tg ++ post)
        = (pre ++ encN h.name ++ u16b 5 ++ u16b h.rclass ++ u32b h.ttl
            ++ u16b (encN tg).length) ++ encN tg ++ post := by
      simp
    have hoffh : pre.length + (encN h.name).length + 10
        = (pre ++ encN h.name ++ u16b 5 ++ u16b h.rclass ++ u32b h.ttl
            ++ u16b (encN tg).length).length := by
      simp only [List.length_append, u16b, u32b, List.length_cons, List.length_nil]
        <;> omega
    rw [hA2, hoffh]
    have hDN := UnpackDomainName_enc tg (pre ++ encN h.name ++ u16b 5 ++ u16b h.rclass
      ++ u32b h.ttl ++ u16b (encN tg).length) post htg
    simp only [hDN]
    rw [if_neg (show ¬ (pre ++ encN h.name ++ u16b 5 ++ u16b h.rclass ++ u32b h.ttl
          ++ u16b (encN tg).length).length + (encN tg).length
        ≠ (pre ++ encN h.name ++ u16b 5 ++ u16b h.rclass ++ u32b h.ttl
          ++ u16b (encN tg).length).length + (encN tg).length from by omega)]
    rw [show canonRR (RR.cname h tg)
        = RR.cname ⟨h.name, h.rrtype, h.rclass, h.ttl, (encN tg).length⟩ tg from rfl, hrt]
    rw [show (pre ++ encN h.name ++ u16b 5 ++ u16b h.rclass ++ u32b h.ttl
          ++ u16b (encN tg).length).length + (encN tg).length
        = pre.length + (encRR (RR.cname h tg)).length from by
      rw [hElen]
      simp only [List.length_append, u16b, u32b, List.length_cons, List.length_nil]
        <;> omega]

/-- One pass of the question loop writes each question in sequence. -/
theorem packQuestionLoop_enc : ∀ (qs : List Question) (pre rest : List Nat)
    (tbl : Option CTable),
    (∀ q ∈ qs, validQ q = true) → (encQs qs).length ≤ rest.length →
    ∃ tbl2, packQuestionLoop qs (pre ++ rest) tbl pre.length none false
      = .st (pre ++ encQs qs ++ rest.drop (encQs qs).length) tbl2
          (pre.length + (encQs qs).length) none := by
  intro qs
  induction qs with
  | nil =>
    intro pre rest tbl _ _
    exact ⟨tbl, by simp [packQuestionLoop, encQs]⟩
  | cons q qs ih =>
    intro pre rest tbl hv hb
    have hlen : (encQs (q :: qs)).length = (encQ q).length + (encQs qs).length := by
      simp [encQs]
    rw [hlen] at hb
    obtain ⟨tbl2, hq⟩ := packStructQuestion_enc q pre rest tbl (hv q (by simp)) (by omega)
    rw [packQuestionLoop]
    simp only [hq]
    obtain ⟨tbl3, hrec⟩ := ih (pre ++ encQ q) (rest.drop (encQ q).length) tbl2
      (fun x hx => hv x (by simp [hx])) (by simp only [List.length_drop]; omega)
    rw [show (pre ++ encQ q).length = pre.length + (encQ q).length from by simp] at hrec
    refine ⟨tbl3, ?_⟩
    rw [hrec]
    have hA : (pre ++ encQ q) ++ encQs qs
          ++ (rest.drop (encQ q).length).drop (encQs qs).length
        = pre ++ encQs (q :: qs) ++ rest.drop (encQs (q :: qs)).length := by
      rw [List.drop_drop]
      rw [show (encQs (q :: qs)).length = (encQ q).length + (encQs qs).length from by
        simp [encQs]]
      rw [show encQs (q :: qs) = encQ q ++ encQs qs from rfl]
      simp
    have hB : pre.length + (encQ q).length + (encQs qs).length
        = pre.length + (encQs (q :: qs)).length := by
      rw [show (encQs (q :: qs)).length = (encQ q).length + (encQs qs).length from by
        simp [encQs]]
      omega
    rw [hA, hB]

/-- One pass of a record-section loop writes each record in sequence, with
its RDLENGTH patched. -/
theorem packRRLoop_enc : ∀ (rrs : List (Option RR)) (pre rest : List Nat)
    (tbl : Option CTable),
    (∀ e ∈ rrs, validRRopt e = true) → (encRRs rrs).length ≤ rest.length →
    ∃ tbl2, packRRLoop rrs (pre ++ rest) tbl pre.length none false
      = .st (pre ++ encRRs rrs ++ rest.drop (encRRs rrs).length) tbl2
          (pre.length + (encRRs rrs).length) none := by
  intro rrs
  induction rrs with
  | nil =>
    intro pre rest tbl _ _
    exact ⟨tbl, by simp [packRRLoop, encRRs]⟩
  | cons e rrs ih =>
    intro pre rest tbl hv hb
    cases e with
    | none => exact absurd (hv none (by simp)) (by simp [validRRopt])
    | some rr =>
      have hvr : validRRrec rr = true := by
        have := hv (some rr) (by simp)
        simpa [validRRopt] using this
      have hlen : (encRRs (some rr :: rrs)).length
          = (encRR rr).length + (encRRs rrs).length := by
        simp [encRRs, encRRopt]
      rw [hlen] at hb
      obtain ⟨tbl2, hrr⟩ := PackRR_enc rr pre rest tbl hvr (by omega)
      rw [packRRLoop]
      simp only [hrr]
      obtain ⟨tbl3, hrec⟩ := ih (pre ++ encRR rr) (rest.drop (encRR rr).length) tbl2
        (fun x hx => hv x (by simp [hx])) (by simp only [List.length_drop]; omega)
      rw [show (pre ++ encRR rr).length = pre.length + (encRR rr).length from by simp]
        at hrec
      refine ⟨tbl3, ?_⟩
      rw [hrec]
      have hA : (pre ++ encRR rr) ++ encRRs rrs
            ++ (rest.drop (encRR rr).length).drop (encRRs rrs).length
          = pre ++ encRRs (some rr :: rrs)
            ++ rest.drop (encRRs (some rr :: rrs)).length := by
        rw [List.drop_drop]
        rw [show (encRRs (some rr :: rrs)).length
            = (encRR rr).length + (encRRs rrs).length from by simp [encRRs, encRRopt]]
        rw [show encRRs (some rr :: rrs) = encRR rr ++ encRRs rrs from by
          simp [encRRs, encRRopt]]
        simp
      have hB : pre.length + (encRR rr).length + (encRRs rrs).length
          = pre.length + (encRRs (some rr :: rrs)).length := by
        rw [show (encRRs (some rr :: rrs)).length
            = (encRR rr).length + (encRRs rrs).length from by simp [encRRs, encRRopt]]
        omega
      rw [hA, hB]

/-- The question decode loop over the packed section reproduces it. -/
theorem unpackQuestionLoop_enc : ∀ (qs : List Question) (pre post : List Nat),
    (∀ q ∈ qs, validQ q = true) →
    unpackQuestionLoop qs.length (pre ++ encQs qs ++ post) pre.length none
      = .st qs (pre.length + (encQs qs).length) none := by
  intro qs
  induction qs with
  | nil =>
    intro pre post _
    rw [show ([] : List Question).length = 0 from rfl, unpackQuestionLoop]
    simp [encQs]
  | cons q qs ih =>
    intro pre post hv
    rw [show (q :: qs).length = qs.length + 1 from rfl, unpackQuestionLoop]
    have hBsh : pre ++ encQs (q :: qs) ++ post
        = pre ++ encQ q ++ (encQs qs ++ post) := by
      rw [show encQs (q :: qs) = encQ q ++ encQs qs from rfl]
      simp
    rw [hBsh]
    have hQ := unpackQuestionStruct_enc q pre (encQs qs ++ post) (hv q (by simp))
    simp only [hQ]
    have hrec := ih (pre ++ encQ q) post (fun x hx => hv x (by simp [hx]))
    rw [show (pre ++ encQ q) ++ encQs qs ++ post
        = pre ++ encQ q ++ (encQs qs ++ post) from by simp,
      show (pre ++ encQ q).length = pre.length + (encQ q).length from by simp] at hrec
    simp only [hrec]
    rw [show pre.length + (encQ q).length + (encQs qs).length
        = pre.length + (encQs (q :: qs)).length from by
      rw [show (encQs (q :: qs)).length = (encQ q).length + (encQs qs).length from by
        simp [encQs]]
      omega]

/-- A record-section decode loop over the packed section reproduces it,
record by record, with each RDLENGTH recomputed. -/
theorem unpackRRLoop_enc : ∀ (rrs : List (Option RR)) (pre post : List Nat),
    (∀ e ∈ rrs, validRRopt e = true) →
    unpackRRLoop rrs.length (pre ++ encRRs rrs ++ post) pre.length none
      = .st (rrs.map canonRRopt) (pre.length + (encRRs rrs).length) none := by
  intro rrs
  induction rrs with
  | nil =>
    intro pre post _
    rw [show ([] : List (Option RR)).length = 0 from rfl, unpackRRLoop]
    simp [encRRs]
  | cons e rrs ih =>
    intro pre post hv
    cases e with
    | none => exact absurd (hv none (by simp)) (by simp [validRRopt])
    | some rr =>
      have hvr : validRRrec rr = true := by
        have := hv (some rr) (by simp)
        simpa [validRRopt] using this
      rw [show (some rr :: rrs).length = rrs.length + 1 from rfl, unpackRRLoop]
      have hBsh : pre ++ encRRs (some rr :: rrs) ++ post
          = pre ++ encRR rr ++ (encRRs rrs ++ post) := by
        rw [show encRRs (some rr :: rrs) = encRR rr ++ encRRs rrs from by
          simp [encRRs, encRRopt]]
        simp
      rw [hBsh]
      have hR := UnpackRR_enc rr pre (encRRs rrs ++ post) hvr
      simp only [hR]
      have hrec := ih (pre ++ encRR rr) post (fun x hx => hv x (by simp [hx]))
      rw [show (pre ++ encRR rr) ++ encRRs rrs ++ post
          = pre ++ encRR rr ++ (encRRs rrs ++ post) from by simp,
        show (pre ++ encRR rr).length = pre.length + (encRR rr).length from by simp] at hrec
      simp only [hrec]
      rw [show (some rr :: rrs).map canonRRopt
          = canonRRopt (some rr) :: rrs.map canonRRopt from rfl]
      rw [show canonRRopt (some rr) = some (canonRR rr) from rfl]
      rw [show pre.length + (encRR rr).length + (encRRs rrs).length
          = pre.length + (encRRs (some rr :: rrs)).length from by
        rw [show (encRRs (some rr :: rrs)).length
            = (encRR rr).length + (encRRs rrs).length from by simp [encRRs, encRRopt]]
        omega]

theorem encQ_len_eq (q : Question) (hv : validQ q = true) :
    (encQ q).length = questionLen q := by
  simp only [validQ, Bool.and_eq_true, decide_eq_true_eq] at hv
  rw [questionLen]
  simp only [encQ, List.length_append, u16b, List.length_cons, List.length_nil,
    encN_length q.name hv.1.1] <;> omega

theorem encRR_len_eq (rr : RR) (hv : validRRrec rr = true) :
    (encRR rr).length = rrLenEst rr := by
  cases rr with
  | txt h ss => simp [validRRrec] at hv
  | nsec h nd bm => simp [validRRrec] at hv
  | unknown h rd => simp [validRRrec] at hv
  | hdrOnly h => simp [validRRrec] at hv
  | a h ip =>
    simp only [validRRrec, Bool.and_eq_true, decide_eq_true_eq, List.all_eq_true] at hv
    obtain ⟨⟨⟨⟨⟨⟨hn, -⟩, -⟩, -⟩, h16⟩, -⟩, -⟩ := hv
    rw [show rrLenEst (RR.a h ip) = (RR.a h ip).header.name.length + 1 + 10 + 4 from rfl]
    simp only [encRR, RR.header, encPayload, List.length_append, u16b, u32b,
      List.length_cons, List.length_nil, encN_length h.name hn, List.length_drop, h16]
      <;> omega
  | cname h tg =>
    simp only [validRRrec, Bool.and_eq_true, decide_eq_true_eq] at hv
    obtain ⟨⟨⟨⟨hn, -⟩, -⟩, -⟩, htg⟩ := hv
    rw [show rrLenEst (RR.cname h tg)
        = (RR.cname h tg).header.name.length + 1 + 10 + (tg.length + 1) from rfl]
    simp only [encRR, RR.header, encPayload, List.length_append, u16b, u32b,
      List.length_cons, List.length_nil, encN_length h.name hn, encN_length tg htg]
      <;> omega

theorem lenLoopQ_none : ∀ (qs : List Question) (l : Nat),
    (∀ q ∈ qs, validQ q = true) →
    lenLoopQ qs l none = (l + (encQs qs).length, none) := by
  intro qs
  induction qs with
  | nil => intro l _; simp [lenLoopQ, encQs]
  | cons q qs ih =>
    intro l hv
    rw [lenLoopQ]
    rw [ih (l + questionLen q) (fun x hx => hv x (by simp [hx]))]
    rw [← encQ_len_eq q (hv q (by simp))]
    rw [show (encQs (q :: qs)).length = (encQ q).length + (encQs qs).length from by
      simp [encQs]]
    rw [show l + (encQ q).length + (encQs qs).length
        = l + ((encQ q).length + (encQs qs).length) from by omega]

theorem lenLoopRR_none : ∀ (rrs : List (Option RR)) (l : Nat),
    (∀ e ∈ rrs, validRRopt e = true) →
    lenLoopRR rrs l none = (l + (encRRs rrs).length, none) := by
  intro rrs
  induction rrs with
  | nil => intro l _; simp [lenLoopRR, encRRs]
  | cons e rrs ih =>
    intro l hv
    cases e with
    | none => exact absurd (hv none (by simp)) (by simp [validRRopt])
    | some rr =>
      have hvr : validRRrec rr = true := by
        have := hv (some rr) (by simp)
        simpa [validRRopt] using this
      rw [lenLoopRR]
      rw [ih (l + rrLenEst rr) (fun x hx => hv x (by simp [hx]))]
      rw [← encRR_len_eq rr hvr]
      rw [show (encRRs (some rr :: rrs)).length
          = (encRR rr).length + (encRRs rrs).length from by simp [encRRs, encRRopt]]
      rw [show l + (encRR rr).length + (encRRs rrs).length
          = l + ((encRR rr).length + (encRRs rrs).length) from by omega]

/-- For a valid uncompressed message the length estimator computes exactly
the encoded size. -/
theorem MsgLen_enc (m : Msg) (hv : validMsgC1 m = true) :
    MsgLen m = (encMsg m).length := by
  simp only [validMsgC1, Bool.and_eq_true, decide_eq_true_eq, List.all_eq_true] at hv
  obtain ⟨⟨⟨⟨⟨⟨⟨⟨⟨⟨⟨hcomp, hid⟩, hop⟩, hrc⟩, hqc⟩, hac⟩, hnc⟩, hec⟩, hq⟩, hans⟩, hns⟩, hex⟩
    := hv
  rw [MsgLen]
  rw [show (if m.compress then some ([] : CTable) else none) = none from by
    rw [hcomp]; rfl]
  rw [lenLoopQ_none m.question 12 hq]
  rw [lenLoopRR_none m.answer _ hans]
  rw [lenLoopRR_none m.ns _ hns]
  rw [lenLoopRR_none m.extra _ hex]
  rw [show (encMsg m).length = 12 + (encQs m.question).length + (encRRs m.answer).length
      + (encRRs m.ns).length + (encRRs m.extra).length from by
    simp only [encMsg, encHdr, List.length_append, u16b, List.length_cons, List.length_nil]
      <;> omega]

/-- `PackStruct` on the wire header writes the six 16-bit fields at the
front of the buffer. -/
theorem packStructHeader_enc (a b c d e f : Nat) (rest : List Nat) (h : 12 ≤ rest.length) :
    packStructHeader ⟨a, b, c, d, e, f⟩ rest 0
      = .ret (u16b a ++ u16b b ++ u16b c ++ u16b d ++ u16b e ++ u16b f
          ++ rest.drop 12, 12) none := by
  have hU := packU16List_enc [a, b, c, d, e, f] [] rest
    (by simp only [List.length_cons, List.length_nil]; omega)
  rw [packStructHeader]
  rw [show (u16b a ++ u16b b ++ u16b c ++ u16b d ++ u16b e ++ u16b f ++ rest.drop 12)
      = u16s [a, b, c, d, e, f] ++ rest.drop 12 from by simp [u16s]]
  simpa using hU

/-- `Msg.Pack` on a valid uncompressed message emits exactly the wire image
`encMsg` with a nil error: the header, then each section in sequence, and the
final `msg[:off]` cut falls 10 bytes short of the preallocated buffer. -/
theorem MsgPack_enc (m : Msg) (hv : validMsgC1 m = true) :
    MsgPack m = .ret (some (encMsg m)) none := by
  have hML := MsgLen_enc m hv
  simp only [validMsgC1, Bool.and_eq_true, decide_eq_true_eq, List.all_eq_true] at hv
  obtain ⟨⟨⟨⟨⟨⟨⟨⟨⟨⟨⟨hcomp, hid⟩, hop⟩, hrc⟩, hqc⟩, hac⟩, hnc⟩, hec⟩, hq⟩, hans⟩, hns⟩, hex⟩
    := hv
  have hHdr12 : (encHdr m).length = 12 := by simp [encHdr, u16b]
  have hlenE : (encMsg m).length = 12 + (encQs m.question).length
      + (encRRs m.answer).length + (encRRs m.ns).length + (encRRs m.extra).length := by
    simp only [encMsg, encHdr, List.length_append, u16b, List.length_cons, List.length_nil]
      <;> omega
  simp only [MsgPack]
  rw [hML, hcomp]
  have hH := packStructHeader_enc m.id (packBits m) (m.question.length % 65536)
    (m.answer.length % 65536) (m.ns.length % 65536) (m.extra.length % 65536)
    (List.replicate ((encMsg m).length + 10) 0)
    (by rw [List.length_replicate]; omega)
  rw [show u16b m.id ++ u16b (packBits m) ++ u16b (m.question.length % 65536)
      ++ u16b (m.answer.length % 65536) ++ u16b (m.ns.length % 65536)
      ++ u16b (m.extra.length % 65536)
      ++ (List.replicate ((encMsg m).length + 10) 0).drop 12
      = encHdr m ++ List.replicate ((encQs m.question).length + (encRRs m.answer).length
          + (encRRs m.ns).length + (encRRs m.extra).length + 10) 0 from by
    rw [List.drop_replicate, encHdr]
    rw [show (encMsg m).length + 10 - 12
        = (encQs m.question).length + (encRRs m.answer).length
          + (encRRs m.ns).length + (encRRs m.extra).length + 10 from by omega]] at hH
  simp only [hH]
  obtain ⟨tbl2, hQ⟩ := packQuestionLoop_enc m.question (encHdr m)
    (List.replicate ((encQs m.question).length + (encRRs m.answer).length
      + (encRRs m.ns).length + (encRRs m.extra).length + 10) 0) (some [])
    hq (by rw [List.length_replicate]; omega)
  rw [hHdr12] at hQ
  simp only [hQ]
  rw [show (List.replicate ((encQs m.question).length + (encRRs m.answer).length
      + (encRRs m.ns).length + (encRRs m.extra).length + 10) (0 : Nat)).drop
        (encQs m.question).length
      = List.replicate ((encRRs m.answer).length + (encRRs m.ns).length
          + (encRRs m.extra).length + 10) 0 from by
    rw [List.drop_replicate]
    rw [show (encQs m.question).length + (encRRs m.answer).length + (encRRs m.ns).length
        + (encRRs m.extra).length + 10 - (encQs m.question).length
        = (encRRs m.answer).length + (encRRs m.ns).length + (encRRs m.extra).length + 10
        from by omega]]
  obtain ⟨tbl3, hA⟩ := packRRLoop_enc m.answer (encHdr m ++ encQs m.question)
    (List.replicate ((encRRs m.answer).length + (encRRs m.ns).length
      + (encRRs m.extra).length + 10) 0) tbl2 hans (by rw [List.length_replicate]; omega)
  rw [show (encHdr m ++ encQs m.question).length = 12 + (encQs m.question).length from by
    rw [List.length_append, hHdr12]] at hA
  simp only [hA]
  rw [show (List.replicate ((encRRs m.answer).length + (encRRs m.ns).length
      + (encRRs m.extra).length + 10) (0 : Nat)).drop (encRRs m.answer).length
      = List.replicate ((encRRs m.ns).length + (encRRs m.extra).length + 10) 0 from by
    rw [List.drop_replicate]
    rw [show (encRRs m.answer).length + (encRRs m.ns).length + (encRRs m.extra).length
        + 10 - (encRRs m.answer).length
        = (encRRs m.ns).length + (encRRs m.extra).length + 10 from by omega]]
  obtain ⟨tbl4, hN⟩ := packRRLoop_enc m.ns
    (encHdr m ++ encQs m.question ++ encRRs m.answer)
    (List.replicate ((encRRs m.ns).length + (encRRs m.extra).length + 10) 0) tbl3 hns
    (by rw [List.length_replicate]; omega)
  rw [show (encHdr m ++ encQs m.question ++ encRRs m.answer).length
      = 12 + (encQs m.question).length + (encRRs m.answer).length from by
    rw [List.length_append, List.length_append, hHdr12]] at hN
  simp only [hN]
  rw [show (List.replicate ((encRRs m.ns).length + (encRRs m.extra).length + 10)
        (0 : Nat)).drop (encRRs m.ns).length
      = List.replicate ((encRRs m.extra).length + 10) 0 from by
    rw [List.drop_replicate]
    rw [show (encRRs m.ns).length + (encRRs m.extra).length + 10 - (encRRs m.ns).length
        = (encRRs m.extra).length + 10 from by omega]]
  obtain ⟨tbl5, hE⟩ := packRRLoop_enc m.extra
    (encHdr m ++ encQs m.question ++ encRRs m.answer ++ encRRs m.ns)
    (List.replicate ((encRRs m.extra).length + 10) 0) tbl4 hex
    (by rw [List.length_replicate]; omega)
  rw [show (encHdr m ++ encQs m.question ++ encRRs m.answer ++ encRRs m.ns).length
      = 12 + (encQs m.question).length + (encRRs m.answer).length
        + (encRRs m.ns).length from by
    rw [List.length_append, List.length_append, List.length_append, hHdr12]] at hE
  simp only [hE]
  rw [show (List.replicate ((encRRs m.extra).length + 10) (0 : Nat)).drop
        (encRRs m.extra).length
      = List.replicate 10 0 from by
    rw [List.drop_replicate]
    rw [show (encRRs m.extra).length + 10 - (encRRs m.extra).length = 10 from by omega]]
  have hB5len : (encHdr m ++ encQs m.question ++ encRRs m.answer ++ encRRs m.ns
      ++ encRRs m.extra ++ List.replicate 10 (0 : Nat)).length
      = 12 + (encQs m.question).length + (encRRs m.answer).length
        + (encRRs m.ns).length + (encRRs m.extra).length + 10 := by
    simp only [List.length_append, List.length_replicate, hHdr12] <;> omega
  split
  · rename_i hgt
    rw [hB5len] at hgt
    exact absurd hgt (by omega)
  · rw [show (12 + (encQs m.question).length + (encRRs m.answer).length
        + (encRRs m.ns).length + (encRRs m.extra).length)
        = (encHdr m ++ encQs m.question ++ encRRs m.answer ++ encRRs m.ns
          ++ encRRs m.extra).length from by
      simp only [List.length_append, hHdr12]]
    rw [List.take_left, encMsg]

/-- `Msg.Unpack` on the wire image of a valid uncompressed message decodes
the header word back into the individual flags, reads exactly the declared
number of entries per section, finds no trailing bytes, and rebuilds every
field of the message with each RDLENGTH recomputed. -/
theorem MsgUnpack_enc (m : Msg) (hv : validMsgC1 m = true) :
    MsgUnpack (encMsg m) = .ret (some (canonMsg m)) none := by
  simp only [validMsgC1, Bool.and_eq_true, decide_eq_true_eq, List.all_eq_true] at hv
  obtain ⟨⟨⟨⟨⟨⟨⟨⟨⟨⟨⟨hcomp, hid⟩, hop⟩, hrc⟩, hqc⟩, hac⟩, hnc⟩, hec⟩, hq⟩, hans⟩, hns⟩, hex⟩
    := hv
  have hHdr12 : (encHdr m).length = 12 := by simp [encHdr, u16b]
  have hlenE : (encMsg m).length = 12 + (encQs m.question).length
      + (encRRs m.answer).length + (encRRs m.ns).length + (encRRs m.extra).length := by
    simp only [encMsg, encHdr, List.length_append, u16b, List.length_cons, List.length_nil]
      <;> omega
  simp only [MsgUnpack]
  have hHd := unpackStructHeader_enc (encMsg m) []
    (encQs m.question ++ encRRs m.answer ++ encRRs m.ns ++ encRRs m.extra) 0
    m.id (packBits m) (m.question.length % 65536) (m.answer.length % 65536)
    (m.ns.length % 65536) (m.extra.length % 65536)
    (by rw [encMsg, encHdr]; simp) rfl hid (packBits_lt m hop hrc)
    (Nat.mod_lt _ (by omega)) (Nat.mod_lt _ (by omega)) (Nat.mod_lt _ (by omega))
    (Nat.mod_lt _ (by omega))
  rw [show (0 : Nat) + 12 = 12 from rfl] at hHd
  simp only [hHd]
  rw [Nat.mod_eq_of_lt hqc, Nat.mod_eq_of_lt hac, Nat.mod_eq_of_lt hnc,
    Nat.mod_eq_of_lt hec]
  have hQl := unpackQuestionLoop_enc m.question (encHdr m)
    (encRRs m.answer ++ encRRs m.ns ++ encRRs m.extra) hq
  rw [show encHdr m ++ encQs m.question
      ++ (encRRs m.answer ++ encRRs m.ns ++ encRRs m.extra) = encMsg m from by
    rw [encMsg]; simp,
    hHdr12] at hQl
  simp only [hQl]
  have hAl := unpackRRLoop_enc m.answer (encHdr m ++ encQs m.question)
    (encRRs m.ns ++ encRRs m.extra) hans
  rw [show (encHdr m ++ encQs m.question) ++ encRRs m.answer
      ++ (encRRs m.ns ++ encRRs m.extra) = encMsg m from by rw [encMsg]; simp,
    show (encHdr m ++ encQs m.question).length = 12 + (encQs m.question).length from by
      rw [List.length_append, hHdr12]] at hAl
  simp only [hAl]
  have hNl := unpackRRLoop_enc m.ns (encHdr m ++ encQs m.question ++ encRRs m.answer)
    (encRRs m.extra) hns
  rw [show (encHdr m ++ encQs m.question ++ encRRs m.answer) ++ encRRs m.ns
      ++ encRRs m.extra = encMsg m from by rw [encMsg],
    show (encHdr m ++ encQs m.question ++ encRRs m.answer).length
      = 12 + (encQs m.question).length + (encRRs m.answer).length from by
      rw [List.length_append, List.length_append, hHdr12]] at hNl
  simp only [hNl]
  have hEl := unpackRRLoop_enc m.extra
    (encHdr m ++ encQs m.question ++ encRRs m.answer ++ encRRs m.ns) [] hex
  rw [show (encHdr m ++ encQs m.question ++ encRRs m.answer ++ encRRs m.ns)
      ++ encRRs m.extra ++ ([] : List Nat) = encMsg m from by rw [encMsg]; simp,
    show (encHdr m ++ encQs m.question ++ encRRs m.answer ++ encRRs m.ns).length
      = 12 + (encQs m.question).length + (encRRs m.answer).length
        + (encRRs m.ns).length from by
      rw [List.length_append, List.length_append, List.length_append, hHdr12]] at hEl
  simp only [hEl]
  have hcnd : ¬(12 + (encQs m.question).length + (encRRs m.answer).length
      + (encRRs m.ns).length + (encRRs m.extra).length ≠ (encMsg m).length) := by
    rw [hlenE]
    exact fun h => h rfl
  simp only [eq_false hcnd, if_false]
  obtain ⟨e1, e2, e3, e4, e5, e6, e7, e8, e9, e10⟩ := packBits_extract m hop hrc
  rw [canonMsg, e1, e2, e3, e4, e5, e6, e7, e8, e9, e10]

/-- C1: amended round trip.  Packing a valid `Compress=false` message of the
A/CNAME class with `Msg.Pack` returns exactly its wire image `encMsg` with a
nil error, and unpacking that image with `Msg.Unpack` returns the message
field-for-field — header id and flags, the four sections in order, domain
names case-preserved, TTLs preserved — with each RDLENGTH recomputed from
the actual payload (`canonMsg`). -/
theorem msg_roundtrip_uncompressed (m : Msg) (hv : validMsgC1 m = true) :
    MsgPack m = .ret (some (encMsg m)) none
    ∧ MsgUnpack (encMsg m) = .ret (some (canonMsg m)) none :=
  ⟨MsgPack_enc m hv, MsgUnpack_enc m hv⟩

theorem msg_roundtrip_uncompressed_witness :
    MsgPack wMsg = .ret (some (encMsg wMsg)) none
    ∧ MsgUnpack (encMsg wMsg) = .ret (some (canonMsg wMsg)) none :=
  msg_roundtrip_uncompressed wMsg (by decide)

end DnsCodec
